import Mathlib

/-!
# Deadlock detection and recovery: resource-state safety engine

A shallow embedding of the class `DeadlockDetector` of
`deadlock_detection_and_recovery.cpp` and theorems about it.

Conventions of the embedding

* `int` values are integers (`Int`).  The additions that accumulate, `work[j] +=`,
  `available[j] +=`, `totalAlloc +=` and `totalAllocated +=`, reduce their result into the
  32-bit two's-complement range (`wrapInt`), as the compiled program does; `InRange` names
  the states on which none of them leaves the range.  The subtraction in `calculateNeed`
  and the arithmetic of a request are exact: they stay in range on states with entries
  between `0` and `INT_MAX` and requests that pass the admission tests with non-negative
  amounts.
* `vector<int>` is `List Int`, `vector<vector<int>>` is `List (List Int)`,
  `vector<bool>` is `List Bool`.  Reads use a default (`0`, `[]`, `false`) and
  writes outside the vector are dropped; on states with consistent dimensions
  (`WF`) neither default is ever used.
* Loop counters and process indices are natural numbers; the sentinel `-1` of a
  selection loop is `none`.
* Console output is not modelled, except that the message deciding the outcome
  of an operation is returned as a value of an outcome type.
* `while` loops carry a fuel argument, the number of iterations allowed, and
  return `none` when another iteration is due and none is left.
-/

namespace Deadlock

/-! ## Data model -/

/-- INT_MAX of `<climits>` for a 32-bit `int`. -/
def INT_MAX : Int := 2147483647

/-- INT_MIN of `<climits>` for a 32-bit `int`. -/
def INT_MIN : Int := -2147483648

/-- The value an `int` holds after an addition whose exact result is `x`: the result reduced
into the two's-complement range `[INT_MIN, INT_MAX]`, which is what the compiled program
does on overflow. -/
def wrapInt (x : Int) : Int := (x + 2147483648) % 4294967296 - 2147483648

/-- The private data members of `class DeadlockDetector`. -/
structure DeadlockDetector where
  numProcesses : Nat
  numResources : Nat
  available : List Int
  maximum : List (List Int)
  allocation : List (List Int)
  need : List (List Int)
deriving DecidableEq, Repr

/-- Read `v[j]`. -/
def vget (v : List Int) (j : Nat) : Int := v.getD j 0

/-- Read `m[i][j]`. -/
def mget (m : List (List Int)) (i j : Nat) : Int := (m.getD i []).getD j 0

/-- Write `m[i][j] = x`. -/
def mset (m : List (List Int)) (i j : Nat) (x : Int) : List (List Int) :=
  m.set i ((m.getD i []).set j x)

/-- Read `(*terminatedProcesses)[i]`; a null pointer masks nothing. -/
def masked (mask : Option (List Bool)) (i : Nat) : Bool :=
  match mask with
  | none => false
  | some t => t.getD i false

/-- Consistent dimensions: every vector has the size the counters announce. -/
def WF (d : DeadlockDetector) : Prop :=
  d.available.length = d.numResources ∧
  d.maximum.length = d.numProcesses ∧
  d.allocation.length = d.numProcesses ∧
  d.need.length = d.numProcesses ∧
  (∀ r ∈ d.maximum, r.length = d.numResources) ∧
  (∀ r ∈ d.allocation, r.length = d.numResources) ∧
  (∀ r ∈ d.need, r.length = d.numResources)

instance (d : DeadlockDetector) : Decidable (WF d) := by
  unfold WF; infer_instance

/-- A termination mask, when given, has one flag per process. -/
def MaskWF (d : DeadlockDetector) (mask : Option (List Bool)) : Prop :=
  match mask with
  | none => True
  | some t => t.length = d.numProcesses

instance (d : DeadlockDetector) (mask : Option (List Bool)) : Decidable (MaskWF d mask) := by
  unfold MaskWF; cases mask <;> infer_instance

/-- The body of `calculateNeed` for one entry. -/
def needEntry (d : DeadlockDetector) (i j : Nat) : Int :=
  let n := mget d.maximum i j - mget d.allocation i j
  if n < 0 then 0 else n

/-- The function `calculateNeed`: `need.assign(P, vector(R, 0))`, then every entry is set. -/
def calculateNeed (d : DeadlockDetector) : DeadlockDetector :=
  { d with need := (List.range d.numProcesses).map fun i =>
      (List.range d.numResources).map fun j => needEntry d i j }

/-! ## Safety evaluator -/

/-- The local variables of the scan loop of the two evaluators. -/
structure Scan where
  work : List Int
  finish : List Bool
  safeSequence : List Nat
  found : Bool
  count : Int
deriving DecidableEq, Repr

/-- The flags `finish` after the mask has been copied in. -/
def initFinish (d : DeadlockDetector) (mask : Option (List Bool)) : List Bool :=
  match mask with
  | none => List.replicate d.numProcesses false
  | some t =>
    (List.range d.numProcesses).foldl
      (fun f i => if t.getD i false then f.set i true else f)
      (List.replicate d.numProcesses false)

/-- The counter `active`: `numProcesses` minus one per masked process. -/
def activeCount (d : DeadlockDetector) (mask : Option (List Bool)) : Int :=
  match mask with
  | none => (d.numProcesses : Int)
  | some t =>
    (List.range d.numProcesses).foldl
      (fun a i => if t.getD i false then a - 1 else a) (d.numProcesses : Int)

/-- The loop `canFinish`: no resource `j` has `need[i][j] > work[j]`. -/
def canFinish (d : DeadlockDetector) (work : List Int) (i : Nat) : Bool :=
  (List.range d.numResources).all fun j => !decide (mget d.need i j > vget work j)

/-- The loop `work[j] += allocation[i][j]`. -/
def release (d : DeadlockDetector) (work : List Int) (i : Nat) : List Int :=
  (List.range d.numResources).foldl
    (fun w j => w.set j (wrapInt (vget w j + mget d.allocation i j))) work

/-- The body of the `for i` loop of `bankersAlgorithmCompute`. -/
def computeStep (d : DeadlockDetector) (sc : Scan) (i : Nat) : Scan :=
  if !(sc.finish.getD i false) then
    if canFinish d sc.work i then
      { work := release d sc.work i
        finish := sc.finish.set i true
        safeSequence := sc.safeSequence ++ [i]
        found := true
        count := sc.count + 1 }
    else sc
  else sc

/-- One pass of the `while` loop of `bankersAlgorithmCompute`: `found = false`, then the
`for i` loop. -/
def computePass (d : DeadlockDetector) (sc : Scan) : Scan :=
  (List.range d.numProcesses).foldl (computeStep d) { sc with found := false }

/-- The loop `while (count < active)` of `bankersAlgorithmCompute`.  The result is the returned
flag and the content of `safeSequence` at the return; `fuel` bounds the number of passes. -/
def computeLoop (d : DeadlockDetector) (active : Int) (fuel : Nat) (sc : Scan) :
    Option (Bool × List Nat) :=
  if sc.count < active then
    match fuel with
    | 0 => none
    | fuel + 1 =>
      let sc1 := computePass d sc
      if !sc1.found then some (false, sc1.safeSequence)
      else computeLoop d active fuel sc1
  else some (true, sc.safeSequence)

/-- The function `bankersAlgorithmCompute`.  The output vector is cleared on entry, so its
initial content is no argument. -/
def bankersAlgorithmCompute (d : DeadlockDetector) (mask : Option (List Bool)) :
    Option (Bool × List Nat) :=
  computeLoop d (activeCount d mask) d.numProcesses
    { work := d.available
      finish := initFinish d mask
      safeSequence := []
      found := false
      count := 0 }

/-- The body of the `for i` loop of `bankersAlgorithmDetection`. -/
def detectStep (d : DeadlockDetector) (sc : Scan) (i : Nat) : Scan :=
  if !(sc.finish.getD i false) then
    if canFinish d sc.work i then
      { work := release d sc.work i
        safeSequence := sc.safeSequence ++ [i]
        finish := sc.finish.set i true
        found := true
        count := sc.count + 1 }
    else sc
  else sc

/-- One pass of the `while` loop of `bankersAlgorithmDetection`. -/
def detectPass (d : DeadlockDetector) (sc : Scan) : Scan :=
  (List.range d.numProcesses).foldl (detectStep d) { sc with found := false }

/-- The loop `while (count < activeProcesses)` of `bankersAlgorithmDetection`. -/
def detectLoop (d : DeadlockDetector) (active : Int) (fuel : Nat) (sc : Scan) :
    Option (Bool × List Nat) :=
  if sc.count < active then
    match fuel with
    | 0 => none
    | fuel + 1 =>
      let sc1 := detectPass d sc
      if !sc1.found then some (false, sc1.safeSequence)
      else detectLoop d active fuel sc1
  else some (true, sc.safeSequence)

/-- The function `bankersAlgorithmDetection`, its printing left out. -/
def bankersAlgorithmDetection (d : DeadlockDetector) (mask : Option (List Bool)) :
    Option (Bool × List Nat) :=
  detectLoop d (activeCount d mask) d.numProcesses
    { work := d.available
      finish := initFinish d mask
      safeSequence := []
      found := false
      count := 0 }

/-! ## Replaying a sequence -/

/-- Process `i` can run at work vector `w`: `Need[i][j] ≤ w j` for every resource `j`. -/
def fits (d : DeadlockDetector) (w : Nat → Int) (i : Nat) : Bool :=
  (List.range d.numResources).all fun j => decide (mget d.need i j ≤ w j)

/-- The work vector after process `i` has returned its allocation. -/
def gain (d : DeadlockDetector) (w : Nat → Int) (i : Nat) : Nat → Int :=
  fun j => w j + mget d.allocation i j

/-- Replay of a sequence from work vector `w`: each process must fit at its turn and then
returns its allocation. -/
def replayOK (d : DeadlockDetector) (w : Nat → Int) : List Nat → Bool
  | [] => true
  | i :: t => fits d w i && replayOK d (gain d w i) t

/-- The work vector at the end of a replay. -/
def workAfter (d : DeadlockDetector) (w : Nat → Int) : List Nat → Nat → Int
  | [] => w
  | i :: t => workAfter d (gain d w i) t

/-- The processes the evaluator has to place: those below `numProcesses` that the mask leaves. -/
def nonMasked (d : DeadlockDetector) (mask : Option (List Bool)) : Finset Nat :=
  (Finset.range d.numProcesses).filter fun i => masked mask i = false

/-! ## Request transaction -/

/-- The message `requestResources` prints last, which tells why it returns what it returns. -/
inductive RequestOutcome where
  /-- Message "Invalid process ID!" -/
  | invalidProcess
  /-- Message "Request vector length mismatch!" -/
  | lengthMismatch
  /-- Message "[REQUEST DENIED] Request exceeds maximum need!" -/
  | exceedsNeed
  /-- Message "[REQUEST DENIED] Resources not currently available!" -/
  | unavailable
  /-- Message "[REQUEST DENIED] Allocation would lead to unsafe state." -/
  | unsafeState
  /-- Message "[REQUEST GRANTED] Resources allocated safely." -/
  | granted
deriving DecidableEq, Repr

/-- The admission loop of `requestResources` over the indices still to visit: the reason of the
first `return false`, or `none` when the loop runs to its end. -/
def admission (d : DeadlockDetector) (p : Nat) (requestVec : List Int) :
    List Nat → Option RequestOutcome
  | [] => none
  | i :: rest =>
    if vget requestVec i > mget d.need p i then some RequestOutcome.exceedsNeed
    else if vget requestVec i > vget d.available i then some RequestOutcome.unavailable
    else admission d p requestVec rest

/-- The body of the loop that applies a request tentatively. -/
def applyRequestStep (p : Nat) (requestVec : List Int) (d : DeadlockDetector) (i : Nat) :
    DeadlockDetector :=
  { d with
    available := d.available.set i (vget d.available i - vget requestVec i)
    allocation := mset d.allocation p i (mget d.allocation p i + vget requestVec i)
    need := mset d.need p i (mget d.need p i - vget requestVec i) }

/-- The loop that applies a request tentatively. -/
def applyRequest (d : DeadlockDetector) (p : Nat) (requestVec : List Int) : DeadlockDetector :=
  (List.range d.numResources).foldl (applyRequestStep p requestVec) d

/-- The function `requestResources`: the outcome and the state it leaves.  The `bool` it
returns is `true` exactly for the outcome `granted`. -/
def requestResources (d : DeadlockDetector) (processId : Int) (requestVec : List Int) :
    Option (RequestOutcome × DeadlockDetector) :=
  if processId < 0 ∨ processId ≥ (d.numProcesses : Int) then
    some (RequestOutcome.invalidProcess, d)
  else if requestVec.length ≠ d.numResources then
    some (RequestOutcome.lengthMismatch, d)
  else
    let p := processId.toNat
    match admission d p requestVec (List.range d.numResources) with
    | some reason => some (reason, d)
    | none =>
      let oldAvailable := d.available
      let oldAlloc := d.allocation.getD p []
      let oldNeed := d.need.getD p []
      let d1 := applyRequest d p requestVec
      match bankersAlgorithmDetection d1 none with
      | none => none
      | some (true, _) => some (RequestOutcome.granted, d1)
      | some (false, _) =>
        some (RequestOutcome.unsafeState,
          { d1 with
            available := oldAvailable
            allocation := d1.allocation.set p oldAlloc
            need := d1.need.set p oldNeed })

/-- The tentative state in the words of the specification: `Available -= amounts`,
`Allocation[processId] += amounts`, `Need[processId] -= amounts`, nothing else touched. -/
def tentativeState (d : DeadlockDetector) (p : Nat) (amounts : List Int) : DeadlockDetector :=
  { d with
    available := List.zipWith (fun a r => a - r) d.available amounts
    allocation := d.allocation.set p (List.zipWith (fun a r => a + r) (d.allocation.getD p []) amounts)
    need := d.need.set p (List.zipWith (fun n r => n - r) (d.need.getD p []) amounts) }

/-! ## Recovery -/

/-- The loop `totalAlloc += allocation[i][j]`. -/
def totalAlloc (d : DeadlockDetector) (i : Nat) : Int :=
  (List.range d.numResources).foldl (fun t j => wrapInt (t + mget d.allocation i j)) 0

/-- The victim-selection loop at the head of `processTermination`; the pair is
`(culprit, minAlloc)`. -/
def selectCulprit (d : DeadlockDetector) : Option Nat × Int :=
  (List.range d.numProcesses).foldl
    (fun st i => if totalAlloc d i < st.2 ∧ totalAlloc d i > 0 then (some i, totalAlloc d i) else st)
    (none, INT_MAX)

/-- The victim-selection loop of `resourcePreemption`; the pair is `(victim, minAlloc)`. -/
def selectVictim (d : DeadlockDetector) : Option Nat × Int :=
  (List.range d.numProcesses).foldl
    (fun st i => if totalAlloc d i > 0 ∧ totalAlloc d i < st.2 then (some i, totalAlloc d i) else st)
    (none, INT_MAX)

/-- The victim-selection loop of the escalation of `processTermination`; the pair is
`(minProcess, minAllocation2)`. -/
def selectMinProcess (d : DeadlockDetector) (terminated : List Bool) : Option Nat × Int :=
  (List.range d.numProcesses).foldl
    (fun st i =>
      if !(terminated.getD i false) then
        if totalAlloc d i < st.2 then (some i, totalAlloc d i) else st
      else st)
    (none, INT_MAX)

/-- The body of the loop that terminates process `c`:
`available[j] += allocation[c][j]; allocation[c][j] = 0; need[c][j] = 0`. -/
def terminateStep (c : Nat) (d : DeadlockDetector) (j : Nat) : DeadlockDetector :=
  { d with
    available := d.available.set j (wrapInt (vget d.available j + mget d.allocation c j))
    allocation := mset d.allocation c j 0
    need := mset d.need c j 0 }

/-- The loop that terminates process `c`. -/
def terminate (d : DeadlockDetector) (c : Nat) : DeadlockDetector :=
  (List.range d.numResources).foldl (terminateStep c) d

/-- The message `processTermination` prints last. -/
inductive TerminationOutcome where
  /-- Message "No recovery needed (system safe)." -/
  | notNeeded
  /-- Message "No suitable culprit to terminate." -/
  | noCulprit
  /-- Message "Recovered. New safe sequence: ..." or "Recovered after terminating n processes. ..." -/
  | recovered
  /-- Message "Recovery failed: still unsafe after terminations." -/
  | failed
deriving DecidableEq, Repr

/-- What `processTermination` leaves behind: the message, the state, the local vector
`terminated`, the processes announced as terminated in the order of the announcements, the
counter `terminationCount` and the content of `safeSeq`. -/
structure TerminationResult where
  outcome : TerminationOutcome
  state : DeadlockDetector
  terminated : List Bool
  victims : List Nat
  terminationCount : Nat
  safeSeq : List Nat
deriving DecidableEq, Repr

/-- The escalation loop `while (true)` of `processTermination`; `fuel` bounds the number of
iterations. -/
def escalate (fuel : Nat) (d : DeadlockDetector) (terminated : List Bool) (victims : List Nat)
    (terminationCount : Nat) (safeSeq : List Nat) : Option TerminationResult :=
  match fuel with
  | 0 => none
  | fuel + 1 =>
    match (selectMinProcess d terminated).1 with
    | none =>
      some { outcome := TerminationOutcome.failed, state := d, terminated := terminated
             victims := victims, terminationCount := terminationCount, safeSeq := safeSeq }
    | some minProcess =>
      let d1 := terminate d minProcess
      let terminated1 := terminated.set minProcess true
      match bankersAlgorithmCompute d1 (some terminated1) with
      | none => none
      | some (true, seq) =>
        some { outcome := TerminationOutcome.recovered, state := d1, terminated := terminated1
               victims := victims ++ [minProcess], terminationCount := terminationCount + 1
               safeSeq := seq }
      | some (false, seq) =>
        escalate fuel d1 terminated1 (victims ++ [minProcess]) (terminationCount + 1) seq

/-- The function `processTermination`. -/
def processTermination (d : DeadlockDetector) (deadlockPreviouslyDetected : Bool) :
    Option TerminationResult :=
  if !deadlockPreviouslyDetected then
    some { outcome := TerminationOutcome.notNeeded, state := d, terminated := []
           victims := [], terminationCount := 0, safeSeq := [] }
  else
    let terminated := List.replicate d.numProcesses false
    match (selectCulprit d).1 with
    | none =>
      some { outcome := TerminationOutcome.noCulprit, state := d, terminated := terminated
             victims := [], terminationCount := 0, safeSeq := [] }
    | some culprit =>
      let d1 := terminate d culprit
      let terminated1 := terminated.set culprit true
      match bankersAlgorithmCompute d1 (some terminated1) with
      | none => none
      | some (true, seq) =>
        some { outcome := TerminationOutcome.recovered, state := d1, terminated := terminated1
               victims := [culprit], terminationCount := 1, safeSeq := seq }
      | some (false, seq) =>
        escalate d.numProcesses d1 terminated1 [culprit] 1 seq

/-- The body of the preemption loop of `resourcePreemption`, run only where
`allocation[victim][j] > 0`; the pair is the state and the local vector `preempted`. -/
def preemptStep (victim : Nat) (st : DeadlockDetector × List Bool) (j : Nat) :
    DeadlockDetector × List Bool :=
  if mget st.1.allocation victim j > 0 then
    ({ st.1 with
        available := st.1.available.set j
          (wrapInt (vget st.1.available j + mget st.1.allocation victim j))
        allocation := mset st.1.allocation victim j 0
        need := mset st.1.need victim j 0 },
      st.2.set victim true)
  else st

/-- The preemption loop of `resourcePreemption`. -/
def preempt (d : DeadlockDetector) (victim : Nat) : DeadlockDetector × List Bool :=
  (List.range d.numResources).foldl (preemptStep victim)
    (d, List.replicate d.numProcesses false)

/-- The message `resourcePreemption` prints last. -/
inductive PreemptionOutcome where
  /-- Message "No recovery needed (system safe)." -/
  | notNeeded
  /-- Message "No suitable victim found." -/
  | noVictim
  /-- Message "Recovered. Safe sequence: ..." -/
  | recovered
  /-- Message "Still unsafe after preemption. Consider termination strategy." -/
  | stillUnsafe
deriving DecidableEq, Repr

/-- What `resourcePreemption` leaves behind: the message, the state, the victim, the local
vector `preempted` and the content of `safeSeq`. -/
structure PreemptionResult where
  outcome : PreemptionOutcome
  state : DeadlockDetector
  victim : Option Nat
  preempted : List Bool
  safeSeq : List Nat
deriving DecidableEq, Repr

/-- The function `resourcePreemption`. -/
def resourcePreemption (d : DeadlockDetector) (deadlockPreviouslyDetected : Bool) :
    Option PreemptionResult :=
  if !deadlockPreviouslyDetected then
    some { outcome := PreemptionOutcome.notNeeded, state := d, victim := none
           preempted := [], safeSeq := [] }
  else
    match (selectVictim d).1 with
    | none =>
      some { outcome := PreemptionOutcome.noVictim, state := d, victim := none
             preempted := [], safeSeq := [] }
    | some victim =>
      let st := preempt d victim
      match bankersAlgorithmCompute st.1 (some st.2) with
      | none => none
      | some (true, seq) =>
        some { outcome := PreemptionOutcome.recovered, state := st.1, victim := some victim
               preempted := st.2, safeSeq := seq }
      | some (false, seq) =>
        some { outcome := PreemptionOutcome.stillUnsafe, state := st.1, victim := some victim
               preempted := st.2, safeSeq := seq }

/-- The quantity of the conservation law for resource `j`:
`Available[j]` plus the sum over the processes of `Allocation[i][j]`. -/
def totalUnits (d : DeadlockDetector) (j : Nat) : Int :=
  vget d.available j + ((List.range d.numProcesses).map fun i => mget d.allocation i j).sum

/-! ## Invariants and instances -/

/-- The state is one on which no addition of the program leaves the range of `int`:
`Available` and `Allocation` are non-negative and, for every resource `j`, the total
`Available[j] + Σ_i Allocation[i][j]` is at most `INT_MAX`. -/
def InRange (d : DeadlockDetector) : Prop :=
  (∀ j, j < d.numResources → 0 ≤ vget d.available j) ∧
  (∀ i, i < d.numProcesses → ∀ j, j < d.numResources → 0 ≤ mget d.allocation i j) ∧
  ∀ j, j < d.numResources → totalUnits d j ≤ INT_MAX

instance (d : DeadlockDetector) : Decidable (InRange d) := by
  unfold InRange; infer_instance

/-- What the scan loop of the evaluator maintains between two steps. -/
structure ScanInv (d : DeadlockDetector) (mask : Option (List Bool)) (sc : Scan) : Prop where
  finish_len : sc.finish.length = d.numProcesses
  work_len : sc.work.length = d.numResources
  nodup : sc.safeSequence.Nodup
  mem_iff : ∀ k, k ∈ sc.safeSequence ↔
    k < d.numProcesses ∧ sc.finish.getD k false = true ∧ masked mask k = false
  masked_fin : ∀ k, k < d.numProcesses → masked mask k = true → sc.finish.getD k false = true
  replay : replayOK d (vget d.available) sc.safeSequence = true
  work_eq : ∀ j, j < d.numResources →
    vget sc.work j = workAfter d (vget d.available) sc.safeSequence j
  count_eq : sc.count = (sc.safeSequence.length : Int)
  inrange : InRange d

/-- What the scan loop maintains when Allocation is non-negative, whether or not an addition
wraps around: the work vector of the program is at most the exact one. -/
structure ScanLe (d : DeadlockDetector) (mask : Option (List Bool)) (sc : Scan) : Prop where
  finish_len : sc.finish.length = d.numProcesses
  work_len : sc.work.length = d.numResources
  nodup : sc.safeSequence.Nodup
  mem_iff : ∀ k, k ∈ sc.safeSequence ↔
    k < d.numProcesses ∧ sc.finish.getD k false = true ∧ masked mask k = false
  masked_fin : ∀ k, k < d.numProcesses → masked mask k = true → sc.finish.getD k false = true
  replay : replayOK d (vget d.available) sc.safeSequence = true
  work_le : ∀ j, j < d.numResources →
    vget sc.work j ≤ workAfter d (vget d.available) sc.safeSequence j
  work_lo : ∀ j, j < d.numResources → INT_MIN ≤ vget sc.work j
  count_eq : sc.count = (sc.safeSequence.length : Int)
  alloc_nn : ∀ i, i < d.numProcesses → ∀ j, j < d.numResources → 0 ≤ mget d.allocation i j

/-- A loop body that rewrites, for one resource `j`, the entries `available[j]`,
`allocation[p][j]` and `need[p][j]` from their current values, or leaves them alone. -/
def tripleStep (p : Nat) (F : Nat → Int → Int → Int → Option (Int × Int × Int))
    (d : DeadlockDetector) (j : Nat) : DeadlockDetector :=
  match F j (vget d.available j) (mget d.allocation p j) (mget d.need p j) with
  | none => d
  | some (a, b, c) =>
    { d with
      available := d.available.set j a
      allocation := mset d.allocation p j b
      need := mset d.need p j c }

/-- The three entries for resource `j` after `tripleStep` has visited it. -/
def tripleNew (p : Nat) (F : Nat → Int → Int → Int → Option (Int × Int × Int))
    (d : DeadlockDetector) (j : Nat) : Int × Int × Int :=
  match F j (vget d.available j) (mget d.allocation p j) (mget d.need p j) with
  | none => (vget d.available j, mget d.allocation p j, mget d.need p j)
  | some t => t

/-- The request passes both admission tests at resource `k`. -/
def admits (d : DeadlockDetector) (p : Nat) (requestVec : List Int) (k : Nat) : Prop :=
  vget requestVec k ≤ mget d.need p k ∧ vget requestVec k ≤ vget d.available k

/-- A one-process state in which process 0 holds one unit and one unit is free. -/
def signState : DeadlockDetector :=
  { numProcesses := 1, numResources := 1, available := [1], maximum := [[2]]
    allocation := [[1]], need := [[1]] }

/-- A state in which resource 0 is needed but not free and resource 1 is free but not needed. -/
def orderState : DeadlockDetector :=
  { numProcesses := 1, numResources := 2, available := [0, 5], maximum := [[5, 0]]
    allocation := [[0, 0]], need := [[5, 0]] }

/-- The shape shared by the three victim-selection loops: among the candidates `c`, keep the
first index whose value `f` is below the running minimum, which starts at `INT_MAX`. -/
def selectBy (c : Nat → Bool) (f : Nat → Int) (n : Nat) : Option Nat × Int :=
  (List.range n).foldl
    (fun st i => if c i = true ∧ f i < st.2 then (some i, f i) else st) (none, INT_MAX)

/-- Invariants 1 and 2 of the data model: `0 ≤ Allocation[i][j] ≤ Maximum[i][j]` and
`Available[j] ≥ 0`. -/
def AllocInv (d : DeadlockDetector) : Prop :=
  (∀ i, i < d.numProcesses → ∀ j, j < d.numResources →
    0 ≤ mget d.allocation i j ∧ mget d.allocation i j ≤ mget d.maximum i j) ∧
  ∀ j, j < d.numResources → 0 ≤ vget d.available j

instance (d : DeadlockDetector) : Decidable (AllocInv d) := by
  unfold AllocInv; infer_instance

/-- Need is Maximum minus Allocation, entry by entry. -/
def NeedExact (d : DeadlockDetector) : Prop :=
  ∀ i, i < d.numProcesses → ∀ j, j < d.numResources →
    mget d.need i j = mget d.maximum i j - mget d.allocation i j

instance (d : DeadlockDetector) : Decidable (NeedExact d) := by
  unfold NeedExact; infer_instance

/-- A state that `bankersAlgorithmCompute` finds unsafe and that needs three terminations. -/
def fourProcesses : DeadlockDetector :=
  calculateNeed
    { numProcesses := 4, numResources := 1, available := [0]
      maximum := [[6], [6], [6], [6]], allocation := [[1], [0], [2], [3]], need := [] }

/-- A state in which process 1 holds `INT_MAX` units of resource 0 and still needs five units
of resource 1, of which there are none. -/
def sentinelState : DeadlockDetector :=
  calculateNeed
    { numProcesses := 2, numResources := 2, available := [0, 0]
      maximum := [[1, 0], [2147483647, 5]], allocation := [[1, 0], [2147483647, 0]]
      need := [] }

/-! ## Wait-for graph -/

/-- Read `m[i][k]` of a matrix of flags. -/
def bget (m : List (List Bool)) (i k : Nat) : Bool := (m.getD i []).getD k false

/-- Write `m[i][k] = true`. -/
def bset (m : List (List Bool)) (i k : Nat) : List (List Bool) :=
  m.set i ((m.getD i []).set k true)

/-- The loop that computes `isBlocked` for process `i`: some resource `j` has
`need[i][j] > available[j]`. -/
def isBlocked (d : DeadlockDetector) (i : Nat) : Bool :=
  (List.range d.numResources).any fun j => decide (mget d.need i j > vget d.available j)

/-- The loop over `k` of the graph construction: `waitForGraph[i][k] = true` for every
`k != i` with `allocation[k][j] > 0`. -/
def edgesFor (d : DeadlockDetector) (i j : Nat) (g : List (List Bool)) : List (List Bool) :=
  (List.range d.numProcesses).foldl
    (fun g k => if k ≠ i ∧ mget d.allocation k j > 0 then bset g i k else g) g

/-- The loop over `j` of the graph construction for a blocked process `i`. -/
def edgesOf (d : DeadlockDetector) (i : Nat) (g : List (List Bool)) : List (List Bool) :=
  (List.range d.numResources).foldl
    (fun g j => if mget d.need i j > vget d.available j then edgesFor d i j g else g) g

/-- The body of the loop over `i` of the graph construction; the pair is
`(waitForGraph, blocked)`. -/
def buildStep (d : DeadlockDetector) (st : List (List Bool) × List Bool) (i : Nat) :
    List (List Bool) × List Bool :=
  if !(isBlocked d i) then (st.1, st.2.set i (isBlocked d i))
  else (edgesOf d i st.1, st.2.set i (isBlocked d i))

/-- The graph construction of `waitForGraphDetection`: the pair `(waitForGraph, blocked)`. -/
def buildGraph (d : DeadlockDetector) : List (List Bool) × List Bool :=
  (List.range d.numProcesses).foldl (buildStep d)
    (List.replicate d.numProcesses (List.replicate d.numProcesses false),
      List.replicate d.numProcesses false)

/-- The vectors `visited` and `recStack` that the lambda `hasCycle` captures by reference. -/
structure Marks where
  visited : List Bool
  recStack : List Bool
deriving DecidableEq, Repr

/-- The loop `for u` inside `hasCycle(v)`, over the nodes `u` still to visit; `call` is the
recursive call.  The flag of the result is `true` when the loop executes `return true`. -/
def visitLoop (call : Nat → Marks → Option (Bool × Marks)) (g : List (List Bool)) (v : Nat) :
    List Nat → Marks → Option (Bool × Marks)
  | [], m => some (false, m)
  | u :: rest, m =>
    if bget g v u then
      if !(m.visited.getD u false) then
        match call u m with
        | none => none
        | some (true, m1) => some (true, m1)
        | some (false, m1) =>
          if m1.recStack.getD u false then some (true, m1)
          else visitLoop call g v rest m1
      else if m.recStack.getD u false then some (true, m)
      else visitLoop call g v rest m
    else visitLoop call g v rest m

/-- The recursive lambda `hasCycle` of `waitForGraphDetection` on an `n`-node graph; `fuel`
bounds the depth of the recursion. -/
def hasCycle (g : List (List Bool)) (n : Nat) : Nat → Nat → Marks → Option (Bool × Marks)
  | 0, _, _ => none
  | fuel + 1, v, m =>
    match visitLoop (hasCycle g n fuel) g v (List.range n)
        { visited := m.visited.set v true, recStack := m.recStack.set v true } with
    | none => none
    | some (true, m1) => some (true, m1)
    | some (false, m1) => some (false, { m1 with recStack := m1.recStack.set v false })

/-- The loop of `waitForGraphDetection` that starts `hasCycle` at every node not yet visited,
over the nodes still to try: `true` when a call returns `true`. -/
def searchLoop (g : List (List Bool)) (n : Nat) : List Nat → Marks → Option Bool
  | [], _ => some false
  | i :: rest, m =>
    if !(m.visited.getD i false) then
      match hasCycle g n n i m with
      | none => none
      | some (true, _) => some true
      | some (false, m1) => searchLoop g n rest m1
    else searchLoop g n rest m

/-- The cycle search of `waitForGraphDetection` on an `n`-node graph. -/
def cycleSearch (g : List (List Bool)) (n : Nat) : Option Bool :=
  searchLoop g n (List.range n)
    { visited := List.replicate n false, recStack := List.replicate n false }

/-- The message `waitForGraphDetection` prints last. -/
inductive WaitForOutcome where
  /-- Message "Deadlock exists." -/
  | cycle
  /-- Message "Safe sequence: ..." -/
  | safe
  /-- Message "Deadlock exists (unsafe state without WFG cycle)." -/
  | unsafeNoCycle
deriving DecidableEq, Repr

/-- The function `waitForGraphDetection`: the message and the `bool` it returns, which is
`true` for "no deadlock". -/
def waitForGraphDetection (d : DeadlockDetector) : Option (WaitForOutcome × Bool) :=
  match cycleSearch (buildGraph d).1 d.numProcesses with
  | none => none
  | some true => some (WaitForOutcome.cycle, false)
  | some false =>
    match bankersAlgorithmCompute d none with
    | none => none
    | some (true, _) => some (WaitForOutcome.safe, true)
    | some (false, _) => some (WaitForOutcome.unsafeNoCycle, false)

/-- The edge relation of an `n`-node graph given by a matrix of flags. -/
def Edge (g : List (List Bool)) (n : Nat) (v u : Nat) : Prop :=
  v < n ∧ u < n ∧ bget g v u = true

instance (g : List (List Bool)) (n v u : Nat) : Decidable (Edge g n v u) := by
  unfold Edge; infer_instance

/-- The graph has a directed cycle: a non-empty path from some node back to itself. -/
def HasCycle (g : List (List Bool)) (n : Nat) : Prop :=
  ∃ v, Relation.TransGen (Edge g n) v v

/-- Node `b` is finished: visited and no longer on the recursion stack. -/
def Black (m : Marks) (b : Nat) : Prop :=
  m.visited.getD b false = true ∧ m.recStack.getD b false = false

/-- What the cycle search maintains between two calls of `hasCycle` on an `n`-node graph:
the vectors have `n` entries, the recursion stack is visited, and the finished nodes are
closed under the edges and lie on no cycle. -/
structure MarksInv (g : List (List Bool)) (n : Nat) (m : Marks) : Prop where
  vis_len : m.visited.length = n
  rec_len : m.recStack.length = n
  rec_vis : ∀ k, m.recStack.getD k false = true → m.visited.getD k false = true
  closed : ∀ b u, Black m b → Edge g n b u → Black m u
  acyclic : ∀ b, Black m b → ¬ Relation.TransGen (Edge g n) b b

/-- What a call or a loop of the cycle search that does not report a cycle leaves: the
invariant, the same recursion stack, and no node unvisited that was visited. -/
structure MarksStep (g : List (List Bool)) (n : Nat) (m m1 : Marks) : Prop where
  inv : MarksInv g n m1
  rec_same : ∀ k, m1.recStack.getD k false = m.recStack.getD k false
  vis_mono : ∀ k, m.visited.getD k false = true → m1.visited.getD k false = true

/-- The number of nodes not yet visited. -/
def unvisitedCount (n : Nat) (m : Marks) : Nat :=
  ((Finset.range n).filter fun k => m.visited.getD k false = false).card

/-- What a function used as the recursive call of `visitLoop` has to deliver. -/
def CallSpec (g : List (List Bool)) (n : Nat) (bound : Nat)
    (call : Nat → Marks → Option (Bool × Marks)) : Prop :=
  ∀ v m, v < n → MarksInv g n m → m.visited.getD v false = false →
    (∀ s, m.recStack.getD s false = true → Relation.ReflTransGen (Edge g n) s v) →
    unvisitedCount n m ≤ bound →
    ∃ b m1, call v m = some (b, m1) ∧ (b = true → HasCycle g n) ∧
      (b = false → MarksStep g n m m1 ∧ m1.visited.getD v false = true)

/-- The matrix of flags has `n` rows of `n` entries. -/
def GraphWF (g : List (List Bool)) (n : Nat) : Prop :=
  g.length = n ∧ ∀ r, r ∈ g → r.length = n

/-- The condition under which the graph construction draws the edge from `a` to `b`. -/
def WaitsFor (d : DeadlockDetector) (a b : Nat) : Prop :=
  b ≠ a ∧ ∃ j, j < d.numResources ∧ mget d.need a j > vget d.available j ∧
    mget d.allocation b j > 0

/-- The wait-for relation of the state has a cycle: some process reaches itself through
one or more steps, each from a process `a` to another process `b` such that some resource `j`
has `Need[a][j] > Available[j]` and `Allocation[b][j] > 0`. -/
def WaitCycle (d : DeadlockDetector) : Prop :=
  ∃ v, Relation.TransGen
    (fun a b => a < d.numProcesses ∧ b < d.numProcesses ∧ WaitsFor d a b) v v

/-- Two processes and one resource with `INT_MAX` free units: process 0 holds one unit and
needs nothing more, process 1 holds nothing and needs five units. -/
def wrapState : DeadlockDetector :=
  calculateNeed
    { numProcesses := 2, numResources := 1, available := [2147483647]
      maximum := [[1], [5]], allocation := [[1], [0]], need := [] }

/-- The same two processes with five free units. -/
def smallState : DeadlockDetector :=
  calculateNeed
    { numProcesses := 2, numResources := 1, available := [5]
      maximum := [[1], [5]], allocation := [[1], [0]], need := [] }

/-- Two processes that hold one unit each while `INT_MAX` units are free; process 1 needs
five more. -/
def wrapTwo : DeadlockDetector :=
  calculateNeed
    { numProcesses := 2, numResources := 1, available := [2147483647]
      maximum := [[1], [6]], allocation := [[1], [1]], need := [] }

/-- Two processes over three resources: process 0 holds two units, the row of process 1 sums
to more than `INT_MAX`. -/
def wrapTotals : DeadlockDetector :=
  calculateNeed
    { numProcesses := 2, numResources := 3, available := [0, 0, 0]
      maximum := [[2, 0, 0], [2147483647, 2147483647, 3]]
      allocation := [[2, 0, 0], [2147483647, 2147483647, 3]], need := [] }

/-! ## Reference procedure of the safety evaluator -/

/-- The reference procedure may select process `i`: it is not masked, not yet in the sequence,
and its Need is at most the work vector. -/
def selectable (d : DeadlockDetector) (mask : Option (List Bool)) (w : Nat → Int)
    (seq : List Nat) (i : Nat) : Bool :=
  !(masked mask i) && !(seq.contains i) && fits d w i

/-- The lowest index among the `k` indices from `c` on that satisfies `p`. -/
def firstFrom (p : Nat → Bool) : Nat → Nat → Option Nat
  | _, 0 => none
  | c, k + 1 => if p c then some c else firstFrom p (c + 1) k

/-- Every non-masked process is in the sequence. -/
def allPlaced (d : DeadlockDetector) (mask : Option (List Bool)) (seq : List Nat) : Bool :=
  (List.range d.numProcesses).all fun i => masked mask i || seq.contains i

/-- The variables of the reference procedure: the work vector, the sequence, the index at
which the scan resumes, and whether the current scan has selected a process. -/
structure RefScan where
  work : Nat → Int
  sequence : List Nat
  cursor : Nat
  progress : Bool

/-- The reference procedure of the safety evaluator.  It repeatedly selects the lowest-index
selectable process at or after the cursor and releases its Allocation into the work vector.
With `restart = true` the scan restarts from index 0 after every selection, as the
specification words it; with `restart = false` it goes on from the index after the selected
one and returns to index 0 only when it has passed the last index.  It stops with the verdict
safe when no process is selectable and all are placed, and with the verdict unsafe when a scan
from index 0 selects nothing. -/
def referenceRun (restart : Bool) (d : DeadlockDetector) (mask : Option (List Bool)) :
    Nat → RefScan → Option (Bool × List Nat)
  | 0, _ => none
  | fuel + 1, st =>
    match firstFrom (selectable d mask st.work st.sequence) st.cursor
        (d.numProcesses - st.cursor) with
    | some i =>
      referenceRun restart d mask fuel
        { work := gain d st.work i
          sequence := st.sequence ++ [i]
          cursor := if restart then 0 else i + 1
          progress := true }
    | none =>
      if allPlaced d mask st.sequence then some (true, st.sequence)
      else if !st.progress then some (false, st.sequence)
      else referenceRun restart d mask fuel { st with cursor := 0, progress := false }

/-- The reference procedure started at `work = Available` with an empty sequence. -/
def referenceEvaluate (restart : Bool) (d : DeadlockDetector) (mask : Option (List Bool)) :
    Option (Bool × List Nat) :=
  referenceRun restart d mask (2 * d.numProcesses + 1)
    { work := vget d.available, sequence := [], cursor := 0, progress := false }

/-- Three processes of which process 0 can run only after process 1 has finished, while
processes 1 and 2 can run at once. -/
def scanOrderState : DeadlockDetector :=
  calculateNeed
    { numProcesses := 3, numResources := 1, available := [1]
      maximum := [[2], [1], [1]], allocation := [[0], [1], [0]], need := [] }

/-- The remainder of a pass of the scan loop, from index `c` on. -/
def restOfPass (d : DeadlockDetector) (sc : Scan) (c : Nat) : Scan :=
  (List.range' c (d.numProcesses - c)).foldl (computeStep d) sc

/-- What `bankersAlgorithmCompute` returns when it stands at index `c` of a pass with the
scan state `sc`. -/
def resumeAt (d : DeadlockDetector) (active : Int) (sc : Scan) (c : Nat) :
    Option (Bool × List Nat) :=
  if !(restOfPass d sc c).found then some (false, (restOfPass d sc c).safeSequence)
  else computeLoop d active d.numProcesses (restOfPass d sc c)

/-- The scan state after process `i` has been selected. -/
def fire (d : DeadlockDetector) (sc : Scan) (i : Nat) : Scan :=
  { work := release d sc.work i
    finish := sc.finish.set i true
    safeSequence := sc.safeSequence ++ [i]
    found := true
    count := sc.count + 1 }

/-! ## Further states, and the evaluators as calls -/

/-- A single process that holds part of its declared maximum, the rest being available. -/
def loneProcess : DeadlockDetector :=
  { numProcesses := 1, numResources := 2, available := [1, 0]
    maximum := [[3, 2]], allocation := [[2, 2]], need := [] }

/-- A single process whose total allocation equals `INT_MAX`. -/
def saturatedState : DeadlockDetector :=
  calculateNeed
    { numProcesses := 1, numResources := 1, available := [0]
      maximum := [[2147483647]], allocation := [[2147483647]], need := [] }

/-- A single process that holds resource 0 only and still needs three units of resource 1. -/
def partialHolder : DeadlockDetector :=
  calculateNeed
    { numProcesses := 1, numResources := 2, available := [0, 0]
      maximum := [[1, 3]], allocation := [[1, 0]], need := [] }

/-- The method `clear` of the output vector. -/
def clear (_v : List Nat) : List Nat := []

/-- The call `bankersAlgorithmDetection(safeSequence, terminatedProcesses)` as a transition:
`safeSequence.clear()` comes first, and the fields of the object are read and never
assigned.  The result is the returned flag, the output vector and the object after the
call. -/
def detectionCall (d : DeadlockDetector) (safeSequence : List Nat) (mask : Option (List Bool)) :
    Option (Bool × List Nat × DeadlockDetector) :=
  match detectLoop d (activeCount d mask) d.numProcesses
      { work := d.available
        finish := initFinish d mask
        safeSequence := clear safeSequence
        found := false
        count := 0 } with
  | none => none
  | some (b, seq) => some (b, seq, d)

/-- The call `bankersAlgorithmCompute(safeSequence, terminatedProcesses)` as a transition, in
the same way. -/
def computeCall (d : DeadlockDetector) (safeSequence : List Nat) (mask : Option (List Bool)) :
    Option (Bool × List Nat × DeadlockDetector) :=
  match computeLoop d (activeCount d mask) d.numProcesses
      { work := d.available
        finish := initFinish d mask
        safeSequence := clear safeSequence
        found := false
        count := 0 } with
  | none => none
  | some (b, seq) => some (b, seq, d)

/-- Three processes that hold one unit each of a four-unit resource; processes 0 and 1 may
claim three units, process 2 holds all it may claim. -/
def coarseState : DeadlockDetector :=
  calculateNeed
    { numProcesses := 3, numResources := 1, available := [1]
      maximum := [[3], [3], [1]], allocation := [[1], [1], [1]], need := [] }

/-- A state in which process 0 can finish and processes 1 and 2 cannot. -/
def stuckAfterOne : DeadlockDetector :=
  calculateNeed
    { numProcesses := 3, numResources := 1, available := [1]
      maximum := [[1], [5], [5]], allocation := [[0], [1], [1]], need := [] }

/-- Row `i` of Need is the view of Maximum and Allocation: `Need[i][j]` is
`max(0, Maximum[i][j] - Allocation[i][j])` for every resource `j`. -/
def NeedView (d : DeadlockDetector) (i : Nat) : Prop :=
  ∀ j, j < d.numResources →
    mget d.need i j = max 0 (mget d.maximum i j - mget d.allocation i j)

instance (d : DeadlockDetector) (i : Nat) : Decidable (NeedView d i) := by
  unfold NeedView; infer_instance

/-! ## Manual loading -/

/-- What the user types for `inputFromUser`: the two counts, the totals and the two matrices.
Every token is an integer literal, of whatever size; a token that is no integer, and the end
of the input, are not modelled. -/
structure UserInput where
  numProcesses : Int
  numResources : Int
  totalResources : List Int
  maximum : List (List Int)
  allocation : List (List Int)
deriving DecidableEq, Repr

/-- The extraction `cin >> x` of the literal `typed` into an `int` variable that holds `old`,
on a stream whose failbit is `fail`: a stream that has failed leaves the variable alone; a
literal outside the range of `int` stores the nearest bound and sets the failbit.  The
result is the variable and the failbit after the extraction. -/
def extract (fail : Bool) (typed old : Int) : Int × Bool :=
  if fail then (old, true)
  else if typed > INT_MAX then (INT_MAX, true)
  else if typed < INT_MIN then (INT_MIN, true)
  else (typed, false)

/-- The clamp `if (x < 0) x = 0` that follows every value read. -/
def clampNeg (x : Int) : Int := if x < 0 then 0 else x

/-- The body of the loop that reads the totals:
`cin >> totalResources[i]; if (totalResources[i] < 0) totalResources[i] = 0;`.
The pair is the vector and the failbit. -/
def readTotalStep (inp : UserInput) (st : List Int × Bool) (i : Nat) : List Int × Bool :=
  (st.1.set i (clampNeg (extract st.2 (vget inp.totalResources i) (vget st.1 i)).1),
    (extract st.2 (vget inp.totalResources i) (vget st.1 i)).2)

/-- The vector `totalResources(numResources)` and the loop that reads it. -/
def readTotals (inp : UserInput) (fail : Bool) : List Int × Bool :=
  (List.range inp.numResources.toNat).foldl (readTotalStep inp)
    (List.replicate inp.numResources.toNat 0, fail)

/-- The body of the inner loop that reads a matrix:
`cin >> m[i][j]; if (m[i][j] < 0) m[i][j] = 0;`.  The pair is the matrix and the failbit. -/
def readEntry (typed : List (List Int)) (i : Nat) (st : List (List Int) × Bool) (j : Nat) :
    List (List Int) × Bool :=
  (mset st.1 i j (clampNeg (extract st.2 (mget typed i j) (mget st.1 i j)).1),
    (extract st.2 (mget typed i j) (mget st.1 i j)).2)

/-- The assignment `m.assign(P, vector<int>(R, 0))` and the two loops that read the `P` rows
of `R` entries of a matrix. -/
def readMatrix (typed : List (List Int)) (P R : Nat) (fail : Bool) : List (List Int) × Bool :=
  (List.range P).foldl (fun st i => (List.range R).foldl (readEntry typed i) st)
    (List.replicate P (List.replicate R 0), fail)

/-- The loops that read Maximum. -/
def readMaximum (inp : UserInput) (fail : Bool) : List (List Int) × Bool :=
  readMatrix inp.maximum inp.numProcesses.toNat inp.numResources.toNat fail

/-- The body of the inner loop that reads Allocation: the entry is read and clamped, and the
function returns `false` when it exceeds `maximum[i][j]`; `none` stands for that return. -/
def readAllocEntry (inp : UserInput) (maximum : List (List Int)) (i : Nat)
    (st : Option (List (List Int) × Bool)) (j : Nat) : Option (List (List Int) × Bool) :=
  match st with
  | none => none
  | some s =>
    if mget (readEntry inp.allocation i s j).1 i j > mget maximum i j then none
    else some (readEntry inp.allocation i s j)

/-- The assignment `allocation.assign(P, vector<int>(R, 0))` and the loops that read
Allocation. -/
def readAllocation (inp : UserInput) (maximum : List (List Int)) (fail : Bool) :
    Option (List (List Int) × Bool) :=
  (List.range inp.numProcesses.toNat).foldl
    (fun st i => (List.range inp.numResources.toNat).foldl (readAllocEntry inp maximum i) st)
    (some (List.replicate inp.numProcesses.toNat (List.replicate inp.numResources.toNat 0),
      fail))

/-- The loop `totalAllocated += allocation[i][j]` over the processes, in `int`. -/
def totalAllocated (allocation : List (List Int)) (numProcesses j : Nat) : Int :=
  (List.range numProcesses).foldl (fun t i => wrapInt (t + mget allocation i j)) 0

/-- The vector `available` after the loop that computes it, when the loop runs to its end:
`available[j] = totalResources[j] - totalAllocated`, in `int`. -/
def readAvailable (inp : UserInput) (totalResources : List Int) (allocation : List (List Int)) :
    List Int :=
  (List.range inp.numResources.toNat).map fun j =>
    wrapInt (vget totalResources j - totalAllocated allocation inp.numProcesses.toNat j)

/-- The function `inputFromUser`.  The result is `none` when it returns `false`, and the object
it leaves when it returns `true`; what it leaves in the object when it returns `false` is not
modelled. -/
def inputFromUser (inp : UserInput) : Option DeadlockDetector :=
  if (extract false inp.numProcesses 0).2 then none
  else if (extract false inp.numResources 0).2 then none
  else if inp.numProcesses ≤ 0 ∨ inp.numResources ≤ 0 then none
  else
    match readAllocation inp (readMaximum inp (readTotals inp false).2).1
        (readMaximum inp (readTotals inp false).2).2 with
    | none => none
    | some allocation =>
      if (List.range inp.numResources.toNat).any fun j =>
          decide (vget (readAvailable inp (readTotals inp false).1 allocation.1) j < 0) then none
      else
        some (calculateNeed
          { numProcesses := inp.numProcesses.toNat
            numResources := inp.numResources.toNat
            available := readAvailable inp (readTotals inp false).1 allocation.1
            maximum := (readMaximum inp (readTotals inp false).2).1
            allocation := allocation.1
            need := [] })

/-- An entry of two processes and one resource with three units, of which two are held. -/
def sampleInput : UserInput :=
  { numProcesses := 2, numResources := 1, totalResources := [3]
    maximum := [[2], [3]], allocation := [[1], [1]] }

/-- An entry of one process and one resource whose total is above `INT_MAX`, with an
Allocation above the Maximum. -/
def hugeTotalInput : UserInput :=
  { numProcesses := 1, numResources := 1, totalResources := [3000000000]
    maximum := [[1]], allocation := [[2]] }

/-- An entry of three processes whose Allocation column sums to `2 * INT_MAX + 2`. -/
def hugeSumInput : UserInput :=
  { numProcesses := 3, numResources := 1, totalResources := [5]
    maximum := [[2147483647], [2147483647], [2]]
    allocation := [[2147483647], [2147483647], [2]] }

/-! ## The classic instance -/

/-- The classic five-process, three-resource instance. -/
def classic : DeadlockDetector :=
  calculateNeed
    { numProcesses := 5
      numResources := 3
      available := [3, 3, 2]
      maximum := [[7, 5, 3], [3, 2, 2], [9, 0, 2], [2, 2, 2], [4, 3, 3]]
      allocation := [[0, 1, 0], [2, 0, 0], [3, 0, 2], [2, 1, 1], [0, 0, 2]]
      need := [] }

/-! ## Vectors and loops over them -/

theorem getD_set_bool (l : List Bool) (i k : Nat) (v : Bool) :
    (l.set i v).getD k false = if i = k ∧ i < l.length then v else l.getD k false := by
  simp only [List.getD_eq_getElem?_getD, List.getElem?_set]
  by_cases h : i = k
  · subst h
    by_cases h2 : i < l.length
    · simp [h2]
    · simp [h2, List.getElem?_eq_none (Nat.le_of_not_lt h2)]
  · simp [h]

theorem vget_set (l : List Int) (i k : Nat) (v : Int) :
    vget (l.set i v) k = if i = k ∧ i < l.length then v else vget l k := by
  unfold vget
  simp only [List.getD_eq_getElem?_getD, List.getElem?_set]
  by_cases h : i = k
  · subst h
    by_cases h2 : i < l.length
    · simp [h2]
    · simp [h2, List.getElem?_eq_none (Nat.le_of_not_lt h2)]
  · simp [h]

theorem length_foldl_set {α : Type} (g : List α → Nat → α) (n : Nat) (w : List α) :
    ((List.range n).foldl (fun w j => w.set j (g w j)) w).length = w.length := by
  induction n with
  | zero => simp
  | succ n ih => simp [List.range_succ, List.foldl_append, ih]

theorem release_length (d : DeadlockDetector) (w : List Int) (i : Nat) :
    (release d w i).length = w.length := by
  unfold release
  exact length_foldl_set _ _ _

theorem vget_foldl_add (f : Int → Nat → Int) (n : Nat) (w : List Int) (k : Nat) :
    vget ((List.range n).foldl (fun w j => w.set j (f (vget w j) j)) w) k
      = if k < n ∧ k < w.length then f (vget w k) k else vget w k := by
  induction n with
  | zero => simp
  | succ n ih =>
    rw [List.range_succ, List.foldl_append]
    simp only [List.foldl_cons, List.foldl_nil]
    rw [vget_set, length_foldl_set (fun w j => f (vget w j) j)]
    by_cases h : n = k
    · subst h
      by_cases h2 : n < w.length
      · simp [h2, ih]
      · simp [h2, ih]
    · have : ¬ (n = k ∧ n < w.length) := fun hh => h hh.1
      rw [if_neg this, ih]
      by_cases h3 : k < n
      · have : k < n + 1 := by omega
        simp [h3, this]
      · have : ¬ k < n + 1 := by omega
        simp [h3, this]

theorem vget_release (d : DeadlockDetector) (w : List Int) (i k : Nat) :
    vget (release d w i) k
      = if k < d.numResources ∧ k < w.length then wrapInt (vget w k + mget d.allocation i k)
        else vget w k := by
  unfold release
  exact vget_foldl_add (fun a j => wrapInt (a + mget d.allocation i j)) _ _ _

theorem wrapInt_eq (x : Int) (h1 : INT_MIN ≤ x) (h2 : x ≤ INT_MAX) : wrapInt x = x := by
  unfold wrapInt
  unfold INT_MIN at h1
  unfold INT_MAX at h2
  omega

theorem wrapInt_range (x : Int) : INT_MIN ≤ wrapInt x ∧ wrapInt x ≤ INT_MAX := by
  unfold wrapInt INT_MIN INT_MAX
  omega

theorem wrapInt_le (x : Int) (h1 : INT_MIN ≤ x) : wrapInt x ≤ x := by
  unfold wrapInt
  unfold INT_MIN at h1
  omega

theorem length_foldl_mark (c : Nat → Bool) (n : Nat) (f0 : List Bool) :
    ((List.range n).foldl (fun f i => if c i then f.set i true else f) f0).length
      = f0.length := by
  induction n with
  | zero => simp
  | succ n ih =>
    rw [List.range_succ, List.foldl_append]
    simp only [List.foldl_cons, List.foldl_nil]
    split <;> simp [ih]

theorem getD_foldl_mark (c : Nat → Bool) (n : Nat) (f0 : List Bool) (k : Nat) :
    ((List.range n).foldl (fun f i => if c i then f.set i true else f) f0).getD k false
      = if k < n ∧ c k = true ∧ k < f0.length then true else f0.getD k false := by
  induction n with
  | zero => simp
  | succ n ih =>
    rw [List.range_succ, List.foldl_append]
    simp only [List.foldl_cons, List.foldl_nil]
    by_cases hc : c n = true
    · rw [if_pos hc, getD_set_bool, length_foldl_mark, ih]
      by_cases h : n = k
      · subst h
        by_cases h2 : n < f0.length
        · simp [h2, hc]
        · simp [h2, hc]
      · have h1 : ¬ (n = k ∧ n < f0.length) := fun hh => h hh.1
        rw [if_neg h1]
        by_cases h3 : k < n
        · have : k < n + 1 := by omega
          simp [h3, this]
        · have : ¬ k < n + 1 := by omega
          simp [h3, this]
    · rw [if_neg hc, ih]
      by_cases h : n = k
      · subst h
        simp [hc]
      · by_cases h3 : k < n
        · have : k < n + 1 := by omega
          simp [h3, this]
        · have : ¬ k < n + 1 := by omega
          simp [h3, this]

theorem initFinish_length (d : DeadlockDetector) (mask : Option (List Bool)) :
    (initFinish d mask).length = d.numProcesses := by
  cases mask with
  | none => simp [initFinish]
  | some t => simp [initFinish, length_foldl_mark]

theorem initFinish_getD (d : DeadlockDetector) (mask : Option (List Bool)) (k : Nat)
    (hk : k < d.numProcesses) :
    (initFinish d mask).getD k false = masked mask k := by
  cases mask with
  | none => simp [initFinish, masked, List.getD_eq_getElem?_getD, List.getElem?_replicate, hk]
  | some t =>
    simp only [initFinish, masked]
    rw [getD_foldl_mark (fun i => t.getD i false)]
    simp [hk, List.getD_eq_getElem?_getD, List.getElem?_replicate]

theorem foldl_dec (c : Nat → Bool) (n : Nat) (a : Int) :
    (List.range n).foldl (fun a i => if c i then a - 1 else a) a
      = a - (((Finset.range n).filter fun i => c i = true).card : Int) := by
  induction n with
  | zero => simp
  | succ n ih =>
    rw [List.range_succ, List.foldl_append]
    simp only [List.foldl_cons, List.foldl_nil]
    rw [ih, Finset.range_succ, Finset.filter_insert]
    by_cases hc : c n = true
    · rw [if_pos hc, if_pos hc, Finset.card_insert_of_not_mem (by simp)]
      push_cast
      ring
    · rw [if_neg hc, if_neg hc]

theorem activeCount_eq (d : DeadlockDetector) (mask : Option (List Bool)) :
    activeCount d mask = ((nonMasked d mask).card : Int) := by
  cases mask with
  | none => simp [activeCount, nonMasked, masked]
  | some t =>
    simp only [activeCount, nonMasked, masked]
    rw [foldl_dec (fun i => t.getD i false)]
    have h := Finset.filter_card_add_filter_neg_card_eq_card (s := Finset.range d.numProcesses)
      (fun i => t.getD i false = true)
    simp only [Finset.card_range, Bool.not_eq_true] at h
    omega

/-! ## Replay -/

theorem fits_iff (d : DeadlockDetector) (w : Nat → Int) (i : Nat) :
    fits d w i = true ↔ ∀ j, j < d.numResources → mget d.need i j ≤ w j := by
  simp [fits, List.all_eq_true]

theorem canFinish_eq_fits (d : DeadlockDetector) (work : List Int) (i : Nat) :
    canFinish d work i = fits d (vget work) i := by
  unfold canFinish fits
  congr 1
  funext j
  by_cases h : mget d.need i j ≤ vget work j
  · have h2 : ¬ (mget d.need i j > vget work j) := not_lt.mpr h
    simp only [h, h2, decide_True, decide_False, Bool.not_false]
  · have h2 : mget d.need i j > vget work j := not_le.mp h
    simp only [h, h2, decide_True, decide_False, Bool.not_true]

theorem fits_mono (d : DeadlockDetector) (w1 w2 : Nat → Int) (i : Nat)
    (h : ∀ j, j < d.numResources → w1 j ≤ w2 j) (h1 : fits d w1 i = true) :
    fits d w2 i = true := by
  rw [fits_iff] at *
  intro j hj
  exact le_trans (h1 j hj) (h j hj)

theorem replayOK_mono (d : DeadlockDetector) (l : List Nat) :
    ∀ w1 w2 : Nat → Int, (∀ j, j < d.numResources → w1 j ≤ w2 j) →
      replayOK d w1 l = true → replayOK d w2 l = true := by
  induction l with
  | nil => intro _ _ _ _; rfl
  | cons i t ih =>
    intro w1 w2 h h1
    simp only [replayOK, Bool.and_eq_true] at *
    refine ⟨fits_mono d w1 w2 i h h1.1, ih (gain d w1 i) (gain d w2 i) ?_ h1.2⟩
    intro j hj
    have := h j hj
    simp only [gain]
    omega

theorem replayOK_append_single (d : DeadlockDetector) (l : List Nat) (i : Nat) :
    ∀ w : Nat → Int,
      replayOK d w (l ++ [i]) = (replayOK d w l && fits d (workAfter d w l) i) := by
  induction l with
  | nil => intro w; simp [replayOK, workAfter]
  | cons k t ih => intro w; simp [replayOK, workAfter, ih, Bool.and_assoc]

theorem workAfter_append_single (d : DeadlockDetector) (l : List Nat) (i : Nat) :
    ∀ w : Nat → Int, workAfter d w (l ++ [i]) = gain d (workAfter d w l) i := by
  induction l with
  | nil => intro w; simp [workAfter]
  | cons k t ih => intro w; simp [workAfter, ih]

theorem replayOK_remove (d : DeadlockDetector) (i : Nat)
    (hnn : ∀ j, j < d.numResources → 0 ≤ mget d.allocation i j) (m : List Nat) :
    ∀ w w2 : Nat → Int, m.Nodup →
      (∀ j, j < d.numResources → w j + mget d.allocation i j ≤ w2 j) →
      replayOK d w m = true →
      replayOK d w2 (m.filter fun k => decide (k ≠ i)) = true := by
  induction m with
  | nil => intro _ _ _ _ _; rfl
  | cons k t ih =>
    intro w w2 hnd hw h
    simp only [replayOK, Bool.and_eq_true] at h
    have hnd2 := List.nodup_cons.mp hnd
    by_cases hk : k = i
    · subst hk
      have hfil : (k :: t).filter (fun x => decide (x ≠ k)) = t := by
        rw [List.filter_cons_of_neg (by simp)]
        apply List.filter_eq_self.mpr
        intro a ha
        have : a ≠ k := fun e => hnd2.1 (e ▸ ha)
        simp [this]
      rw [hfil]
      exact replayOK_mono d t (gain d w k) w2 (fun j hj => hw j hj) h.2
    · rw [List.filter_cons_of_pos (by simp [hk])]
      simp only [replayOK, Bool.and_eq_true]
      refine ⟨fits_mono d w w2 k ?_ h.1, ih (gain d w k) (gain d w2 k) hnd2.2 ?_ h.2⟩
      · intro j hj
        have h1 := hw j hj
        have h2 := hnn j hj
        omega
      · intro j hj
        have h1 := hw j hj
        simp only [gain]
        omega


/-! ## The scan loop -/

theorem detectStep_eq (d : DeadlockDetector) : detectStep d = computeStep d := rfl

theorem detectPass_eq (d : DeadlockDetector) : detectPass d = computePass d := rfl

theorem detectLoop_eq (d : DeadlockDetector) (active : Int) (fuel : Nat) (sc : Scan) :
    detectLoop d active fuel sc = computeLoop d active fuel sc := by
  induction fuel generalizing sc with
  | zero => unfold detectLoop computeLoop; rfl
  | succ n ih =>
    unfold detectLoop computeLoop
    simp only [detectPass_eq, ih]

theorem detection_eq_compute (d : DeadlockDetector) (mask : Option (List Bool)) :
    bankersAlgorithmDetection d mask = bankersAlgorithmCompute d mask := by
  unfold bankersAlgorithmDetection bankersAlgorithmCompute
  exact detectLoop_eq _ _ _ _

theorem workAfter_eq_sum (d : DeadlockDetector) (l : List Nat) :
    ∀ (w : Nat → Int) (j : Nat),
      workAfter d w l j = w j + (l.map fun k => mget d.allocation k j).sum := by
  induction l with
  | nil => intro w j; simp [workAfter]
  | cons i t ih =>
    intro w j
    rw [workAfter, ih]
    simp only [gain, List.map_cons, List.sum_cons]
    omega

theorem sum_range_eq_finset (f : Nat → Int) (n : Nat) :
    ((List.range n).map f).sum = (Finset.range n).sum f := by
  rw [← List.sum_toFinset f (List.nodup_range n)]
  congr 1
  ext k
  simp

/-- A sum over a duplicate-free list of indices below `n` is at most the sum over all
indices below `n`, when the summands are non-negative. -/
theorem partial_sum_le (f : Nat → Int) (n : Nat) (l : List Nat) (hl : l.Nodup)
    (hmem : ∀ k, k ∈ l → k < n) (hf : ∀ k, k < n → 0 ≤ f k) :
    0 ≤ (l.map f).sum ∧ (l.map f).sum ≤ ((List.range n).map f).sum := by
  rw [sum_range_eq_finset, ← List.sum_toFinset f hl]
  constructor
  · apply Finset.sum_nonneg
    intro k hk
    exact hf k (hmem k (List.mem_toFinset.mp hk))
  · apply Finset.sum_le_sum_of_subset_of_nonneg
    · intro k hk
      exact Finset.mem_range.mpr (hmem k (List.mem_toFinset.mp hk))
    · intro k hk _
      exact hf k (Finset.mem_range.mp hk)

/-- On a state in range, the work vector of a replay of distinct processes stays between
zero and `INT_MAX`. -/
theorem workAfter_range (d : DeadlockDetector) (hb : InRange d) (l : List Nat) (hl : l.Nodup)
    (hmem : ∀ k, k ∈ l → k < d.numProcesses) (j : Nat) (hj : j < d.numResources) :
    0 ≤ workAfter d (vget d.available) l j ∧
      workAfter d (vget d.available) l j ≤ INT_MAX := by
  obtain ⟨h1, h2, h3⟩ := hb
  obtain ⟨p1, p2⟩ := partial_sum_le (fun k => mget d.allocation k j) d.numProcesses l hl hmem
    (fun k hk => h2 k hk j hj)
  have ha := h1 j hj
  have ht := h3 j hj
  unfold totalUnits at ht
  rw [workAfter_eq_sum]
  constructor
  · omega
  · omega

theorem computeStep_cases (d : DeadlockDetector) (sc : Scan) (i : Nat) :
    (sc.finish.getD i false = false ∧ canFinish d sc.work i = true ∧
      computeStep d sc i =
        { work := release d sc.work i
          finish := sc.finish.set i true
          safeSequence := sc.safeSequence ++ [i]
          found := true
          count := sc.count + 1 }) ∨
    ((sc.finish.getD i false = true ∨ canFinish d sc.work i = false) ∧
      computeStep d sc i = sc) := by
  unfold computeStep
  cases hf : sc.finish.getD i false <;> cases hc : canFinish d sc.work i <;> simp

theorem computeStep_inv (d : DeadlockDetector) (mask : Option (List Bool)) (sc : Scan)
    (i : Nat) (hi : i < d.numProcesses) (h : ScanInv d mask sc) :
    ScanInv d mask (computeStep d sc i) := by
  rcases computeStep_cases d sc i with ⟨hf, hc, he⟩ | ⟨_, he⟩
  · rw [he]
    have hilen : i < sc.finish.length := by rw [h.finish_len]; exact hi
    have hnotin : i ∉ sc.safeSequence := by
      intro hin
      have := ((h.mem_iff i).mp hin).2.1
      rw [hf] at this
      exact Bool.noConfusion this
    have hnm : masked mask i = false := by
      cases hm : masked mask i
      · rfl
      · have := h.masked_fin i hi hm
        rw [hf] at this
        exact Bool.noConfusion this
    have hfit : fits d (workAfter d (vget d.available) sc.safeSequence) i = true := by
      rw [canFinish_eq_fits] at hc
      rw [fits_iff] at *
      intro j hj
      rw [← h.work_eq j hj]
      exact hc j hj
    constructor
    · simp [h.finish_len]
    · simp [release_length, h.work_len]
    · simp only
      rw [List.nodup_append]
      refine ⟨h.nodup, List.nodup_singleton i, ?_⟩
      intro a ha hb
      rw [List.mem_singleton] at hb
      subst hb
      exact hnotin ha
    · intro k
      simp only [List.mem_append, List.mem_singleton, getD_set_bool]
      by_cases hk : i = k
      · subst hk
        simp [hilen, hi, hnm]
      · have hk2 : ¬ k = i := fun e => hk e.symm
        have hk3 : ¬ (i = k ∧ i < sc.finish.length) := fun e => hk e.1
        rw [if_neg hk3, h.mem_iff k]
        simp [hk2]
    · intro k hk hm
      simp only [getD_set_bool]
      by_cases hki : i = k ∧ i < sc.finish.length
      · rw [if_pos hki]
      · rw [if_neg hki]
        exact h.masked_fin k hk hm
    · simp only
      rw [replayOK_append_single, h.replay, hfit]
      rfl
    · intro j hj
      simp only
      have hnd : (sc.safeSequence ++ [i]).Nodup := by
        rw [List.nodup_append]
        refine ⟨h.nodup, List.nodup_singleton i, ?_⟩
        intro a ha hb
        rw [List.mem_singleton] at hb
        subst hb
        exact hnotin ha
      have hmem : ∀ k, k ∈ sc.safeSequence ++ [i] → k < d.numProcesses := by
        intro k hk
        rw [List.mem_append, List.mem_singleton] at hk
        rcases hk with hk | hk
        · exact ((h.mem_iff k).mp hk).1
        · rw [hk]; exact hi
      have hr := workAfter_range d h.inrange _ hnd hmem j hj
      rw [workAfter_append_single] at hr
      rw [workAfter_append_single, vget_release, h.work_len, if_pos ⟨hj, hj⟩, h.work_eq j hj]
      have e : gain d (workAfter d (vget d.available) sc.safeSequence) i j
          = workAfter d (vget d.available) sc.safeSequence j + mget d.allocation i j := rfl
      rw [e] at hr ⊢
      apply wrapInt_eq
      · unfold INT_MIN; omega
      · exact hr.2
    · simp only [List.length_append, List.length_singleton]
      rw [h.count_eq]
      push_cast
      rfl
    · exact h.inrange
  · rw [he]
    exact h

theorem foldl_range_inv {α : Type} (step : α → Nat → α) (I : α → Prop) (n : Nat)
    (hstep : ∀ a i, i < n → I a → I (step a i)) :
    ∀ m, m ≤ n → ∀ a, I a → I ((List.range m).foldl step a) := by
  intro m
  induction m with
  | zero => intro _ a ha; simpa using ha
  | succ m ih =>
    intro hm a ha
    rw [List.range_succ, List.foldl_append]
    simp only [List.foldl_cons, List.foldl_nil]
    exact hstep _ m (by omega) (ih (by omega) a ha)

theorem scanInv_reset (d : DeadlockDetector) (mask : Option (List Bool)) (sc : Scan)
    (h : ScanInv d mask sc) : ScanInv d mask { sc with found := false } :=
  ⟨h.finish_len, h.work_len, h.nodup, h.mem_iff, h.masked_fin, h.replay, h.work_eq, h.count_eq,
    h.inrange⟩

theorem computePass_inv (d : DeadlockDetector) (mask : Option (List Bool)) (sc : Scan)
    (h : ScanInv d mask sc) : ScanInv d mask (computePass d sc) := by
  unfold computePass
  exact foldl_range_inv (computeStep d) (ScanInv d mask) d.numProcesses
    (fun a i hi ha => computeStep_inv d mask a i hi ha) d.numProcesses (le_refl _) _
    (scanInv_reset d mask sc h)

theorem computePass_progress (d : DeadlockDetector) (sc : Scan) :
    sc.count ≤ (computePass d sc).count ∧
      ((computePass d sc).found = true → sc.count < (computePass d sc).count) := by
  unfold computePass
  refine foldl_range_inv (computeStep d)
    (fun a => sc.count ≤ a.count ∧ (a.found = true → sc.count < a.count)) d.numProcesses
    ?_ d.numProcesses (le_refl _) _ ⟨le_refl _, fun h => Bool.noConfusion h⟩
  intro a i _ ha
  rcases computeStep_cases d a i with ⟨_, _, he⟩ | ⟨_, he⟩
  · rw [he]
    simp only
    constructor
    · omega
    · intro _; omega
  · rw [he]; exact ha

theorem computePass_stuck_aux (d : DeadlockDetector) (sc : Scan) :
    ∀ m, ((List.range m).foldl (computeStep d) { sc with found := false }).found = false →
      (List.range m).foldl (computeStep d) { sc with found := false }
          = { sc with found := false } ∧
        ∀ i, i < m → sc.finish.getD i false = false → canFinish d sc.work i = false := by
  intro m
  induction m with
  | zero =>
    intro _
    exact ⟨rfl, fun i hi => absurd hi (Nat.not_lt_zero i)⟩
  | succ m ih =>
    rw [List.range_succ, List.foldl_append]
    simp only [List.foldl_cons, List.foldl_nil]
    intro hfound
    rcases computeStep_cases d ((List.range m).foldl (computeStep d) { sc with found := false }) m
      with ⟨_, _, he⟩ | ⟨hno, he⟩
    · rw [he] at hfound
      exact Bool.noConfusion hfound
    · rw [he] at hfound ⊢
      obtain ⟨heq, hall⟩ := ih hfound
      refine ⟨heq, ?_⟩
      intro i hi hfi
      by_cases him : i = m
      · subst him
        rw [heq] at hno
        rcases hno with h1 | h1
        · simp only at h1
          rw [hfi] at h1
          exact Bool.noConfusion h1
        · exact h1
      · exact hall i (by omega) hfi

theorem computePass_stuck (d : DeadlockDetector) (sc : Scan)
    (h : (computePass d sc).found = false) :
    computePass d sc = { sc with found := false } ∧
      ∀ i, i < d.numProcesses → sc.finish.getD i false = false →
        canFinish d sc.work i = false :=
  computePass_stuck_aux d sc d.numProcesses h

theorem computeLoop_exit (d : DeadlockDetector) (active : Int) (fuel : Nat) (sc : Scan)
    (h : ¬ sc.count < active) :
    computeLoop d active fuel sc = some (true, sc.safeSequence) := by
  unfold computeLoop
  rw [if_neg h]

theorem computeLoop_zero (d : DeadlockDetector) (active : Int) (sc : Scan)
    (h : sc.count < active) : computeLoop d active 0 sc = none := by
  unfold computeLoop
  rw [if_pos h]

theorem computeLoop_stuck (d : DeadlockDetector) (active : Int) (fuel : Nat) (sc : Scan)
    (h : sc.count < active) (hf : (computePass d sc).found = false) :
    computeLoop d active (fuel + 1) sc = some (false, (computePass d sc).safeSequence) := by
  rw [computeLoop, if_pos h]
  simp only [hf, Bool.not_false, if_true]

theorem computeLoop_next (d : DeadlockDetector) (active : Int) (fuel : Nat) (sc : Scan)
    (h : sc.count < active) (hf : (computePass d sc).found = true) :
    computeLoop d active (fuel + 1) sc = computeLoop d active fuel (computePass d sc) := by
  rw [computeLoop, if_pos h]
  simp only [hf, Bool.not_true, Bool.false_eq_true, if_false]

theorem computeLoop_total (d : DeadlockDetector) (active : Int) :
    ∀ (fuel : Nat) (sc : Scan), active - sc.count ≤ (fuel : Int) →
      ∃ r, computeLoop d active fuel sc = some r := by
  intro fuel
  induction fuel with
  | zero =>
    intro sc h
    have hc : ¬ sc.count < active := by push_cast at h; omega
    exact ⟨_, computeLoop_exit d active 0 sc hc⟩
  | succ n ih =>
    intro sc h
    by_cases hc : sc.count < active
    · cases hf : (computePass d sc).found
      · exact ⟨_, computeLoop_stuck d active n sc hc hf⟩
      · rw [computeLoop_next d active n sc hc hf]
        apply ih
        have := (computePass_progress d sc).2 hf
        push_cast at h
        omega
    · exact ⟨_, computeLoop_exit d active _ sc hc⟩

theorem mem_nonMasked (d : DeadlockDetector) (mask : Option (List Bool)) (k : Nat) :
    k ∈ nonMasked d mask ↔ k < d.numProcesses ∧ masked mask k = false := by
  simp [nonMasked]

theorem scanInv_subset (d : DeadlockDetector) (mask : Option (List Bool)) (sc : Scan)
    (h : ScanInv d mask sc) : sc.safeSequence.toFinset ⊆ nonMasked d mask := by
  intro k hk
  rw [List.mem_toFinset, h.mem_iff] at hk
  rw [mem_nonMasked]
  exact ⟨hk.1, hk.2.2⟩

theorem scanInv_count_le (d : DeadlockDetector) (mask : Option (List Bool)) (sc : Scan)
    (h : ScanInv d mask sc) : sc.count ≤ activeCount d mask := by
  rw [activeCount_eq, h.count_eq, ← List.toFinset_card_of_nodup h.nodup]
  exact_mod_cast Finset.card_le_card (scanInv_subset d mask sc h)

theorem scanInv_covers (d : DeadlockDetector) (mask : Option (List Bool)) (sc : Scan)
    (h : ScanInv d mask sc) (hc : ¬ sc.count < activeCount d mask) (k : Nat) :
    k ∈ sc.safeSequence ↔ k < d.numProcesses ∧ masked mask k = false := by
  have hcard : (nonMasked d mask).card ≤ sc.safeSequence.toFinset.card := by
    rw [List.toFinset_card_of_nodup h.nodup]
    have h1 := h.count_eq
    have h2 := activeCount_eq d mask
    omega
  have heq := Finset.eq_of_subset_of_card_le (scanInv_subset d mask sc h) hcard
  rw [← mem_nonMasked, ← heq, List.mem_toFinset]

theorem scanInv_pending (d : DeadlockDetector) (mask : Option (List Bool)) (sc : Scan)
    (h : ScanInv d mask sc) (hc : sc.count < activeCount d mask) :
    ∃ k, k < d.numProcesses ∧ masked mask k = false ∧ sc.finish.getD k false = false := by
  by_contra hno
  push_neg at hno
  have hsub : nonMasked d mask ⊆ sc.safeSequence.toFinset := by
    intro k hk
    rw [mem_nonMasked] at hk
    rw [List.mem_toFinset, h.mem_iff]
    refine ⟨hk.1, ?_, hk.2⟩
    have := hno k hk.1 hk.2
    simpa using this
  have hcard := Finset.card_le_card hsub
  rw [List.toFinset_card_of_nodup h.nodup] at hcard
  have h1 := h.count_eq
  have h2 := activeCount_eq d mask
  omega

theorem computeLoop_sound (d : DeadlockDetector) (mask : Option (List Bool)) :
    ∀ (fuel : Nat) (sc : Scan) (seq : List Nat), ScanInv d mask sc →
      computeLoop d (activeCount d mask) fuel sc = some (true, seq) →
      seq.Nodup ∧ (∀ k, k ∈ seq ↔ k < d.numProcesses ∧ masked mask k = false) ∧
        replayOK d (vget d.available) seq = true := by
  intro fuel
  induction fuel with
  | zero =>
    intro sc seq hinv hres
    by_cases hc : sc.count < activeCount d mask
    · rw [computeLoop_zero d _ sc hc] at hres
      exact Option.noConfusion hres
    · rw [computeLoop_exit d _ 0 sc hc] at hres
      have hs : sc.safeSequence = seq := by injection hres with h1; injection h1
      subst hs
      exact ⟨hinv.nodup, scanInv_covers d mask sc hinv hc, hinv.replay⟩
  | succ n ih =>
    intro sc seq hinv hres
    by_cases hc : sc.count < activeCount d mask
    · cases hf : (computePass d sc).found
      · rw [computeLoop_stuck d _ n sc hc hf] at hres
        injection hres with h1
        injection h1 with h2 _
        exact Bool.noConfusion h2
      · rw [computeLoop_next d _ n sc hc hf] at hres
        exact ih (computePass d sc) seq (computePass_inv d mask sc hinv) hres
    · rw [computeLoop_exit d _ _ sc hc] at hres
      have hs : sc.safeSequence = seq := by injection hres with h1; injection h1
      subst hs
      exact ⟨hinv.nodup, scanInv_covers d mask sc hinv hc, hinv.replay⟩

theorem scanInv_init (d : DeadlockDetector) (mask : Option (List Bool))
    (hlen : d.available.length = d.numResources) (hb : InRange d) :
    ScanInv d mask
      { work := d.available
        finish := initFinish d mask
        safeSequence := []
        found := false
        count := 0 } := by
  constructor
  · exact initFinish_length d mask
  · exact hlen
  · exact List.nodup_nil
  · intro k
    simp only [List.not_mem_nil, false_iff, not_and]
    intro hk hfin
    rw [initFinish_getD d mask k hk] at hfin
    simp [hfin]
  · intro k hk hm
    simp only
    rw [initFinish_getD d mask k hk]
    exact hm
  · rfl
  · intro j _; rfl
  · rfl
  · exact hb

theorem computeStep_pending (d : DeadlockDetector) (mask : Option (List Bool)) (l : List Nat)
    (hl : l.Nodup)
    (hnn : ∀ i, i < d.numProcesses → ∀ j, j < d.numResources → 0 ≤ mget d.allocation i j)
    (sc : Scan) (i : Nat) (hi : i < d.numProcesses)
    (h : ScanInv d mask sc ∧
      replayOK d (vget sc.work) (l.filter fun k => !sc.finish.getD k false) = true) :
    ScanInv d mask (computeStep d sc i) ∧
      replayOK d (vget (computeStep d sc i).work)
        (l.filter fun k => !(computeStep d sc i).finish.getD k false) = true := by
  refine ⟨computeStep_inv d mask sc i hi h.1, ?_⟩
  rcases computeStep_cases d sc i with ⟨_, _, he⟩ | ⟨_, he⟩
  · rw [he]
    simp only
    have hilen : i < sc.finish.length := by rw [h.1.finish_len]; exact hi
    have hfil : (l.filter fun k => !(sc.finish.set i true).getD k false)
        = (l.filter fun k => !sc.finish.getD k false).filter fun k => decide (k ≠ i) := by
      rw [List.filter_filter]
      apply List.filter_congr
      intro k _
      rw [getD_set_bool]
      by_cases hk : i = k
      · subst hk
        simp [hilen]
      · have hk2 : ¬ (i = k ∧ i < sc.finish.length) := fun e => hk e.1
        have hk3 : k ≠ i := fun e => hk e.symm
        simp [hk2, hk3]
    rw [hfil]
    refine replayOK_remove d i (hnn i hi) _ (vget sc.work) _ (hl.filter _) ?_ h.2
    intro j hj
    have hinv2 := computeStep_inv d mask sc i hi h.1
    rw [he] at hinv2
    have e1 := hinv2.work_eq j hj
    have e2 := h.1.work_eq j hj
    simp only at e1
    rw [workAfter_append_single] at e1
    have e3 : gain d (workAfter d (vget d.available) sc.safeSequence) i j
        = workAfter d (vget d.available) sc.safeSequence j + mget d.allocation i j := rfl
    rw [e3, ← e2] at e1
    exact le_of_eq e1.symm
  · rw [he]
    exact h.2

theorem computePass_pending (d : DeadlockDetector) (mask : Option (List Bool)) (l : List Nat)
    (hl : l.Nodup)
    (hnn : ∀ i, i < d.numProcesses → ∀ j, j < d.numResources → 0 ≤ mget d.allocation i j)
    (sc : Scan)
    (h : ScanInv d mask sc ∧
      replayOK d (vget sc.work) (l.filter fun k => !sc.finish.getD k false) = true) :
    ScanInv d mask (computePass d sc) ∧
      replayOK d (vget (computePass d sc).work)
        (l.filter fun k => !(computePass d sc).finish.getD k false) = true := by
  unfold computePass
  exact foldl_range_inv (computeStep d)
    (fun a => ScanInv d mask a ∧
      replayOK d (vget a.work) (l.filter fun k => !a.finish.getD k false) = true)
    d.numProcesses (fun a i hi ha => computeStep_pending d mask l hl hnn a i hi ha)
    d.numProcesses (le_refl _) _ ⟨scanInv_reset d mask sc h.1, h.2⟩

theorem computePass_not_stuck (d : DeadlockDetector) (mask : Option (List Bool)) (l : List Nat)
    (hmem : ∀ k, k ∈ l ↔ k < d.numProcesses ∧ masked mask k = false)
    (sc : Scan) (hinv : ScanInv d mask sc)
    (hrep : replayOK d (vget sc.work) (l.filter fun k => !sc.finish.getD k false) = true)
    (hc : sc.count < activeCount d mask) :
    (computePass d sc).found = true := by
  cases hf : (computePass d sc).found
  · exfalso
    obtain ⟨_, hstuck⟩ := computePass_stuck d sc hf
    obtain ⟨k, hk, hkm, hkf⟩ := scanInv_pending d mask sc hinv hc
    have hkin : k ∈ l.filter fun k => !sc.finish.getD k false := by
      rw [List.mem_filter]
      exact ⟨(hmem k).mpr ⟨hk, hkm⟩, by rw [hkf]; rfl⟩
    cases hlist : l.filter fun k => !sc.finish.getD k false with
    | nil => rw [hlist] at hkin; exact absurd hkin (List.not_mem_nil k)
    | cons a t =>
      rw [hlist] at hrep
      simp only [replayOK, Bool.and_eq_true] at hrep
      have hain : a ∈ l.filter fun k => !sc.finish.getD k false := by
        rw [hlist]; exact List.mem_cons_self a t
      rw [List.mem_filter] at hain
      have ha1 := ((hmem a).mp hain.1).1
      have ha2 : sc.finish.getD a false = false := by
        have h2 := hain.2
        cases hx : sc.finish.getD a false
        · rfl
        · rw [hx] at h2; exact Bool.noConfusion h2
      have := hstuck a ha1 ha2
      rw [canFinish_eq_fits, hrep.1] at this
      exact Bool.noConfusion this
  · rfl

theorem computeLoop_complete (d : DeadlockDetector) (mask : Option (List Bool)) (l : List Nat)
    (hl : l.Nodup) (hmem : ∀ k, k ∈ l ↔ k < d.numProcesses ∧ masked mask k = false)
    (hnn : ∀ i, i < d.numProcesses → ∀ j, j < d.numResources → 0 ≤ mget d.allocation i j) :
    ∀ (fuel : Nat) (sc : Scan), ScanInv d mask sc →
      replayOK d (vget sc.work) (l.filter fun k => !sc.finish.getD k false) = true →
      activeCount d mask - sc.count ≤ (fuel : Int) →
      ∃ seq, computeLoop d (activeCount d mask) fuel sc = some (true, seq) := by
  intro fuel
  induction fuel with
  | zero =>
    intro sc _ _ hfuel
    have hc : ¬ sc.count < activeCount d mask := by push_cast at hfuel; omega
    exact ⟨_, computeLoop_exit d _ 0 sc hc⟩
  | succ n ih =>
    intro sc hinv hrep hfuel
    by_cases hc : sc.count < activeCount d mask
    · have hf := computePass_not_stuck d mask l hmem sc hinv hrep hc
      rw [computeLoop_next d _ n sc hc hf]
      obtain ⟨h1, h2⟩ := computePass_pending d mask l hl hnn sc ⟨hinv, hrep⟩
      apply ih _ h1 h2
      have := (computePass_progress d sc).2 hf
      push_cast at hfuel
      omega
    · exact ⟨_, computeLoop_exit d _ _ sc hc⟩

theorem activeCount_le (d : DeadlockDetector) (mask : Option (List Bool)) :
    activeCount d mask ≤ (d.numProcesses : Int) := by
  rw [activeCount_eq]
  have : (nonMasked d mask).card ≤ (Finset.range d.numProcesses).card :=
    Finset.card_le_card (Finset.filter_subset _ _)
  rw [Finset.card_range] at this
  exact_mod_cast this

theorem bankersAlgorithmCompute_total (d : DeadlockDetector) (mask : Option (List Bool)) :
    ∃ r, bankersAlgorithmCompute d mask = some r := by
  unfold bankersAlgorithmCompute
  apply computeLoop_total
  have := activeCount_le d mask
  simp only
  omega

theorem compute_safe_sound (d : DeadlockDetector) (mask : Option (List Bool))
    (hlen : d.available.length = d.numResources) (hb : InRange d) (seq : List Nat)
    (h : bankersAlgorithmCompute d mask = some (true, seq)) :
    seq.Nodup ∧ (∀ k, k ∈ seq ↔ k < d.numProcesses ∧ masked mask k = false) ∧
      replayOK d (vget d.available) seq = true :=
  computeLoop_sound d mask _ _ seq (scanInv_init d mask hlen hb) h

theorem compute_safe_complete (d : DeadlockDetector) (mask : Option (List Bool))
    (hlen : d.available.length = d.numResources) (hb : InRange d)
    (l : List Nat) (hl : l.Nodup)
    (hmem : ∀ k, k ∈ l ↔ k < d.numProcesses ∧ masked mask k = false)
    (hrep : replayOK d (vget d.available) l = true) :
    ∃ seq, bankersAlgorithmCompute d mask = some (true, seq) := by
  unfold bankersAlgorithmCompute
  apply computeLoop_complete d mask l hl hmem hb.2.1 _ _ (scanInv_init d mask hlen hb)
  · simp only
    have hfil : (l.filter fun k => !(initFinish d mask).getD k false) = l := by
      apply List.filter_eq_self.mpr
      intro k hk
      have := (hmem k).mp hk
      rw [initFinish_getD d mask k this.1, this.2]
      rfl
    rw [hfil]
    exact hrep
  · have := activeCount_le d mask
    simp only
    omega

theorem computeStep_le (d : DeadlockDetector) (mask : Option (List Bool)) (sc : Scan)
    (i : Nat) (hi : i < d.numProcesses) (h : ScanLe d mask sc) :
    ScanLe d mask (computeStep d sc i) := by
  rcases computeStep_cases d sc i with ⟨hf, hc, he⟩ | ⟨_, he⟩
  · rw [he]
    have hilen : i < sc.finish.length := by rw [h.finish_len]; exact hi
    have hnotin : i ∉ sc.safeSequence := by
      intro hin
      have := ((h.mem_iff i).mp hin).2.1
      rw [hf] at this
      exact Bool.noConfusion this
    have hnm : masked mask i = false := by
      cases hm : masked mask i
      · rfl
      · have := h.masked_fin i hi hm
        rw [hf] at this
        exact Bool.noConfusion this
    have hfit : fits d (workAfter d (vget d.available) sc.safeSequence) i = true := by
      rw [canFinish_eq_fits] at hc
      rw [fits_iff] at *
      intro j hj
      exact le_trans (hc j hj) (h.work_le j hj)
    constructor
    · simp [h.finish_len]
    · simp [release_length, h.work_len]
    · simp only
      rw [List.nodup_append]
      refine ⟨h.nodup, List.nodup_singleton i, ?_⟩
      intro a ha hb
      rw [List.mem_singleton] at hb
      subst hb
      exact hnotin ha
    · intro k
      simp only [List.mem_append, List.mem_singleton, getD_set_bool]
      by_cases hk : i = k
      · subst hk
        simp [hilen, hi, hnm]
      · have hk2 : ¬ k = i := fun e => hk e.symm
        have hk3 : ¬ (i = k ∧ i < sc.finish.length) := fun e => hk e.1
        rw [if_neg hk3, h.mem_iff k]
        simp [hk2]
    · intro k hk hm
      simp only [getD_set_bool]
      by_cases hki : i = k ∧ i < sc.finish.length
      · rw [if_pos hki]
      · rw [if_neg hki]
        exact h.masked_fin k hk hm
    · simp only
      rw [replayOK_append_single, h.replay, hfit]
      rfl
    · intro j hj
      simp only
      rw [workAfter_append_single, vget_release, h.work_len, if_pos ⟨hj, hj⟩]
      have e : gain d (workAfter d (vget d.available) sc.safeSequence) i j
          = workAfter d (vget d.available) sc.safeSequence j + mget d.allocation i j := rfl
      rw [e]
      have h1 := h.work_le j hj
      have h2 := h.work_lo j hj
      have h3 := h.alloc_nn i hi j hj
      have h4 := wrapInt_le (vget sc.work j + mget d.allocation i j) (by omega)
      omega
    · intro j hj
      simp only
      rw [vget_release, h.work_len, if_pos ⟨hj, hj⟩]
      exact (wrapInt_range _).1
    · simp only [List.length_append, List.length_singleton]
      rw [h.count_eq]
      push_cast
      rfl
    · exact h.alloc_nn
  · rw [he]
    exact h

theorem computePass_le (d : DeadlockDetector) (mask : Option (List Bool)) (sc : Scan)
    (h : ScanLe d mask sc) : ScanLe d mask (computePass d sc) := by
  unfold computePass
  exact foldl_range_inv (computeStep d) (ScanLe d mask) d.numProcesses
    (fun a i hi ha => computeStep_le d mask a i hi ha) d.numProcesses (le_refl _) _
    ⟨h.finish_len, h.work_len, h.nodup, h.mem_iff, h.masked_fin, h.replay, h.work_le,
      h.work_lo, h.count_eq, h.alloc_nn⟩

theorem scanLe_covers (d : DeadlockDetector) (mask : Option (List Bool)) (sc : Scan)
    (h : ScanLe d mask sc) (hc : ¬ sc.count < activeCount d mask) (k : Nat) :
    k ∈ sc.safeSequence ↔ k < d.numProcesses ∧ masked mask k = false := by
  have hsub : sc.safeSequence.toFinset ⊆ nonMasked d mask := by
    intro a ha
    rw [List.mem_toFinset, h.mem_iff] at ha
    rw [mem_nonMasked]
    exact ⟨ha.1, ha.2.2⟩
  have hcard : (nonMasked d mask).card ≤ sc.safeSequence.toFinset.card := by
    rw [List.toFinset_card_of_nodup h.nodup]
    have h1 := h.count_eq
    have h2 := activeCount_eq d mask
    omega
  have heq := Finset.eq_of_subset_of_card_le hsub hcard
  rw [← mem_nonMasked, ← heq, List.mem_toFinset]

theorem computeLoop_valid (d : DeadlockDetector) (mask : Option (List Bool)) :
    ∀ (fuel : Nat) (sc : Scan) (seq : List Nat), ScanLe d mask sc →
      computeLoop d (activeCount d mask) fuel sc = some (true, seq) →
      seq.Nodup ∧ (∀ k, k ∈ seq ↔ k < d.numProcesses ∧ masked mask k = false) ∧
        replayOK d (vget d.available) seq = true := by
  intro fuel
  induction fuel with
  | zero =>
    intro sc seq hinv hres
    by_cases hc : sc.count < activeCount d mask
    · rw [computeLoop_zero d _ sc hc] at hres
      exact Option.noConfusion hres
    · rw [computeLoop_exit d _ 0 sc hc] at hres
      have hs : sc.safeSequence = seq := by injection hres with h1; injection h1
      subst hs
      exact ⟨hinv.nodup, scanLe_covers d mask sc hinv hc, hinv.replay⟩
  | succ n ih =>
    intro sc seq hinv hres
    by_cases hc : sc.count < activeCount d mask
    · cases hf : (computePass d sc).found
      · rw [computeLoop_stuck d _ n sc hc hf] at hres
        injection hres with h1
        injection h1 with h2 _
        exact Bool.noConfusion h2
      · rw [computeLoop_next d _ n sc hc hf] at hres
        exact ih (computePass d sc) seq (computePass_le d mask sc hinv) hres
    · rw [computeLoop_exit d _ _ sc hc] at hres
      have hs : sc.safeSequence = seq := by injection hres with h1; injection h1
      subst hs
      exact ⟨hinv.nodup, scanLe_covers d mask sc hinv hc, hinv.replay⟩

/-- A sequence the evaluator reports as safe replays in exact arithmetic, on every state with
non-negative Allocation whose Available entries are values of `int`. -/
theorem compute_safe_valid (d : DeadlockDetector) (mask : Option (List Bool))
    (hlen : d.available.length = d.numResources)
    (hnn : ∀ i, i < d.numProcesses → ∀ j, j < d.numResources → 0 ≤ mget d.allocation i j)
    (hlo : ∀ j, j < d.numResources → INT_MIN ≤ vget d.available j)
    (seq : List Nat) (h : bankersAlgorithmCompute d mask = some (true, seq)) :
    seq.Nodup ∧ (∀ k, k ∈ seq ↔ k < d.numProcesses ∧ masked mask k = false) ∧
      replayOK d (vget d.available) seq = true := by
  apply computeLoop_valid d mask _ _ seq _ h
  constructor
  · exact initFinish_length d mask
  · exact hlen
  · exact List.nodup_nil
  · intro k
    simp only [List.not_mem_nil, false_iff, not_and]
    intro hk hfin
    rw [initFinish_getD d mask k hk] at hfin
    simp [hfin]
  · intro k hk hm
    simp only
    rw [initFinish_getD d mask k hk]
    exact hm
  · rfl
  · intro j _; exact le_refl _
  · intro j hj; exact hlo j hj
  · rfl
  · exact hnn

/-! ## Updates of one process row -/

theorem getD_set_row (m : List (List Int)) (p i : Nat) (row : List Int) :
    (m.set p row).getD i [] = if p = i ∧ p < m.length then row else m.getD i [] := by
  simp only [List.getD_eq_getElem?_getD, List.getElem?_set]
  by_cases h : p = i
  · subst h
    by_cases h2 : p < m.length
    · simp [h2]
    · simp [h2, List.getElem?_eq_none (Nat.le_of_not_lt h2)]
  · simp [h]

theorem set_getD_self (m : List (List Int)) (p : Nat) : m.set p (m.getD p []) = m := by
  by_cases h : p < m.length
  · apply List.ext_getElem?
    intro n
    rw [List.getElem?_set]
    by_cases hn : p = n
    · subst hn
      simp [h, List.getD_eq_getElem?_getD, List.getElem?_eq_getElem h]
    · simp [hn]
  · exact List.set_eq_of_length_le (Nat.le_of_not_lt h)

theorem mset_eq_set (m : List (List Int)) (p j : Nat) (x : Int) :
    ∃ row, mset m p j x = m.set p row := ⟨_, rfl⟩

theorem mget_mset (m : List (List Int)) (p j i k : Nat) (x : Int) :
    mget (mset m p j x) i k
      = if p = i ∧ j = k ∧ p < m.length ∧ j < (m.getD p []).length then x else mget m i k := by
  unfold mget mset
  rw [getD_set_row]
  by_cases h : p = i ∧ p < m.length
  · rw [if_pos h]
    obtain ⟨h1, h2⟩ := h
    subst h1
    have := vget_set (m.getD p []) j k x
    unfold vget at this
    rw [this]
    by_cases h3 : j = k ∧ j < (m.getD p []).length
    · rw [if_pos h3, if_pos ⟨rfl, h3.1, h2, h3.2⟩]
    · rw [if_neg h3, if_neg]
      intro hh
      exact h3 ⟨hh.2.1, hh.2.2.2⟩
  · rw [if_neg h, if_neg]
    intro hh
    exact h ⟨hh.1, hh.2.2.1⟩

theorem length_mset (m : List (List Int)) (p j : Nat) (x : Int) :
    (mset m p j x).length = m.length := by
  simp [mset]

theorem row_length_mset (m : List (List Int)) (p j : Nat) (x : Int) (R : Nat)
    (h : ∀ r ∈ m, r.length = R) : ∀ r ∈ mset m p j x, r.length = R := by
  intro r hr
  unfold mset at hr
  by_cases hp : p < m.length
  · rcases List.mem_or_eq_of_mem_set hr with h1 | h1
    · exact h r h1
    · rw [h1, List.length_set, List.getD_eq_getElem _ _ hp]
      exact h _ (List.getElem_mem hp)
  · rw [List.set_eq_of_length_le (Nat.le_of_not_lt hp)] at hr
    exact h r hr

theorem wf_row (m : List (List Int)) (R : Nat) (h : ∀ r ∈ m, r.length = R) (i : Nat)
    (hi : i < m.length) : (m.getD i []).length = R := by
  rw [List.getD_eq_getElem _ _ hi]
  exact h _ (List.getElem_mem hi)

theorem tripleStep_frame (p : Nat) (F : Nat → Int → Int → Int → Option (Int × Int × Int))
    (d : DeadlockDetector) (j : Nat) :
    (tripleStep p F d j).numProcesses = d.numProcesses ∧
    (tripleStep p F d j).numResources = d.numResources ∧
    (tripleStep p F d j).maximum = d.maximum ∧
    (∃ row, (tripleStep p F d j).allocation = d.allocation.set p row) ∧
    (∃ row, (tripleStep p F d j).need = d.need.set p row) := by
  unfold tripleStep
  split
  · exact ⟨rfl, rfl, rfl, ⟨_, (set_getD_self _ _).symm⟩, ⟨_, (set_getD_self _ _).symm⟩⟩
  · exact ⟨rfl, rfl, rfl, ⟨_, rfl⟩, ⟨_, rfl⟩⟩

theorem tripleStep_wf (p : Nat) (F : Nat → Int → Int → Int → Option (Int × Int × Int))
    (d : DeadlockDetector) (j : Nat) (h : WF d) : WF (tripleStep p F d j) := by
  unfold tripleStep
  split
  · exact h
  · obtain ⟨h1, h2, h3, h4, h5, h6, h7⟩ := h
    refine ⟨?_, h2, ?_, ?_, h5, ?_, ?_⟩
    · simp [h1]
    · simp [length_mset, h3]
    · simp [length_mset, h4]
    · exact row_length_mset _ _ _ _ _ h6
    · exact row_length_mset _ _ _ _ _ h7

theorem tripleStep_values (p : Nat) (F : Nat → Int → Int → Int → Option (Int × Int × Int))
    (d : DeadlockDetector) (j : Nat) (h : WF d) (hp : p < d.numProcesses)
    (hj : j < d.numResources) :
    (∀ k, vget (tripleStep p F d j).available k
        = if k = j then (tripleNew p F d j).1 else vget d.available k) ∧
    (∀ i k, mget (tripleStep p F d j).allocation i k
        = if i = p ∧ k = j then (tripleNew p F d j).2.1 else mget d.allocation i k) ∧
    (∀ i k, mget (tripleStep p F d j).need i k
        = if i = p ∧ k = j then (tripleNew p F d j).2.2 else mget d.need i k) := by
  obtain ⟨h1, h2, h3, h4, h5, h6, h7⟩ := h
  have hra := wf_row d.allocation _ h6 p (by omega)
  have hrn := wf_row d.need _ h7 p (by omega)
  unfold tripleStep tripleNew
  cases hF : F j (vget d.available j) (mget d.allocation p j) (mget d.need p j) with
  | none =>
    simp only
    refine ⟨?_, ?_, ?_⟩
    · intro k
      by_cases hk : k = j
      · rw [if_pos hk, hk]
      · rw [if_neg hk]
    · intro i k
      by_cases hk : i = p ∧ k = j
      · rw [if_pos hk, hk.1, hk.2]
      · rw [if_neg hk]
    · intro i k
      by_cases hk : i = p ∧ k = j
      · rw [if_pos hk, hk.1, hk.2]
      · rw [if_neg hk]
  | some t =>
    obtain ⟨a, b, c⟩ := t
    simp only
    refine ⟨?_, ?_, ?_⟩
    · intro k
      rw [vget_set]
      by_cases hk : k = j
      · rw [if_pos hk, if_pos ⟨hk.symm, by omega⟩]
      · rw [if_neg hk, if_neg (fun hh => hk hh.1.symm)]
    · intro i k
      rw [mget_mset]
      by_cases hk : i = p ∧ k = j
      · rw [if_pos hk, if_pos ⟨hk.1.symm, hk.2.symm, by omega, by omega⟩]
      · rw [if_neg hk, if_neg (fun hh => hk ⟨hh.1.symm, hh.2.1.symm⟩)]
    · intro i k
      rw [mget_mset]
      by_cases hk : i = p ∧ k = j
      · rw [if_pos hk, if_pos ⟨hk.1.symm, hk.2.symm, by omega, by omega⟩]
      · rw [if_neg hk, if_neg (fun hh => hk ⟨hh.1.symm, hh.2.1.symm⟩)]

theorem tripleLoop_frame (p : Nat) (F : Nat → Int → Int → Int → Option (Int × Int × Int))
    (d : DeadlockDetector) (n : Nat) :
    ((List.range n).foldl (tripleStep p F) d).numProcesses = d.numProcesses ∧
    ((List.range n).foldl (tripleStep p F) d).numResources = d.numResources ∧
    ((List.range n).foldl (tripleStep p F) d).maximum = d.maximum ∧
    (∃ row, ((List.range n).foldl (tripleStep p F) d).allocation = d.allocation.set p row) ∧
    (∃ row, ((List.range n).foldl (tripleStep p F) d).need = d.need.set p row) := by
  induction n with
  | zero =>
    exact ⟨rfl, rfl, rfl, ⟨_, (set_getD_self _ _).symm⟩, ⟨_, (set_getD_self _ _).symm⟩⟩
  | succ n ih =>
    rw [List.range_succ, List.foldl_append]
    simp only [List.foldl_cons, List.foldl_nil]
    obtain ⟨h1, h2, h3, ⟨ra, h4⟩, ⟨rn, h5⟩⟩ := ih
    obtain ⟨g1, g2, g3, ⟨ra2, g4⟩, ⟨rn2, g5⟩⟩ :=
      tripleStep_frame p F ((List.range n).foldl (tripleStep p F) d) n
    refine ⟨g1.trans h1, g2.trans h2, g3.trans h3, ⟨ra2, ?_⟩, ⟨rn2, ?_⟩⟩
    · rw [g4, h4, List.set_set]
    · rw [g5, h5, List.set_set]

theorem tripleLoop_wf (p : Nat) (F : Nat → Int → Int → Int → Option (Int × Int × Int))
    (d : DeadlockDetector) (h : WF d) (n : Nat) :
    WF ((List.range n).foldl (tripleStep p F) d) :=
  foldl_range_inv (tripleStep p F) WF n (fun a i _ ha => tripleStep_wf p F a i ha) n
    (le_refl _) d h

theorem tripleLoop_values (p : Nat) (F : Nat → Int → Int → Int → Option (Int × Int × Int))
    (d : DeadlockDetector) (h : WF d) (hp : p < d.numProcesses) (n : Nat)
    (hn : n ≤ d.numResources) :
    (∀ k, vget ((List.range n).foldl (tripleStep p F) d).available k
        = if k < n then (tripleNew p F d k).1 else vget d.available k) ∧
    (∀ i k, mget ((List.range n).foldl (tripleStep p F) d).allocation i k
        = if i = p ∧ k < n then (tripleNew p F d k).2.1 else mget d.allocation i k) ∧
    (∀ i k, mget ((List.range n).foldl (tripleStep p F) d).need i k
        = if i = p ∧ k < n then (tripleNew p F d k).2.2 else mget d.need i k) := by
  induction n with
  | zero =>
    refine ⟨fun k => ?_, fun i k => ?_, fun i k => ?_⟩ <;> simp
  | succ n ih =>
    obtain ⟨ia, ib, ic⟩ := ih (by omega)
    rw [List.range_succ, List.foldl_append]
    simp only [List.foldl_cons, List.foldl_nil]
    have hfr := tripleLoop_frame p F d n
    have hwf := tripleLoop_wf p F d h n
    obtain ⟨sa, sb, sc⟩ := tripleStep_values p F ((List.range n).foldl (tripleStep p F) d) n
      hwf (by rw [hfr.1]; exact hp) (by rw [hfr.2.1]; omega)
    have hnew : tripleNew p F ((List.range n).foldl (tripleStep p F) d) n
        = tripleNew p F d n := by
      unfold tripleNew
      rw [ia n, ib p n, ic p n]
      simp
    rw [hnew] at sa sb sc
    refine ⟨fun k => ?_, fun i k => ?_, fun i k => ?_⟩
    · rw [sa k, ia k]
      by_cases hk : k = n
      · subst hk; simp
      · by_cases hk2 : k < n
        · have : k < n + 1 := by omega
          simp [hk, hk2, this]
        · have : ¬ k < n + 1 := by omega
          simp [hk, hk2, this]
    · rw [sb i k, ib i k]
      by_cases hi : i = p
      · by_cases hk : k = n
        · subst hk; simp [hi]
        · by_cases hk2 : k < n
          · have : k < n + 1 := by omega
            simp [hi, hk, hk2, this]
          · have : ¬ k < n + 1 := by omega
            simp [hi, hk, hk2, this]
      · simp [hi]
    · rw [sc i k, ic i k]
      by_cases hi : i = p
      · by_cases hk : k = n
        · subst hk; simp [hi]
        · by_cases hk2 : k < n
          · have : k < n + 1 := by omega
            simp [hi, hk, hk2, this]
          · have : ¬ k < n + 1 := by omega
            simp [hi, hk, hk2, this]
      · simp [hi]

theorem applyRequestStep_eq (p : Nat) (requestVec : List Int) :
    applyRequestStep p requestVec
      = tripleStep p (fun j a b c => some (a - vget requestVec j, b + vget requestVec j,
          c - vget requestVec j)) := rfl

theorem terminateStep_eq (c : Nat) :
    terminateStep c = tripleStep c (fun _ a b _ => some (wrapInt (a + b), 0, 0)) := rfl

/-! ## The request transaction -/

theorem applyRequest_eq (d : DeadlockDetector) (p : Nat) (requestVec : List Int) :
    applyRequest d p requestVec
      = (List.range d.numResources).foldl
          (tripleStep p (fun j a b c => some (a - vget requestVec j, b + vget requestVec j,
            c - vget requestVec j))) d := rfl

theorem terminate_eq (d : DeadlockDetector) (c : Nat) :
    terminate d c
      = (List.range d.numResources).foldl
          (tripleStep c (fun _ a b _ => some (wrapInt (a + b), 0, 0))) d := rfl

theorem preempt_fst_aux (v : Nat) (l : List Nat) :
    ∀ st : DeadlockDetector × List Bool,
      (l.foldl (preemptStep v) st).1
        = l.foldl (tripleStep v (fun _ a b _ => if b > 0 then some (wrapInt (a + b), 0, 0) else none))
            st.1 := by
  induction l with
  | nil => intro st; rfl
  | cons j t ih =>
    intro st
    simp only [List.foldl_cons]
    rw [ih]
    congr 1
    unfold preemptStep tripleStep
    by_cases h : mget st.1.allocation v j > 0
    · simp [h]
    · simp [h]

theorem preempt_fst (d : DeadlockDetector) (v : Nat) :
    (preempt d v).1
      = (List.range d.numResources).foldl
          (tripleStep v (fun _ a b _ => if b > 0 then some (wrapInt (a + b), 0, 0) else none)) d :=
  preempt_fst_aux v _ _

theorem admission_none (d : DeadlockDetector) (p : Nat) (requestVec : List Int) (l : List Nat) :
    admission d p requestVec l = none ↔
      ∀ j, j ∈ l → vget requestVec j ≤ mget d.need p j ∧ vget requestVec j ≤ vget d.available j := by
  induction l with
  | nil => simp [admission]
  | cons i t ih =>
    unfold admission
    by_cases h1 : vget requestVec i > mget d.need p i
    · rw [if_pos h1]
      simp only [List.mem_cons, forall_eq_or_imp]
      constructor
      · intro hh; exact Option.noConfusion hh
      · intro hh; have := hh.1; omega
    · rw [if_neg h1]
      by_cases h2 : vget requestVec i > vget d.available i
      · rw [if_pos h2]
        simp only [List.mem_cons, forall_eq_or_imp]
        constructor
        · intro hh; exact Option.noConfusion hh
        · intro hh; have := hh.1; omega
      · rw [if_neg h2, ih]
        simp only [List.mem_cons, forall_eq_or_imp]
        constructor
        · intro hh
          exact ⟨⟨by omega, by omega⟩, hh⟩
        · intro hh
          exact hh.2

theorem bankersAlgorithmDetection_total (d : DeadlockDetector) (mask : Option (List Bool)) :
    ∃ r, bankersAlgorithmDetection d mask = some r := by
  rw [detection_eq_compute]
  exact bankersAlgorithmCompute_total d mask

/-- The five ways `requestResources` returns. -/
theorem requestResources_cases (d : DeadlockDetector) (processId : Int) (requestVec : List Int) :
    ((processId < 0 ∨ processId ≥ (d.numProcesses : Int)) ∧
      requestResources d processId requestVec = some (RequestOutcome.invalidProcess, d)) ∨
    (¬ (processId < 0 ∨ processId ≥ (d.numProcesses : Int)) ∧
      requestVec.length ≠ d.numResources ∧
      requestResources d processId requestVec = some (RequestOutcome.lengthMismatch, d)) ∨
    (¬ (processId < 0 ∨ processId ≥ (d.numProcesses : Int)) ∧
      requestVec.length = d.numResources ∧
      ∃ reason, admission d processId.toNat requestVec (List.range d.numResources) = some reason ∧
        requestResources d processId requestVec = some (reason, d)) ∨
    (¬ (processId < 0 ∨ processId ≥ (d.numProcesses : Int)) ∧
      requestVec.length = d.numResources ∧
      admission d processId.toNat requestVec (List.range d.numResources) = none ∧
      (∃ seq, bankersAlgorithmDetection (applyRequest d processId.toNat requestVec) none
          = some (true, seq)) ∧
      requestResources d processId requestVec
        = some (RequestOutcome.granted, applyRequest d processId.toNat requestVec)) ∨
    (¬ (processId < 0 ∨ processId ≥ (d.numProcesses : Int)) ∧
      requestVec.length = d.numResources ∧
      admission d processId.toNat requestVec (List.range d.numResources) = none ∧
      (∃ seq, bankersAlgorithmDetection (applyRequest d processId.toNat requestVec) none
          = some (false, seq)) ∧
      requestResources d processId requestVec = some (RequestOutcome.unsafeState, d)) := by
  by_cases h1 : processId < 0 ∨ processId ≥ (d.numProcesses : Int)
  · left
    exact ⟨h1, by unfold requestResources; rw [if_pos h1]⟩
  · right
    by_cases h2 : requestVec.length ≠ d.numResources
    · left
      exact ⟨h1, h2, by unfold requestResources; rw [if_neg h1, if_pos h2]⟩
    · right
      have h2' : requestVec.length = d.numResources := not_not.mp h2
      have hunf : requestResources d processId requestVec
          = match admission d processId.toNat requestVec (List.range d.numResources) with
            | some reason => some (reason, d)
            | none =>
              match bankersAlgorithmDetection (applyRequest d processId.toNat requestVec) none with
              | none => none
              | some (true, _) =>
                some (RequestOutcome.granted, applyRequest d processId.toNat requestVec)
              | some (false, _) =>
                some (RequestOutcome.unsafeState,
                  { applyRequest d processId.toNat requestVec with
                    available := d.available
                    allocation := (applyRequest d processId.toNat requestVec).allocation.set
                      processId.toNat (d.allocation.getD processId.toNat [])
                    need := (applyRequest d processId.toNat requestVec).need.set
                      processId.toNat (d.need.getD processId.toNat []) }) := by
        unfold requestResources
        rw [if_neg h1, if_neg h2]
      rw [hunf]
      cases hadm : admission d processId.toNat requestVec (List.range d.numResources) with
      | some reason =>
        left
        exact ⟨h1, h2', reason, rfl, rfl⟩
      | none =>
        right
        obtain ⟨⟨b, seq⟩, hdet⟩ :=
          bankersAlgorithmDetection_total (applyRequest d processId.toNat requestVec) none
        rw [hdet]
        cases b with
        | true =>
          left
          exact ⟨h1, h2', rfl, ⟨seq, rfl⟩, rfl⟩
        | false =>
          right
          refine ⟨h1, h2', rfl, ⟨seq, rfl⟩, ?_⟩
          simp only
          rw [applyRequest_eq]
          obtain ⟨f1, f2, f3, ⟨ra, f4⟩, ⟨rn, f5⟩⟩ := tripleLoop_frame processId.toNat
            (fun j a b c => some (a - vget requestVec j, b + vget requestVec j,
              c - vget requestVec j)) d d.numResources
          rw [f1, f2, f3, f4, f5, List.set_set, List.set_set, set_getD_self, set_getD_self]

theorem requestResources_total (d : DeadlockDetector) (processId : Int) (requestVec : List Int) :
    ∃ r, requestResources d processId requestVec = some r := by
  rcases requestResources_cases d processId requestVec with
    h | h | ⟨_, _, _, _, h⟩ | h | h
  · exact ⟨_, h.2⟩
  · exact ⟨_, h.2.2⟩
  · exact ⟨_, h⟩
  · exact ⟨_, h.2.2.2.2⟩
  · exact ⟨_, h.2.2.2.2⟩

theorem requestResources_denied (d : DeadlockDetector) (processId : Int) (requestVec : List Int)
    (reason : RequestOutcome) (d2 : DeadlockDetector)
    (h : requestResources d processId requestVec = some (reason, d2))
    (hden : reason ≠ RequestOutcome.granted) : d2 = d := by
  rcases requestResources_cases d processId requestVec with
    h1 | h1 | ⟨_, _, r, _, h1⟩ | h1 | h1
  · rw [h1.2] at h; injection h with h; injection h with _ h; exact h.symm
  · rw [h1.2.2] at h; injection h with h; injection h with _ h; exact h.symm
  · rw [h1] at h; injection h with h; injection h with _ h; exact h.symm
  · rw [h1.2.2.2.2] at h; injection h with h; injection h with h _; exact absurd h.symm hden
  · rw [h1.2.2.2.2] at h; injection h with h; injection h with _ h; exact h.symm

theorem list_ext_vget (l1 l2 : List Int) (hlen : l1.length = l2.length)
    (h : ∀ k, k < l1.length → vget l1 k = vget l2 k) : l1 = l2 := by
  apply List.ext_getElem hlen
  intro n h1 h2
  have := h n h1
  unfold vget at this
  rw [List.getD_eq_getElem _ _ h1, List.getD_eq_getElem _ _ h2] at this
  exact this

theorem vget_zipWith (f : Int → Int → Int) (a b : List Int) (k : Nat)
    (ha : k < a.length) (hb : k < b.length) :
    vget (List.zipWith f a b) k = f (vget a k) (vget b k) := by
  unfold vget
  rw [List.getD_eq_getElem _ _ ha, List.getD_eq_getElem _ _ hb,
    List.getD_eq_getElem _ _ (by simp; omega)]
  simp

theorem applyRequest_eq_tentativeState (d : DeadlockDetector) (p : Nat) (requestVec : List Int)
    (hwf : WF d) (hp : p < d.numProcesses) (hlen : requestVec.length = d.numResources) :
    applyRequest d p requestVec = tentativeState d p requestVec := by
  have hfr := tripleLoop_frame p (fun j a b c => some (a - vget requestVec j,
    b + vget requestVec j, c - vget requestVec j)) d d.numResources
  have hwf2 := tripleLoop_wf p (fun j a b c => some (a - vget requestVec j,
    b + vget requestVec j, c - vget requestVec j)) d hwf d.numResources
  have hval := tripleLoop_values p (fun j a b c => some (a - vget requestVec j,
    b + vget requestVec j, c - vget requestVec j)) d hwf hp d.numResources (le_refl _)
  rw [← applyRequest_eq] at hfr hwf2 hval
  obtain ⟨f1, f2, f3, ⟨ra, f4⟩, ⟨rn, f5⟩⟩ := hfr
  obtain ⟨va, vb, vc⟩ := hval
  obtain ⟨w1, w2, w3, w4, w5, w6, w7⟩ := hwf
  obtain ⟨x1, x2, x3, x4, x5, x6, x7⟩ := hwf2
  have hra := wf_row d.allocation _ w6 p (by omega)
  have hrn := wf_row d.need _ w7 p (by omega)
  have hra2 := wf_row (applyRequest d p requestVec).allocation _ x6 p (by omega)
  have hrn2 := wf_row (applyRequest d p requestVec).need _ x7 p (by omega)
  have e1 : (applyRequest d p requestVec).available
      = List.zipWith (fun a r => a - r) d.available requestVec := by
    apply list_ext_vget
    · simp; omega
    · intro k hk
      have hk2 : k < d.numResources := by omega
      rw [va k, if_pos hk2, vget_zipWith _ _ _ _ (by omega) (by omega)]
      simp [tripleNew]
  have e2 : (applyRequest d p requestVec).allocation
      = d.allocation.set p
          (List.zipWith (fun a r => a + r) (d.allocation.getD p []) requestVec) := by
    rw [f4]
    congr 1
    rw [f4, getD_set_row, if_pos ⟨rfl, by omega⟩, f2] at hra2
    apply list_ext_vget
    · rw [List.length_zipWith, hra, hlen, hra2, Nat.min_self]
    · intro k hk
      have hk2 : k < d.numResources := by omega
      have := vb p k
      rw [f4, if_pos ⟨rfl, hk2⟩] at this
      unfold mget at this
      rw [getD_set_row, if_pos ⟨rfl, by omega⟩] at this
      unfold vget
      rw [this]
      have hz := vget_zipWith (fun a r => a + r) (d.allocation.getD p []) requestVec k
        (by omega) (by omega)
      unfold vget at hz
      rw [hz]
      simp [tripleNew, mget, vget]
  have e3 : (applyRequest d p requestVec).need
      = d.need.set p (List.zipWith (fun n r => n - r) (d.need.getD p []) requestVec) := by
    rw [f5]
    congr 1
    rw [f5, getD_set_row, if_pos ⟨rfl, by omega⟩, f2] at hrn2
    apply list_ext_vget
    · rw [List.length_zipWith, hrn, hlen, hrn2, Nat.min_self]
    · intro k hk
      have hk2 : k < d.numResources := by omega
      have := vc p k
      rw [f5, if_pos ⟨rfl, hk2⟩] at this
      unfold mget at this
      rw [getD_set_row, if_pos ⟨rfl, by omega⟩] at this
      unfold vget
      rw [this]
      have hz := vget_zipWith (fun a r => a - r) (d.need.getD p []) requestVec k
        (by omega) (by omega)
      unfold vget at hz
      rw [hz]
      simp [tripleNew, mget, vget]
  unfold tentativeState
  rw [← e1, ← e2, ← e3, ← f1, ← f2, ← f3]

theorem admission_append (d : DeadlockDetector) (p : Nat) (requestVec : List Int)
    (l : List Nat) (i : Nat) :
    admission d p requestVec (l ++ [i])
      = match admission d p requestVec l with
        | some r => some r
        | none => admission d p requestVec [i] := by
  induction l with
  | nil => rfl
  | cons k t ih =>
    simp only [List.cons_append]
    unfold admission
    by_cases h1 : vget requestVec k > mget d.need p k
    · simp [h1]
    · by_cases h2 : vget requestVec k > vget d.available k
      · simp [h1, h2]
      · simp only [h1, h2, if_false]
        exact ih

theorem admission_range (d : DeadlockDetector) (p : Nat) (requestVec : List Int) (n : Nat) :
    (admission d p requestVec (List.range n) = some RequestOutcome.exceedsNeed ↔
      ∃ j, j < n ∧ vget requestVec j > mget d.need p j ∧
        ∀ k, k < j → admits d p requestVec k) ∧
    (admission d p requestVec (List.range n) = some RequestOutcome.unavailable ↔
      ∃ j, j < n ∧ vget requestVec j ≤ mget d.need p j ∧
        vget requestVec j > vget d.available j ∧ ∀ k, k < j → admits d p requestVec k) := by
  induction n with
  | zero => simp [admission]
  | succ n ih =>
    rw [List.range_succ, admission_append]
    have hnone := admission_none d p requestVec (List.range n)
    cases hadm : admission d p requestVec (List.range n) with
    | some r =>
      rw [hadm] at ih
      simp only
      have hno : ¬ ∀ j, j ∈ List.range n → admits d p requestVec j := by
        intro hall
        have := hnone.mpr hall
        rw [hadm] at this
        exact Option.noConfusion this
      have hlast : ∀ j, j < n + 1 → (∀ k, k < j → admits d p requestVec k) → j < n := by
        intro j hj hall
        by_contra hjn
        have : j = n := by omega
        subst this
        exact hno (fun k hk => hall k (List.mem_range.mp hk))
      constructor
      · rw [ih.1]
        constructor
        · rintro ⟨j, hj, h1, h2⟩
          exact ⟨j, by omega, h1, h2⟩
        · rintro ⟨j, hj, h1, h2⟩
          exact ⟨j, hlast j hj h2, h1, h2⟩
      · rw [ih.2]
        constructor
        · rintro ⟨j, hj, h0, h1, h2⟩
          exact ⟨j, by omega, h0, h1, h2⟩
        · rintro ⟨j, hj, h0, h1, h2⟩
          exact ⟨j, hlast j hj h2, h0, h1, h2⟩
    | none =>
      have hall : ∀ k, k < n → admits d p requestVec k := by
        intro k hk
        exact (hnone.mp hadm) k (List.mem_range.mpr hk)
      have hfirst : ∀ j, j < n + 1 → ¬ admits d p requestVec j → j = n := by
        intro j hj hna
        by_contra hjn
        exact hna (hall j (by omega))
      simp only
      unfold admission
      by_cases h1 : vget requestVec n > mget d.need p n
      · rw [if_pos h1]
        constructor
        · constructor
          · intro _
            exact ⟨n, by omega, h1, hall⟩
          · intro _; rfl
        · constructor
          · intro h; injection h with h; exact RequestOutcome.noConfusion h
          · rintro ⟨j, hj, h0, h2, _⟩
            have : j = n := hfirst j hj (fun ha => by unfold admits at ha; omega)
            subst this
            omega
      · rw [if_neg h1]
        by_cases h2 : vget requestVec n > vget d.available n
        · rw [if_pos h2]
          constructor
          · constructor
            · intro h; injection h with h; exact RequestOutcome.noConfusion h
            · rintro ⟨j, hj, h0, _⟩
              have : j = n := hfirst j hj (fun ha => by unfold admits at ha; omega)
              subst this
              omega
          · constructor
            · intro _
              exact ⟨n, by omega, by omega, h2, hall⟩
            · intro _; rfl
        · rw [if_neg h2]
          unfold admission
          constructor
          · constructor
            · intro h; exact Option.noConfusion h
            · rintro ⟨j, hj, h0, _⟩
              have : j = n := hfirst j hj (fun ha => by unfold admits at ha; omega)
              subst this
              omega
          · constructor
            · intro h; exact Option.noConfusion h
            · rintro ⟨j, hj, _, h0, _⟩
              have : j = n := hfirst j hj (fun ha => by unfold admits at ha; omega)
              subst this
              omega

theorem admission_some_reason (d : DeadlockDetector) (p : Nat) (requestVec : List Int)
    (l : List Nat) (r : RequestOutcome) (h : admission d p requestVec l = some r) :
    r = RequestOutcome.exceedsNeed ∨ r = RequestOutcome.unavailable := by
  induction l with
  | nil => exact Option.noConfusion h
  | cons i t ih =>
    unfold admission at h
    by_cases h1 : vget requestVec i > mget d.need p i
    · rw [if_pos h1] at h
      injection h with h
      exact Or.inl h.symm
    · rw [if_neg h1] at h
      by_cases h2 : vget requestVec i > vget d.available i
      · rw [if_pos h2] at h
        injection h with h
        exact Or.inr h.symm
      · rw [if_neg h2] at h
        exact ih h

theorem toNat_lt_of_inRange (processId : Int) (n : Nat)
    (h : ¬ (processId < 0 ∨ processId ≥ (n : Int))) : processId.toNat < n := by
  have : (processId.toNat : Int) = processId := Int.toNat_of_nonneg (by omega)
  omega

theorem tentativeState_frame (d : DeadlockDetector) (p : Nat) (amounts : List Int) :
    (tentativeState d p amounts).maximum = d.maximum ∧
      ∀ i, i ≠ p →
        (tentativeState d p amounts).allocation.getD i [] = d.allocation.getD i [] ∧
          (tentativeState d p amounts).need.getD i [] = d.need.getD i [] := by
  refine ⟨rfl, ?_⟩
  intro i hi
  unfold tentativeState
  simp only
  rw [getD_set_row, getD_set_row, if_neg (fun h => hi h.1.symm), if_neg (fun h => hi h.1.symm)]
  exact ⟨rfl, rfl⟩

/-- When `requestResources` grants, and what it leaves then. -/
theorem requestResources_granted_iff (d : DeadlockDetector) (processId : Int)
    (requestVec : List Int) (hwf : WF d) :
    ((∃ d2, requestResources d processId requestVec = some (RequestOutcome.granted, d2)) ↔
      (0 ≤ processId ∧ processId < (d.numProcesses : Int) ∧
        requestVec.length = d.numResources ∧
        (∀ j, j < d.numResources →
          vget requestVec j ≤ mget d.need processId.toNat j ∧
            vget requestVec j ≤ vget d.available j) ∧
        ∃ seq, bankersAlgorithmDetection (tentativeState d processId.toNat requestVec) none
          = some (true, seq))) ∧
    (∀ d2, requestResources d processId requestVec = some (RequestOutcome.granted, d2) →
      d2 = tentativeState d processId.toNat requestVec ∧ d2.maximum = d.maximum ∧
        ∀ i, i ≠ processId.toNat →
          d2.allocation.getD i [] = d.allocation.getD i [] ∧
            d2.need.getD i [] = d.need.getD i []) := by
  have hrange : ∀ (P : Nat → Prop),
      (∀ j, j ∈ List.range d.numResources → P j) ↔ ∀ j, j < d.numResources → P j := by
    intro P
    constructor
    · intro h j hj; exact h j (List.mem_range.mpr hj)
    · intro h j hj; exact h j (List.mem_range.mp hj)
  rcases requestResources_cases d processId requestVec with
    h | h | ⟨h1, h2, r, hr, h⟩ | h | h
  · obtain ⟨h1, h⟩ := h
    rw [h]
    constructor
    · constructor
      · rintro ⟨d2, he⟩; injection he with he; injection he with he _
        exact RequestOutcome.noConfusion he
      · rintro ⟨h2, h3, _⟩; exact absurd h1 (by omega)
    · intro d2 he; injection he with he; injection he with he _
      exact RequestOutcome.noConfusion he
  · obtain ⟨h1, h2, h⟩ := h
    rw [h]
    constructor
    · constructor
      · rintro ⟨d2, he⟩; injection he with he; injection he with he _
        exact RequestOutcome.noConfusion he
      · rintro ⟨_, _, h3, _⟩; exact absurd h3 h2
    · intro d2 he; injection he with he; injection he with he _
      exact RequestOutcome.noConfusion he
  · rw [h]
    have hng : r ≠ RequestOutcome.granted := by
      intro hg
      rcases admission_some_reason d _ _ _ r hr with h3 | h3 <;> rw [hg] at h3 <;>
        exact RequestOutcome.noConfusion h3
    constructor
    · constructor
      · rintro ⟨d2, he⟩; injection he with he; injection he with he _
        exact absurd he hng
      · rintro ⟨_, _, _, h3, _⟩
        have := (admission_none d processId.toNat requestVec _).mpr ((hrange _).mpr h3)
        rw [hr] at this
        exact Option.noConfusion this
    · intro d2 he; injection he with he; injection he with he _
      exact absurd he hng
  · obtain ⟨h1, h2, h3, ⟨seq, h4⟩, h⟩ := h
    have hp := toNat_lt_of_inRange processId d.numProcesses h1
    have heq := applyRequest_eq_tentativeState d processId.toNat requestVec hwf hp h2
    rw [h]
    constructor
    · constructor
      · intro _
        refine ⟨by omega, by omega, h2, (hrange _).mp ((admission_none d _ _ _).mp h3), seq, ?_⟩
        rw [← heq]; exact h4
      · intro _; exact ⟨_, rfl⟩
    · intro d2 he; injection he with he; injection he with _ he
      rw [← he, heq]
      exact ⟨rfl, tentativeState_frame d processId.toNat requestVec⟩
  · obtain ⟨h1, h2, h3, ⟨seq, h4⟩, h⟩ := h
    have hp := toNat_lt_of_inRange processId d.numProcesses h1
    have heq := applyRequest_eq_tentativeState d processId.toNat requestVec hwf hp h2
    rw [h]
    constructor
    · constructor
      · rintro ⟨d2, he⟩; injection he with he; injection he with he _
        exact RequestOutcome.noConfusion he
      · rintro ⟨_, _, _, _, seq2, h5⟩
        rw [← heq, h4] at h5
        injection h5 with h5; injection h5 with h5 _
        exact Bool.noConfusion h5
    · intro d2 he; injection he with he; injection he with he _
      exact RequestOutcome.noConfusion he

/-! ## Victim selection and the recovery loops -/

theorem selectBy_succ (c : Nat → Bool) (f : Nat → Int) (n : Nat) :
    selectBy c f (n + 1)
      = if c n = true ∧ f n < (selectBy c f n).2 then (some n, f n) else selectBy c f n := by
  unfold selectBy
  rw [List.range_succ, List.foldl_append]
  rfl

theorem selectBy_spec (c : Nat → Bool) (f : Nat → Int) (n : Nat) :
    ((selectBy c f n).1 = none →
      (selectBy c f n).2 = INT_MAX ∧ ∀ i, i < n → c i = true → INT_MAX ≤ f i) ∧
    (∀ k, (selectBy c f n).1 = some k →
      k < n ∧ c k = true ∧ (selectBy c f n).2 = f k ∧ f k < INT_MAX ∧
        (∀ i, i < n → c i = true → f k ≤ f i) ∧
        (∀ i, i < k → c i = true → f k < f i)) := by
  induction n with
  | zero =>
    refine ⟨fun _ => ⟨rfl, fun i hi => absurd hi (Nat.not_lt_zero i)⟩, ?_⟩
    intro k hk
    exact Option.noConfusion hk
  | succ n ih =>
    rw [selectBy_succ]
    obtain ⟨ihn, ihs⟩ := ih
    by_cases hc : c n = true ∧ f n < (selectBy c f n).2
    · rw [if_pos hc]
      refine ⟨fun h => Option.noConfusion h, ?_⟩
      intro k hk
      simp only [Option.some.injEq] at hk
      subst hk
      cases hsel : (selectBy c f n).1 with
      | none =>
        obtain ⟨h1, h2⟩ := ihn hsel
        refine ⟨by omega, hc.1, rfl, by rw [← h1]; exact hc.2, ?_, ?_⟩
        · intro i hi hci
          by_cases hin : i = n
          · rw [hin]
          · have := h2 i (by omega) hci
            have := hc.2
            omega
        · intro i hi hci
          have := h2 i hi hci
          have := hc.2
          omega
      | some k0 =>
        obtain ⟨h1, h2, h3, h4, h5, h6⟩ := ihs k0 hsel
        refine ⟨by omega, hc.1, rfl, by have := hc.2; omega, ?_, ?_⟩
        · intro i hi hci
          by_cases hin : i = n
          · rw [hin]
          · have := h5 i (by omega) hci
            have := hc.2
            omega
        · intro i hi hci
          have := h5 i hi hci
          have := hc.2
          omega
    · rw [if_neg hc]
      constructor
      · intro hsel
        obtain ⟨h1, h2⟩ := ihn hsel
        refine ⟨h1, ?_⟩
        intro i hi hci
        by_cases hin : i = n
        · subst hin
          have : ¬ f i < (selectBy c f i).2 := fun hh => hc ⟨hci, hh⟩
          omega
        · exact h2 i (by omega) hci
      · intro k hsel
        obtain ⟨h1, h2, h3, h4, h5, h6⟩ := ihs k hsel
        refine ⟨by omega, h2, h3, h4, ?_, h6⟩
        intro i hi hci
        by_cases hin : i = n
        · subst hin
          have : ¬ f i < (selectBy c f i).2 := fun hh => hc ⟨hci, hh⟩
          omega
        · exact h5 i (by omega) hci

theorem selectCulprit_eq (d : DeadlockDetector) :
    selectCulprit d
      = selectBy (fun i => decide (totalAlloc d i > 0)) (totalAlloc d) d.numProcesses := by
  unfold selectCulprit selectBy
  congr 1
  funext st i
  by_cases h1 : totalAlloc d i < st.2 <;> by_cases h2 : totalAlloc d i > 0 <;> simp [h1, h2]

theorem selectVictim_eq (d : DeadlockDetector) :
    selectVictim d
      = selectBy (fun i => decide (totalAlloc d i > 0)) (totalAlloc d) d.numProcesses := by
  unfold selectVictim selectBy
  congr 1
  funext st i
  by_cases h1 : totalAlloc d i < st.2 <;> by_cases h2 : totalAlloc d i > 0 <;> simp [h1, h2]

theorem selectMinProcess_eq (d : DeadlockDetector) (terminated : List Bool) :
    selectMinProcess d terminated
      = selectBy (fun i => !(terminated.getD i false)) (totalAlloc d) d.numProcesses := by
  unfold selectMinProcess selectBy
  congr 1
  funext st i
  beta_reduce
  generalize terminated.getD i false = b
  cases b <;> by_cases h2 : totalAlloc d i < st.2 <;> simp [h2]

theorem sum_range_congr (f g : Nat → Int) (n : Nat) (h : ∀ i, i < n → g i = f i) :
    ((List.range n).map g).sum = ((List.range n).map f).sum := by
  induction n with
  | zero => rfl
  | succ n ih =>
    rw [List.sum_range_succ, List.sum_range_succ, ih (fun i hi => h i (by omega)),
      h n (by omega)]

theorem sum_range_point (f g : Nat → Int) (n p : Nat) (hp : p < n)
    (h : ∀ i, i < n → i ≠ p → g i = f i) :
    ((List.range n).map g).sum = ((List.range n).map f).sum + (g p - f p) := by
  induction n with
  | zero => exact absurd hp (Nat.not_lt_zero p)
  | succ n ih =>
    rw [List.sum_range_succ, List.sum_range_succ]
    by_cases hpn : p = n
    · subst hpn
      rw [sum_range_congr f g p (fun i hi => h i (by omega) (by omega))]
      omega
    · rw [ih (by omega) (fun i hi hip => h i (by omega) hip), h n (by omega) (fun e => hpn e.symm)]
      omega

/-- Moving `δ` units of resource `j` from the row of process `c` to Available keeps the
total. -/
theorem totalUnits_transfer (d d2 : DeadlockDetector) (c j : Nat) (δ : Int)
    (hP : d2.numProcesses = d.numProcesses) (hc : c < d.numProcesses)
    (hav : vget d2.available j = vget d.available j + δ)
    (hrow : mget d2.allocation c j = mget d.allocation c j - δ)
    (hother : ∀ i, i ≠ c → mget d2.allocation i j = mget d.allocation i j) :
    totalUnits d2 j = totalUnits d j := by
  unfold totalUnits
  rw [hP, sum_range_point (fun i => mget d.allocation i j) (fun i => mget d2.allocation i j)
    d.numProcesses c hc (fun i _ hi => hother i hi), hav, hrow]
  omega

theorem terminate_frame (d : DeadlockDetector) (c : Nat) :
    (terminate d c).numProcesses = d.numProcesses ∧
    (terminate d c).numResources = d.numResources ∧
    (terminate d c).maximum = d.maximum ∧
    (∃ row, (terminate d c).allocation = d.allocation.set c row) ∧
    (∃ row, (terminate d c).need = d.need.set c row) := by
  rw [terminate_eq]
  exact tripleLoop_frame c _ d d.numResources

theorem terminate_wf (d : DeadlockDetector) (c : Nat) (h : WF d) : WF (terminate d c) := by
  rw [terminate_eq]
  exact tripleLoop_wf c _ d h d.numResources

theorem terminate_values (d : DeadlockDetector) (c : Nat) (h : WF d)
    (hc : c < d.numProcesses) :
    (∀ k, vget (terminate d c).available k
        = if k < d.numResources then wrapInt (vget d.available k + mget d.allocation c k)
          else vget d.available k) ∧
    (∀ i k, mget (terminate d c).allocation i k
        = if i = c ∧ k < d.numResources then 0 else mget d.allocation i k) ∧
    (∀ i k, mget (terminate d c).need i k
        = if i = c ∧ k < d.numResources then 0 else mget d.need i k) := by
  rw [terminate_eq]
  have := tripleLoop_values c (fun _ a b _ => some (wrapInt (a + b), 0, 0)) d h hc d.numResources
    (le_refl _)
  simpa [tripleNew] using this

theorem preempt_frame (d : DeadlockDetector) (v : Nat) :
    (preempt d v).1.numProcesses = d.numProcesses ∧
    (preempt d v).1.numResources = d.numResources ∧
    (preempt d v).1.maximum = d.maximum ∧
    (∃ row, (preempt d v).1.allocation = d.allocation.set v row) ∧
    (∃ row, (preempt d v).1.need = d.need.set v row) := by
  rw [preempt_fst]
  exact tripleLoop_frame v _ d d.numResources

theorem preempt_wf (d : DeadlockDetector) (v : Nat) (h : WF d) : WF (preempt d v).1 := by
  rw [preempt_fst]
  exact tripleLoop_wf v _ d h d.numResources

theorem preempt_values (d : DeadlockDetector) (v : Nat) (h : WF d)
    (hv : v < d.numProcesses) :
    (∀ k, vget (preempt d v).1.available k
        = if k < d.numResources ∧ mget d.allocation v k > 0
          then wrapInt (vget d.available k + mget d.allocation v k)
          else vget d.available k) ∧
    (∀ i k, mget (preempt d v).1.allocation i k
        = if i = v ∧ k < d.numResources ∧ mget d.allocation v k > 0 then 0
          else mget d.allocation i k) ∧
    (∀ i k, mget (preempt d v).1.need i k
        = if i = v ∧ k < d.numResources ∧ mget d.allocation v k > 0 then 0
          else mget d.need i k) := by
  rw [preempt_fst]
  obtain ⟨ha, hb, hc⟩ := tripleLoop_values v
    (fun _ a b _ => if b > 0 then some (wrapInt (a + b), 0, 0) else none) d h hv d.numResources
    (le_refl _)
  refine ⟨fun k => ?_, fun i k => ?_, fun i k => ?_⟩
  · rw [ha k]
    unfold tripleNew
    by_cases h1 : k < d.numResources <;> by_cases h2 : mget d.allocation v k > 0 <;>
      simp [h1, h2]
  · rw [hb i k]
    unfold tripleNew
    by_cases h0 : i = v <;> by_cases h1 : k < d.numResources <;>
      by_cases h2 : mget d.allocation v k > 0 <;> simp [h0, h1, h2]
  · rw [hc i k]
    unfold tripleNew
    by_cases h0 : i = v <;> by_cases h1 : k < d.numResources <;>
      by_cases h2 : mget d.allocation v k > 0 <;> simp [h0, h1, h2]

/-- On a state in range, returning the units of one process to Available does not leave the
range of `int`. -/
theorem transfer_range (d : DeadlockDetector) (hr : InRange d) (c : Nat)
    (hc : c < d.numProcesses) (j : Nat) (hj : j < d.numResources) :
    wrapInt (vget d.available j + mget d.allocation c j)
      = vget d.available j + mget d.allocation c j := by
  obtain ⟨h1, h2, h3⟩ := hr
  obtain ⟨_, p2⟩ := partial_sum_le (fun k => mget d.allocation k j) d.numProcesses [c]
    (List.nodup_singleton c) (fun k hk => by rw [List.mem_singleton] at hk; rw [hk]; exact hc)
    (fun k hk => h2 k hk j hj)
  simp only [List.map_cons, List.map_nil, List.sum_cons, List.sum_nil, add_zero] at p2
  have ha := h1 j hj
  have hb := h2 c hc j hj
  have ht := h3 j hj
  unfold totalUnits at ht
  apply wrapInt_eq
  · unfold INT_MIN; omega
  · omega

theorem terminate_totalUnits (d : DeadlockDetector) (c : Nat) (h : WF d) (hr : InRange d)
    (hc : c < d.numProcesses) (j : Nat) :
    totalUnits (terminate d c) j = totalUnits d j := by
  obtain ⟨ha, hb, _⟩ := terminate_values d c h hc
  by_cases hj : j < d.numResources
  · apply totalUnits_transfer d _ c j (mget d.allocation c j) (terminate_frame d c).1 hc
    · rw [ha j, if_pos hj, transfer_range d hr c hc j hj]
    · rw [hb c j, if_pos ⟨rfl, hj⟩]; omega
    · intro i hi
      rw [hb i j, if_neg (fun hh => hi hh.1)]
  · apply totalUnits_transfer d _ c j 0 (terminate_frame d c).1 hc
    · rw [ha j, if_neg hj]; omega
    · rw [hb c j, if_neg (fun hh => hj hh.2)]; omega
    · intro i hi
      rw [hb i j, if_neg (fun hh => hi hh.1)]

theorem preempt_totalUnits (d : DeadlockDetector) (v : Nat) (h : WF d) (hr : InRange d)
    (hv : v < d.numProcesses) (j : Nat) :
    totalUnits (preempt d v).1 j = totalUnits d j := by
  obtain ⟨ha, hb, _⟩ := preempt_values d v h hv
  by_cases hj : j < d.numResources ∧ mget d.allocation v j > 0
  · apply totalUnits_transfer d _ v j (mget d.allocation v j) (preempt_frame d v).1 hv
    · rw [ha j, if_pos hj, transfer_range d hr v hv j hj.1]
    · rw [hb v j, if_pos ⟨rfl, hj⟩]; omega
    · intro i hi
      rw [hb i j, if_neg (fun hh => hi hh.1)]
  · apply totalUnits_transfer d _ v j 0 (preempt_frame d v).1 hv
    · rw [ha j, if_neg hj]; omega
    · rw [hb v j, if_neg (fun hh => hj hh.2)]; omega
    · intro i hi
      rw [hb i j, if_neg (fun hh => hi hh.1)]

theorem applyRequest_totalUnits (d : DeadlockDetector) (p : Nat) (requestVec : List Int)
    (h : WF d) (hp : p < d.numProcesses) (j : Nat) :
    totalUnits (applyRequest d p requestVec) j = totalUnits d j := by
  obtain ⟨ha, hb, _⟩ := tripleLoop_values p (fun j a b c => some (a - vget requestVec j,
    b + vget requestVec j, c - vget requestVec j)) d h hp d.numResources (le_refl _)
  have hfr := tripleLoop_frame p (fun j a b c => some (a - vget requestVec j,
    b + vget requestVec j, c - vget requestVec j)) d d.numResources
  rw [← applyRequest_eq] at ha hb hfr
  by_cases hj : j < d.numResources
  · apply totalUnits_transfer d _ p j (- vget requestVec j) hfr.1 hp
    · rw [ha j, if_pos hj]; simp [tripleNew]; omega
    · rw [hb p j, if_pos ⟨rfl, hj⟩]; simp [tripleNew]
    · intro i hi
      rw [hb i j, if_neg (fun hh => hi hh.1)]
  · apply totalUnits_transfer d _ p j 0 hfr.1 hp
    · rw [ha j, if_neg hj]; omega
    · rw [hb p j, if_neg (fun hh => hj hh.2)]; omega
    · intro i hi
      rw [hb i j, if_neg (fun hh => hi hh.1)]

theorem escalate_zero (d : DeadlockDetector) (t : List Bool) (victims : List Nat) (n : Nat)
    (s : List Nat) : escalate 0 d t victims n s = none := by
  unfold escalate
  rfl

theorem escalate_none (fuel : Nat) (d : DeadlockDetector) (t : List Bool)
    (victims : List Nat) (n : Nat) (s : List Nat)
    (h : (selectMinProcess d t).1 = none) :
    escalate (fuel + 1) d t victims n s
      = some { outcome := TerminationOutcome.failed, state := d, terminated := t
               victims := victims, terminationCount := n, safeSeq := s } := by
  rw [escalate]
  simp only [h]

theorem escalate_safe (fuel : Nat) (d : DeadlockDetector) (t : List Bool)
    (victims : List Nat) (n : Nat) (s : List Nat) (m : Nat) (seq : List Nat)
    (h : (selectMinProcess d t).1 = some m)
    (hc : bankersAlgorithmCompute (terminate d m) (some (t.set m true)) = some (true, seq)) :
    escalate (fuel + 1) d t victims n s
      = some { outcome := TerminationOutcome.recovered, state := terminate d m
               terminated := t.set m true, victims := victims ++ [m]
               terminationCount := n + 1, safeSeq := seq } := by
  rw [escalate]
  simp only [h, hc]

theorem escalate_continue (fuel : Nat) (d : DeadlockDetector) (t : List Bool)
    (victims : List Nat) (n : Nat) (s : List Nat) (m : Nat) (seq : List Nat)
    (h : (selectMinProcess d t).1 = some m)
    (hc : bankersAlgorithmCompute (terminate d m) (some (t.set m true)) = some (false, seq)) :
    escalate (fuel + 1) d t victims n s
      = escalate fuel (terminate d m) (t.set m true) (victims ++ [m]) (n + 1) seq := by
  rw [escalate]
  simp only [h, hc]

theorem selectMinProcess_some (d : DeadlockDetector) (t : List Bool) (m : Nat)
    (h : (selectMinProcess d t).1 = some m) :
    m < d.numProcesses ∧ t.getD m false = false := by
  rw [selectMinProcess_eq] at h
  obtain ⟨h1, h2, _⟩ := (selectBy_spec _ _ _).2 m h
  refine ⟨h1, ?_⟩
  cases ht : t.getD m false
  · rfl
  · rw [ht] at h2; exact Bool.noConfusion h2

theorem selectCulprit_some (d : DeadlockDetector) (c : Nat)
    (h : (selectCulprit d).1 = some c) : c < d.numProcesses ∧ 0 < totalAlloc d c := by
  rw [selectCulprit_eq] at h
  obtain ⟨h1, h2, _⟩ := (selectBy_spec _ _ _).2 c h
  exact ⟨h1, by simpa using h2⟩

theorem selectVictim_some (d : DeadlockDetector) (c : Nat)
    (h : (selectVictim d).1 = some c) : c < d.numProcesses ∧ 0 < totalAlloc d c := by
  rw [selectVictim_eq] at h
  obtain ⟨h1, h2, _⟩ := (selectBy_spec _ _ _).2 c h
  exact ⟨h1, by simpa using h2⟩

/-- A property of the state that every termination keeps is kept by the escalation loop. -/
theorem escalate_inv (Q : DeadlockDetector → Prop)
    (hQ : ∀ d m, Q d → m < d.numProcesses → Q (terminate d m)) :
    ∀ (fuel : Nat) (d : DeadlockDetector) (t : List Bool) (victims : List Nat) (n : Nat)
      (s : List Nat) (res : TerminationResult),
      escalate fuel d t victims n s = some res → Q d → Q res.state := by
  intro fuel
  induction fuel with
  | zero =>
    intro d t victims n s res h _
    rw [escalate_zero] at h
    exact Option.noConfusion h
  | succ fuel ih =>
    intro d t victims n s res h hq
    cases hsel : (selectMinProcess d t).1 with
    | none =>
      rw [escalate_none fuel d t victims n s hsel] at h
      injection h with h
      rw [← h]
      exact hq
    | some m =>
      have hm := (selectMinProcess_some d t m hsel).1
      obtain ⟨⟨b, seq⟩, hc⟩ :=
        bankersAlgorithmCompute_total (terminate d m) (some (t.set m true))
      cases b with
      | true =>
        rw [escalate_safe fuel d t victims n s m seq hsel hc] at h
        injection h with h
        rw [← h]
        exact hQ d m hq hm
      | false =>
        rw [escalate_continue fuel d t victims n s m seq hsel hc] at h
        exact ih _ _ _ _ _ res h (hQ d m hq hm)

/-- The ways `processTermination` returns when the flag is set. -/
theorem processTermination_cases (d : DeadlockDetector) :
    ((selectCulprit d).1 = none ∧
      processTermination d true
        = some { outcome := TerminationOutcome.noCulprit, state := d
                 terminated := List.replicate d.numProcesses false
                 victims := [], terminationCount := 0, safeSeq := [] }) ∨
    (∃ c seq, (selectCulprit d).1 = some c ∧
      bankersAlgorithmCompute (terminate d c)
        (some ((List.replicate d.numProcesses false).set c true)) = some (true, seq) ∧
      processTermination d true
        = some { outcome := TerminationOutcome.recovered, state := terminate d c
                 terminated := (List.replicate d.numProcesses false).set c true
                 victims := [c], terminationCount := 1, safeSeq := seq }) ∨
    (∃ c seq, (selectCulprit d).1 = some c ∧
      bankersAlgorithmCompute (terminate d c)
        (some ((List.replicate d.numProcesses false).set c true)) = some (false, seq) ∧
      processTermination d true
        = escalate d.numProcesses (terminate d c)
            ((List.replicate d.numProcesses false).set c true) [c] 1 seq) := by
  unfold processTermination
  simp only [Bool.not_true, Bool.false_eq_true, if_false]
  cases hsel : (selectCulprit d).1 with
  | none => left; exact ⟨rfl, rfl⟩
  | some c =>
    right
    obtain ⟨⟨b, seq⟩, hc⟩ := bankersAlgorithmCompute_total (terminate d c)
      (some ((List.replicate d.numProcesses false).set c true))
    cases b with
    | true => left; exact ⟨c, seq, rfl, hc, by simp only [hc]⟩
    | false => right; exact ⟨c, seq, rfl, hc, by simp only [hc]⟩

theorem processTermination_notNeeded (d : DeadlockDetector) :
    processTermination d false
      = some { outcome := TerminationOutcome.notNeeded, state := d, terminated := []
               victims := [], terminationCount := 0, safeSeq := [] } := by
  unfold processTermination
  rfl

/-- A property of the state that every termination keeps is kept by `processTermination`. -/
theorem processTermination_inv (Q : DeadlockDetector → Prop)
    (hQ : ∀ d m, Q d → m < d.numProcesses → Q (terminate d m))
    (d : DeadlockDetector) (flag : Bool) (res : TerminationResult)
    (h : processTermination d flag = some res) (hq : Q d) : Q res.state := by
  cases flag with
  | false =>
    rw [processTermination_notNeeded] at h
    injection h with h
    rw [← h]; exact hq
  | true =>
    rcases processTermination_cases d with ⟨_, h1⟩ | ⟨c, seq, hsel, _, h1⟩ | ⟨c, seq, hsel, _, h1⟩
    · rw [h1] at h
      injection h with h
      rw [← h]; exact hq
    · rw [h1] at h
      injection h with h
      rw [← h]
      exact hQ d c hq (selectCulprit_some d c hsel).1
    · rw [h1] at h
      exact escalate_inv Q hQ _ _ _ _ _ _ res h (hQ d c hq (selectCulprit_some d c hsel).1)

/-- The ways `resourcePreemption` returns. -/
theorem resourcePreemption_cases (d : DeadlockDetector) (flag : Bool) :
    (∃ res, resourcePreemption d flag = some res ∧ res.state = d) ∨
    (∃ v res, (selectVictim d).1 = some v ∧ flag = true ∧
      resourcePreemption d flag = some res ∧
      res.state = (preempt d v).1 ∧ res.preempted = (preempt d v).2 ∧ res.victim = some v ∧
      ((res.outcome = PreemptionOutcome.recovered ∧
          bankersAlgorithmCompute (preempt d v).1 (some (preempt d v).2)
            = some (true, res.safeSeq)) ∨
        (res.outcome = PreemptionOutcome.stillUnsafe ∧
          bankersAlgorithmCompute (preempt d v).1 (some (preempt d v).2)
            = some (false, res.safeSeq)))) := by
  unfold resourcePreemption
  cases flag with
  | false => left; exact ⟨_, rfl, rfl⟩
  | true =>
    simp only [Bool.not_true, Bool.false_eq_true, if_false]
    cases hsel : (selectVictim d).1 with
    | none => left; exact ⟨_, rfl, rfl⟩
    | some v =>
      right
      obtain ⟨⟨b, seq⟩, hc⟩ :=
        bankersAlgorithmCompute_total (preempt d v).1 (some (preempt d v).2)
      cases b with
      | true =>
        exact ⟨v, { outcome := PreemptionOutcome.recovered, state := (preempt d v).1
                    victim := some v, preempted := (preempt d v).2, safeSeq := seq },
          rfl, trivial, by simp only [hc], rfl, rfl, rfl, Or.inl ⟨rfl, hc⟩⟩
      | false =>
        exact ⟨v, { outcome := PreemptionOutcome.stillUnsafe, state := (preempt d v).1
                    victim := some v, preempted := (preempt d v).2, safeSeq := seq },
          rfl, trivial, by simp only [hc], rfl, rfl, rfl, Or.inr ⟨rfl, hc⟩⟩

theorem masked_set (t : List Bool) (m k : Nat) (hm : m < t.length) :
    masked (some (t.set m true)) k = if m = k then true else masked (some t) k := by
  unfold masked
  simp only
  rw [getD_set_bool]
  by_cases h : m = k
  · rw [if_pos ⟨h, hm⟩, if_pos h]
  · rw [if_neg (fun hh => h hh.1), if_neg h]

theorem nonMasked_set (d d1 : DeadlockDetector) (t : List Bool) (m : Nat)
    (hP : d1.numProcesses = d.numProcesses) (hm : m < d.numProcesses)
    (hlen : t.length = d.numProcesses) (htm : t.getD m false = false) :
    (nonMasked d1 (some (t.set m true))).card + 1 = (nonMasked d (some t)).card := by
  have hmem : m ∈ nonMasked d (some t) := by
    rw [mem_nonMasked]; exact ⟨hm, htm⟩
  have heq : nonMasked d1 (some (t.set m true)) = (nonMasked d (some t)).erase m := by
    ext k
    rw [Finset.mem_erase, mem_nonMasked, mem_nonMasked, hP, masked_set t m k (by omega)]
    by_cases h : m = k
    · subst h
      simp
    · have h2 : k ≠ m := fun e => h e.symm
      simp [h, h2]
  rw [heq, Finset.card_erase_of_mem hmem]
  have := Finset.card_pos.mpr ⟨m, hmem⟩
  omega

theorem nonMasked_replicate (d : DeadlockDetector) :
    (nonMasked d (some (List.replicate d.numProcesses false))).card = d.numProcesses := by
  have : nonMasked d (some (List.replicate d.numProcesses false))
      = Finset.range d.numProcesses := by
    ext k
    rw [mem_nonMasked, Finset.mem_range]
    constructor
    · intro h; exact h.1
    · intro h
      refine ⟨h, ?_⟩
      simp [masked, List.getD_eq_getElem?_getD, List.getElem?_replicate, h]
  rw [this, Finset.card_range]

theorem escalate_total :
    ∀ (fuel : Nat) (d : DeadlockDetector) (t : List Bool) (victims : List Nat) (n : Nat)
      (s : List Nat), t.length = d.numProcesses →
      (nonMasked d (some t)).card + 1 ≤ fuel →
      ∃ res, escalate fuel d t victims n s = some res := by
  intro fuel
  induction fuel with
  | zero => intro d t victims n s _ h; omega
  | succ fuel ih =>
    intro d t victims n s hlen hfuel
    cases hsel : (selectMinProcess d t).1 with
    | none => exact ⟨_, escalate_none fuel d t victims n s hsel⟩
    | some m =>
      obtain ⟨hm, htm⟩ := selectMinProcess_some d t m hsel
      obtain ⟨⟨b, seq⟩, hc⟩ :=
        bankersAlgorithmCompute_total (terminate d m) (some (t.set m true))
      cases b with
      | true => exact ⟨_, escalate_safe fuel d t victims n s m seq hsel hc⟩
      | false =>
        rw [escalate_continue fuel d t victims n s m seq hsel hc]
        apply ih
        · rw [List.length_set, (terminate_frame d m).1]; exact hlen
        · have := nonMasked_set d (terminate d m) t m (terminate_frame d m).1 hm hlen htm
          omega

theorem getD_replicate_false (n k : Nat) : (List.replicate n false).getD k false = false := by
  simp only [List.getD_eq_getElem?_getD, List.getElem?_replicate]
  split <;> rfl

theorem processTermination_total (d : DeadlockDetector) (flag : Bool) :
    ∃ res, processTermination d flag = some res := by
  cases flag with
  | false => exact ⟨_, processTermination_notNeeded d⟩
  | true =>
    rcases processTermination_cases d with ⟨_, h1⟩ | ⟨c, seq, _, _, h1⟩ | ⟨c, seq, hsel, _, h1⟩
    · exact ⟨_, h1⟩
    · exact ⟨_, h1⟩
    · rw [h1]
      have hc := (selectCulprit_some d c hsel).1
      apply escalate_total
      · rw [List.length_set, List.length_replicate, (terminate_frame d c).1]
      · have := nonMasked_set d (terminate d c) (List.replicate d.numProcesses false) c
          (terminate_frame d c).1 hc (List.length_replicate _ _) (getD_replicate_false _ _)
        rw [nonMasked_replicate] at this
        omega

theorem resourcePreemption_total (d : DeadlockDetector) (flag : Bool) :
    ∃ res, resourcePreemption d flag = some res := by
  rcases resourcePreemption_cases d flag with ⟨res, h, _⟩ | ⟨v, res, _, _, h, _⟩
  · exact ⟨res, h⟩
  · exact ⟨res, h⟩

/-- A property of the state that every preemption keeps is kept by `resourcePreemption`. -/
theorem resourcePreemption_inv (Q : DeadlockDetector → Prop)
    (hQ : ∀ d v, Q d → v < d.numProcesses → Q (preempt d v).1)
    (d : DeadlockDetector) (flag : Bool) (res : PreemptionResult)
    (h : resourcePreemption d flag = some res) (hq : Q d) : Q res.state := by
  rcases resourcePreemption_cases d flag with ⟨res2, h2, h3⟩ | ⟨v, res2, hsel, _, h2, h3, _⟩
  · rw [h2] at h
    injection h with h
    rw [← h, h3]; exact hq
  · rw [h2] at h
    injection h with h
    rw [← h, h3]
    exact hQ d v hq (selectVictim_some d v hsel).1

/-- Terminating a process keeps a state in range. -/
theorem terminate_inRange (d : DeadlockDetector) (c : Nat) (hc : c < d.numProcesses)
    (h : WF d ∧ InRange d) : WF (terminate d c) ∧ InRange (terminate d c) := by
  obtain ⟨hwf, hr⟩ := h
  refine ⟨terminate_wf d c hwf, ?_⟩
  obtain ⟨f1, f2, _, _, _⟩ := terminate_frame d c
  obtain ⟨va, vb, _⟩ := terminate_values d c hwf hc
  have ht := terminate_totalUnits d c hwf hr hc
  obtain ⟨h1, h2, h3⟩ := hr
  unfold InRange
  rw [f1, f2]
  refine ⟨?_, ?_, ?_⟩
  · intro j hj
    rw [va j, if_pos hj, transfer_range d ⟨h1, h2, h3⟩ c hc j hj]
    have := h1 j hj
    have := h2 c hc j hj
    omega
  · intro i hi j hj
    rw [vb i j]
    have := h2 i hi j hj
    by_cases hh : i = c ∧ j < d.numResources
    · rw [if_pos hh]
    · rw [if_neg hh]; exact this
  · intro j hj
    rw [ht j]
    exact h3 j hj

/-- Preempting a process keeps a state in range. -/
theorem preempt_inRange (d : DeadlockDetector) (v : Nat) (hv : v < d.numProcesses)
    (h : WF d ∧ InRange d) : WF (preempt d v).1 ∧ InRange (preempt d v).1 := by
  obtain ⟨hwf, hr⟩ := h
  refine ⟨preempt_wf d v hwf, ?_⟩
  obtain ⟨f1, f2, _, _, _⟩ := preempt_frame d v
  obtain ⟨va, vb, _⟩ := preempt_values d v hwf hv
  have ht := preempt_totalUnits d v hwf hr hv
  obtain ⟨h1, h2, h3⟩ := hr
  unfold InRange
  rw [f1, f2]
  refine ⟨?_, ?_, ?_⟩
  · intro j hj
    rw [va j]
    have := h1 j hj
    have := h2 v hv j hj
    by_cases hh : j < d.numResources ∧ mget d.allocation v j > 0
    · rw [if_pos hh, transfer_range d ⟨h1, h2, h3⟩ v hv j hj]; omega
    · rw [if_neg hh]; omega
  · intro i hi j hj
    rw [vb i j]
    have := h2 i hi j hj
    by_cases hh : i = v ∧ j < d.numResources ∧ mget d.allocation v j > 0
    · rw [if_pos hh]
    · rw [if_neg hh]; exact this
  · intro j hj
    rw [ht j]
    exact h3 j hj

theorem terminate_allocInv (d : DeadlockDetector) (c : Nat) (hc : c < d.numProcesses)
    (h : WF d ∧ AllocInv d ∧ InRange d) :
    WF (terminate d c) ∧ AllocInv (terminate d c) ∧ InRange (terminate d c) := by
  obtain ⟨hwf, ⟨h1, h2⟩, hr⟩ := h
  obtain ⟨hwf2, hr2⟩ := terminate_inRange d c hc ⟨hwf, hr⟩
  refine ⟨hwf2, ?_, hr2⟩
  obtain ⟨f1, f2, f3, _, _⟩ := terminate_frame d c
  obtain ⟨_, vb, _⟩ := terminate_values d c hwf hc
  refine ⟨?_, hr2.1⟩
  rw [f1, f2, f3]
  intro i hi j hj
  rw [vb i j]
  have := h1 i hi j hj
  by_cases hh : i = c ∧ j < d.numResources
  · rw [if_pos hh]; omega
  · rw [if_neg hh]; exact this

theorem preempt_allocInv (d : DeadlockDetector) (v : Nat) (hv : v < d.numProcesses)
    (h : WF d ∧ AllocInv d ∧ InRange d) :
    WF (preempt d v).1 ∧ AllocInv (preempt d v).1 ∧ InRange (preempt d v).1 := by
  obtain ⟨hwf, ⟨h1, h2⟩, hr⟩ := h
  obtain ⟨hwf2, hr2⟩ := preempt_inRange d v hv ⟨hwf, hr⟩
  refine ⟨hwf2, ?_, hr2⟩
  obtain ⟨f1, f2, f3, _, _⟩ := preempt_frame d v
  obtain ⟨_, vb, _⟩ := preempt_values d v hwf hv
  refine ⟨?_, hr2.1⟩
  rw [f1, f2, f3]
  intro i hi j hj
  rw [vb i j]
  have := h1 i hi j hj
  by_cases hh : i = v ∧ j < d.numResources ∧ mget d.allocation v j > 0
  · rw [if_pos hh]; omega
  · rw [if_neg hh]; exact this

theorem applyRequest_allocInv (d : DeadlockDetector) (p : Nat) (requestVec : List Int)
    (hwf : WF d) (hp : p < d.numProcesses) (hinv : AllocInv d) (hneed : NeedExact d)
    (hnn : ∀ j, j < d.numResources → 0 ≤ vget requestVec j)
    (hadm : ∀ j, j < d.numResources →
      vget requestVec j ≤ mget d.need p j ∧ vget requestVec j ≤ vget d.available j) :
    AllocInv (applyRequest d p requestVec) := by
  obtain ⟨va, vb, _⟩ := tripleLoop_values p (fun j a b c => some (a - vget requestVec j,
    b + vget requestVec j, c - vget requestVec j)) d hwf hp d.numResources (le_refl _)
  obtain ⟨f1, f2, f3, _, _⟩ := tripleLoop_frame p (fun j a b c => some (a - vget requestVec j,
    b + vget requestVec j, c - vget requestVec j)) d d.numResources
  rw [← applyRequest_eq] at va vb f1 f2 f3
  obtain ⟨h1, h2⟩ := hinv
  unfold AllocInv
  rw [f1, f2, f3]
  constructor
  · intro i hi j hj
    rw [vb i j]
    have := h1 i hi j hj
    by_cases hh : i = p ∧ j < d.numResources
    · rw [if_pos hh]
      have e : (tripleNew p (fun j a b c => some (a - vget requestVec j,
          b + vget requestVec j, c - vget requestVec j)) d j).2.1
          = mget d.allocation p j + vget requestVec j := rfl
      rw [e]
      have := hneed p hp j hj
      have := hadm j hj
      have := hnn j hj
      have := h1 p hp j hj
      rw [hh.1]
      omega
    · rw [if_neg hh]; exact this
  · intro j hj
    rw [va j, if_pos hj]
    have e : (tripleNew p (fun j a b c => some (a - vget requestVec j,
        b + vget requestVec j, c - vget requestVec j)) d j).1
        = vget d.available j - vget requestVec j := rfl
    rw [e]
    have := hadm j hj
    omega

theorem compute_all_masked (d : DeadlockDetector) (mask : Option (List Bool))
    (h : (nonMasked d mask).card = 0) : bankersAlgorithmCompute d mask = some (true, []) := by
  unfold bankersAlgorithmCompute
  rw [computeLoop_exit]
  rw [activeCount_eq, h]
  simp

/-! ## The cycle search -/

theorem unvisitedCount_le (n : Nat) (m : Marks) : unvisitedCount n m ≤ n := by
  unfold unvisitedCount
  have := Finset.card_le_card (Finset.filter_subset
    (fun k => m.visited.getD k false = false) (Finset.range n))
  rw [Finset.card_range] at this
  exact this

theorem unvisitedCount_mono (n : Nat) (m m1 : Marks)
    (h : ∀ k, m.visited.getD k false = true → m1.visited.getD k false = true) :
    unvisitedCount n m1 ≤ unvisitedCount n m := by
  unfold unvisitedCount
  apply Finset.card_le_card
  intro k hk
  rw [Finset.mem_filter] at hk ⊢
  refine ⟨hk.1, ?_⟩
  cases hv : m.visited.getD k false
  · rfl
  · have := h k hv
    rw [hk.2] at this
    exact Bool.noConfusion this

theorem unvisitedCount_mark (n : Nat) (m : Marks) (v : Nat) (hv : v < n)
    (hlen : m.visited.length = n) (hun : m.visited.getD v false = false) (r : List Bool) :
    unvisitedCount n { visited := m.visited.set v true, recStack := r } + 1
      = unvisitedCount n m := by
  unfold unvisitedCount
  have hmem : v ∈ (Finset.range n).filter fun k => m.visited.getD k false = false := by
    rw [Finset.mem_filter, Finset.mem_range]; exact ⟨hv, hun⟩
  have heq : ((Finset.range n).filter fun k => (m.visited.set v true).getD k false = false)
      = ((Finset.range n).filter fun k => m.visited.getD k false = false).erase v := by
    ext k
    rw [Finset.mem_erase, Finset.mem_filter, Finset.mem_filter, getD_set_bool]
    by_cases h : v = k
    · subst h
      simp [hlen, hv]
    · have h2 : k ≠ v := fun e => h e.symm
      simp [h, h2]
  simp only
  rw [heq, Finset.card_erase_of_mem hmem]
  have := Finset.card_pos.mpr ⟨v, hmem⟩
  omega

theorem black_closed_reach (g : List (List Bool)) (n : Nat) (m : Marks)
    (hcl : ∀ b u, Black m b → Edge g n b u → Black m u) (b u : Nat)
    (hb : Black m b) (h : Relation.ReflTransGen (Edge g n) b u) : Black m u := by
  induction h with
  | refl => exact hb
  | tail _ hstep ih => exact hcl _ _ ih hstep

theorem visitLoop_spec (g : List (List Bool)) (n : Nat) (bound : Nat)
    (call : Nat → Marks → Option (Bool × Marks)) (hcall : CallSpec g n bound call)
    (v : Nat) (hv : v < n) :
    ∀ (rest : List Nat) (m : Marks), (∀ u, u ∈ rest → u < n) → MarksInv g n m →
      m.recStack.getD v false = true →
      (∀ s, m.recStack.getD s false = true → Relation.ReflTransGen (Edge g n) s v) →
      unvisitedCount n m ≤ bound →
      ∃ b m1, visitLoop call g v rest m = some (b, m1) ∧ (b = true → HasCycle g n) ∧
        (b = false → MarksStep g n m m1 ∧
          ∀ u, u ∈ rest → bget g v u = true → Black m1 u) := by
  intro rest
  induction rest with
  | nil =>
    intro m _ hinv _ _ _
    refine ⟨false, m, rfl, fun h => Bool.noConfusion h, fun _ => ⟨⟨hinv, fun _ => rfl, fun _ h => h⟩, ?_⟩⟩
    intro u hu
    exact absurd hu (List.not_mem_nil u)
  | cons u rest ih =>
    intro m hrest hinv hrv hreach hcount
    have hu : u < n := hrest u (List.mem_cons_self u rest)
    have hrest2 : ∀ w, w ∈ rest → w < n := fun w hw => hrest w (List.mem_cons_of_mem u hw)
    rw [visitLoop]
    cases hg : bget g v u with
    | false =>
      simp only [Bool.false_eq_true, if_false]
      obtain ⟨b, m1, h1, h2, h3⟩ := ih m hrest2 hinv hrv hreach hcount
      refine ⟨b, m1, h1, h2, fun hb => ⟨(h3 hb).1, ?_⟩⟩
      intro w hw hgw
      rcases List.mem_cons.mp hw with e | e
      · rw [e, hg] at hgw; exact Bool.noConfusion hgw
      · exact (h3 hb).2 w e hgw
    | true =>
      simp only [if_true]
      have hedge : Edge g n v u := ⟨hv, hu, hg⟩
      cases hvis : m.visited.getD u false with
      | false =>
        simp only [Bool.not_false, if_true]
        obtain ⟨b, m1, hc1, hc2, hc3⟩ := hcall u m hu hinv hvis
          (fun s hs => Relation.ReflTransGen.tail (hreach s hs) hedge) hcount
        rw [hc1]
        cases b with
        | true =>
          exact ⟨true, m1, rfl, fun _ => hc2 rfl, fun h => Bool.noConfusion h⟩
        | false =>
          obtain ⟨hstep, hvu⟩ := hc3 rfl
          have hru : m1.recStack.getD u false = false := by
            rw [hstep.rec_same u]
            cases hr : m.recStack.getD u false
            · rfl
            · have := hinv.rec_vis u hr
              rw [hvis] at this
              exact Bool.noConfusion this
          simp only [hru, Bool.false_eq_true, if_false]
          obtain ⟨b, m2, h1, h2, h3⟩ := ih m1 hrest2 hstep.inv
            (by rw [hstep.rec_same v]; exact hrv)
            (fun s hs => hreach s (by rw [← hstep.rec_same s]; exact hs))
            (le_trans (unvisitedCount_mono n m m1 hstep.vis_mono) hcount)
          refine ⟨b, m2, h1, h2, fun hb => ?_⟩
          obtain ⟨hstep2, hbl⟩ := h3 hb
          refine ⟨⟨hstep2.inv, fun k => (hstep2.rec_same k).trans (hstep.rec_same k),
            fun k hk => hstep2.vis_mono k (hstep.vis_mono k hk)⟩, ?_⟩
          intro w hw hgw
          rcases List.mem_cons.mp hw with e | e
          · rw [e]
            exact ⟨hstep2.vis_mono u hvu, by rw [hstep2.rec_same u]; exact hru⟩
          · exact hbl w e hgw
      | true =>
        simp only [Bool.not_true, Bool.false_eq_true, if_false]
        cases hr : m.recStack.getD u false with
        | true =>
          simp only [if_true]
          refine ⟨true, m, rfl, fun _ => ?_, fun h => Bool.noConfusion h⟩
          exact ⟨v, Relation.TransGen.head' hedge (hreach u hr)⟩
        | false =>
          simp only [Bool.false_eq_true, if_false]
          obtain ⟨b, m1, h1, h2, h3⟩ := ih m hrest2 hinv hrv hreach hcount
          refine ⟨b, m1, h1, h2, fun hb => ⟨(h3 hb).1, ?_⟩⟩
          intro w hw hgw
          rcases List.mem_cons.mp hw with e | e
          · rw [e]
            obtain ⟨hstep, _⟩ := h3 hb
            exact ⟨hstep.vis_mono u hvis, by rw [hstep.rec_same u]; exact hr⟩
          · exact (h3 hb).2 w e hgw

theorem unvisitedCount_pos (n : Nat) (m : Marks) (v : Nat) (hv : v < n)
    (hun : m.visited.getD v false = false) : 0 < unvisitedCount n m := by
  unfold unvisitedCount
  apply Finset.card_pos.mpr
  exact ⟨v, by rw [Finset.mem_filter, Finset.mem_range]; exact ⟨hv, hun⟩⟩

theorem hasCycle_spec (g : List (List Bool)) (n : Nat) :
    ∀ fuel, CallSpec g n fuel (hasCycle g n fuel) := by
  intro fuel
  induction fuel with
  | zero =>
    intro v m hv _ hun _ hcount
    have := unvisitedCount_pos n m v hv hun
    omega
  | succ fuel ih =>
    intro v m hv hinv hun hreach hcount
    have hrv0 : m.recStack.getD v false = false := by
      cases hr : m.recStack.getD v false
      · rfl
      · have := hinv.rec_vis v hr
        rw [hun] at this
        exact Bool.noConfusion this
    have hblack : ∀ k, Black (⟨m.visited.set v true, m.recStack.set v true⟩ : Marks) k ↔ Black m k := by
      intro k
      unfold Black
      simp only
      rw [getD_set_bool, getD_set_bool, hinv.vis_len, hinv.rec_len]
      by_cases hk : v = k
      · subst hk
        rw [if_pos ⟨rfl, hv⟩, if_pos ⟨rfl, hv⟩, hun]
        constructor
        · intro h; exact Bool.noConfusion h.2
        · intro h; exact Bool.noConfusion h.1
      · rw [if_neg (fun h => hk h.1), if_neg (fun h => hk h.1)]
    have hinv0 : MarksInv g n (⟨m.visited.set v true, m.recStack.set v true⟩ : Marks) := by
      constructor
      · simp [hinv.vis_len]
      · simp [hinv.rec_len]
      · intro k hk
        simp only at hk ⊢
        rw [getD_set_bool] at hk ⊢
        rw [hinv.vis_len]
        rw [hinv.rec_len] at hk
        by_cases hvk : v = k ∧ v < n
        · rw [if_pos hvk]
        · rw [if_neg hvk] at hk ⊢
          exact hinv.rec_vis k hk
      · intro b u hb he
        exact (hblack u).mpr (hinv.closed b u ((hblack b).mp hb) he)
      · intro b hb
        exact hinv.acyclic b ((hblack b).mp hb)
    have hrv : (⟨m.visited.set v true, m.recStack.set v true⟩ : Marks).recStack.getD v false = true := by
      simp only
      rw [getD_set_bool, if_pos ⟨rfl, by rw [hinv.rec_len]; exact hv⟩]
    have hreach0 : ∀ s, (⟨m.visited.set v true, m.recStack.set v true⟩ : Marks).recStack.getD s false = true →
        Relation.ReflTransGen (Edge g n) s v := by
      intro s hs
      simp only at hs
      rw [getD_set_bool] at hs
      by_cases hvs : v = s ∧ v < m.recStack.length
      · rw [← hvs.1]
      · rw [if_neg hvs] at hs
        exact hreach s hs
    have hcount0 : unvisitedCount n (⟨m.visited.set v true, m.recStack.set v true⟩ : Marks) ≤ fuel := by
      have := unvisitedCount_mark n m v hv hinv.vis_len hun (m.recStack.set v true)
      omega
    obtain ⟨b, m1, h1, h2, h3⟩ := visitLoop_spec g n fuel (hasCycle g n fuel) ih v hv
      (List.range n) _ (fun u hu => List.mem_range.mp hu) hinv0 hrv hreach0 hcount0
    rw [hasCycle, h1]
    cases b with
    | true => exact ⟨true, m1, rfl, fun _ => h2 rfl, fun h => Bool.noConfusion h⟩
    | false =>
      obtain ⟨hstep, hsucc⟩ := h3 rfl
      refine ⟨false, { m1 with recStack := m1.recStack.set v false }, rfl,
        fun h => Bool.noConfusion h, fun _ => ?_⟩
      have hm1v : m1.visited.getD v false = true := by
        apply hstep.vis_mono
        simp only
        rw [getD_set_bool, if_pos ⟨rfl, by rw [hinv.vis_len]; exact hv⟩]
      have hm1r : m1.recStack.getD v false = true := by
        rw [hstep.rec_same v]; exact hrv
      have hrec : ∀ k, (m1.recStack.set v false).getD k false = m.recStack.getD k false := by
        intro k
        rw [getD_set_bool]
        by_cases hk : v = k ∧ v < m1.recStack.length
        · rw [if_pos hk, ← hk.1, hrv0]
        · rw [if_neg hk, hstep.rec_same k]
          simp only
          rw [getD_set_bool]
          by_cases hk2 : v = k ∧ v < m.recStack.length
          · exfalso
            apply hk
            refine ⟨hk2.1, ?_⟩
            rw [hstep.inv.rec_len]; exact hv
          · rw [if_neg hk2]
      have hblack2 : ∀ k, Black { m1 with recStack := m1.recStack.set v false } k ↔
          (Black m1 k ∨ k = v) := by
        intro k
        unfold Black
        simp only
        rw [getD_set_bool, hstep.inv.rec_len]
        by_cases hk : v = k
        · subst hk
          rw [if_pos ⟨rfl, hv⟩]
          constructor
          · intro _; exact Or.inr rfl
          · intro _; exact ⟨hm1v, rfl⟩
        · have hk2 : ¬ k = v := fun e => hk e.symm
          rw [if_neg (fun h => hk h.1)]
          constructor
          · intro h; exact Or.inl h
          · intro h
            rcases h with h | h
            · exact h
            · exact absurd h hk2
      have hclosed1 : ∀ u, Edge g n v u → Black m1 u := by
        intro u he
        exact hsucc u (List.mem_range.mpr he.2.1) he.2.2
      refine ⟨⟨?_, hrec, ?_⟩, ?_⟩
      · constructor
        · exact hstep.inv.vis_len
        · simp [hstep.inv.rec_len]
        · intro k hk
          simp only at hk ⊢
          rw [hrec k] at hk
          have := hinv.rec_vis k hk
          apply hstep.vis_mono
          simp only
          rw [getD_set_bool]
          by_cases hvk : v = k ∧ v < m.visited.length
          · rw [if_pos hvk]
          · rw [if_neg hvk]; exact this
        · intro b u hb he
          rw [hblack2] at hb ⊢
          rcases hb with hb | hb
          · exact Or.inl (hstep.inv.closed b u hb he)
          · rw [hb] at he
            exact Or.inl (hclosed1 u he)
        · intro b hb
          rw [hblack2] at hb
          rcases hb with hb | hb
          · exact hstep.inv.acyclic b hb
          · rw [hb]
            intro hcyc
            obtain ⟨u, he, hpath⟩ := Relation.TransGen.head'_iff.mp hcyc
            have := black_closed_reach g n m1 hstep.inv.closed u v (hclosed1 u he) hpath
            rw [this.2] at hm1r
            exact Bool.noConfusion hm1r
      · intro k hk
        simp only
        apply hstep.vis_mono
        simp only
        rw [getD_set_bool]
        by_cases hvk : v = k ∧ v < m.visited.length
        · rw [if_pos hvk]
        · rw [if_neg hvk]; exact hk
      · exact hm1v

theorem searchLoop_spec (g : List (List Bool)) (n : Nat) :
    ∀ (rest : List Nat) (m : Marks), (∀ i, i ∈ rest → i < n) → MarksInv g n m →
      (∀ s, m.recStack.getD s false = false) →
      ∃ b, searchLoop g n rest m = some b ∧ (b = true → HasCycle g n) ∧
        (b = false → ∃ m1, MarksStep g n m m1 ∧
          ∀ i, i ∈ rest → m1.visited.getD i false = true) := by
  intro rest
  induction rest with
  | nil =>
    intro m _ hinv _
    refine ⟨false, rfl, fun h => Bool.noConfusion h, fun _ => ⟨m, ⟨hinv, fun _ => rfl, fun _ h => h⟩, ?_⟩⟩
    intro i hi
    exact absurd hi (List.not_mem_nil i)
  | cons i rest ih =>
    intro m hrest hinv hstack
    have hi : i < n := hrest i (List.mem_cons_self i rest)
    have hrest2 : ∀ w, w ∈ rest → w < n := fun w hw => hrest w (List.mem_cons_of_mem i hw)
    rw [searchLoop]
    cases hvis : m.visited.getD i false with
    | true =>
      simp only [Bool.not_true, Bool.false_eq_true, if_false]
      obtain ⟨b, h1, h2, h3⟩ := ih m hrest2 hinv hstack
      refine ⟨b, h1, h2, fun hb => ?_⟩
      obtain ⟨m1, hstep, hall⟩ := h3 hb
      refine ⟨m1, hstep, ?_⟩
      intro w hw
      rcases List.mem_cons.mp hw with e | e
      · rw [e]; exact hstep.vis_mono i hvis
      · exact hall w e
    | false =>
      simp only [Bool.not_false, if_true]
      obtain ⟨b, m1, hc1, hc2, hc3⟩ := hasCycle_spec g n n i m hi hinv hvis
        (fun s hs => by rw [hstack s] at hs; exact Bool.noConfusion hs)
        (unvisitedCount_le n m)
      rw [hc1]
      cases b with
      | true => exact ⟨true, rfl, fun _ => hc2 rfl, fun h => Bool.noConfusion h⟩
      | false =>
        obtain ⟨hstep, hvi⟩ := hc3 rfl
        obtain ⟨b, h1, h2, h3⟩ := ih m1 hrest2 hstep.inv
          (fun s => by rw [hstep.rec_same s]; exact hstack s)
        refine ⟨b, h1, h2, fun hb => ?_⟩
        obtain ⟨m2, hstep2, hall⟩ := h3 hb
        refine ⟨m2, ⟨hstep2.inv, fun k => (hstep2.rec_same k).trans (hstep.rec_same k),
          fun k hk => hstep2.vis_mono k (hstep.vis_mono k hk)⟩, ?_⟩
        intro w hw
        rcases List.mem_cons.mp hw with e | e
        · rw [e]; exact hstep2.vis_mono i hvi
        · exact hall w e

/-- The cycle search returns, and it reports a cycle exactly when the graph has one. -/
theorem cycleSearch_spec (g : List (List Bool)) (n : Nat) :
    ∃ b, cycleSearch g n = some b ∧ (b = true ↔ HasCycle g n) := by
  have hinit : MarksInv g n
      (⟨List.replicate n false, List.replicate n false⟩ : Marks) := by
    constructor
    · simp
    · simp
    · intro k hk
      simp only at hk
      rw [getD_replicate_false] at hk
      exact Bool.noConfusion hk
    · intro b u hb _
      have := hb.1
      simp only at this
      rw [getD_replicate_false] at this
      exact Bool.noConfusion this
    · intro b hb
      have := hb.1
      simp only at this
      rw [getD_replicate_false] at this
      exact Bool.noConfusion this
  obtain ⟨b, h1, h2, h3⟩ := searchLoop_spec g n (List.range n) _
    (fun i hi => List.mem_range.mp hi) hinit (fun s => getD_replicate_false n s)
  refine ⟨b, h1, ?_⟩
  cases b with
  | true => exact ⟨fun _ => h2 rfl, fun _ => rfl⟩
  | false =>
    constructor
    · intro h; exact Bool.noConfusion h
    · rintro ⟨v, hcyc⟩
      exfalso
      obtain ⟨m1, hstep, hall⟩ := h3 rfl
      obtain ⟨u, he, _⟩ := Relation.TransGen.head'_iff.mp hcyc
      have hbl : Black m1 v :=
        ⟨hall v (List.mem_range.mpr he.1), by
          rw [hstep.rec_same v]; exact getD_replicate_false n v⟩
      exact hstep.inv.acyclic v hbl hcyc

/-! ## The wait-for graph -/

theorem getD_set_brow (m : List (List Bool)) (p i : Nat) (row : List Bool) :
    (m.set p row).getD i [] = if p = i ∧ p < m.length then row else m.getD i [] := by
  simp only [List.getD_eq_getElem?_getD, List.getElem?_set]
  by_cases h : p = i
  · subst h
    by_cases h2 : p < m.length
    · simp [h2]
    · simp [h2, List.getElem?_eq_none (Nat.le_of_not_lt h2)]
  · simp [h]

theorem bget_bset (g : List (List Bool)) (i k a b : Nat) :
    bget (bset g i k) a b
      = if i = a ∧ k = b ∧ i < g.length ∧ k < (g.getD i []).length then true
        else bget g a b := by
  unfold bget bset
  rw [getD_set_brow]
  by_cases h : i = a ∧ i < g.length
  · rw [if_pos h]
    obtain ⟨h1, h2⟩ := h
    subst h1
    rw [getD_set_bool]
    by_cases h3 : k = b ∧ k < (g.getD i []).length
    · rw [if_pos h3, if_pos ⟨rfl, h3.1, h2, h3.2⟩]
    · rw [if_neg h3, if_neg]
      intro hh
      exact h3 ⟨hh.2.1, hh.2.2.2⟩
  · rw [if_neg h, if_neg]
    intro hh
    exact h ⟨hh.1, hh.2.2.1⟩

theorem graphWF_row (g : List (List Bool)) (n i : Nat) (h : GraphWF g n) (hi : i < n) :
    (g.getD i []).length = n := by
  have hi2 : i < g.length := by rw [h.1]; exact hi
  rw [List.getD_eq_getElem _ _ hi2]
  exact h.2 _ (List.getElem_mem hi2)

theorem graphWF_bset (g : List (List Bool)) (n i k : Nat) (h : GraphWF g n) :
    GraphWF (bset g i k) n := by
  unfold bset
  refine ⟨by rw [List.length_set]; exact h.1, ?_⟩
  intro r hr
  by_cases hp : i < g.length
  · rcases List.mem_or_eq_of_mem_set hr with h1 | h1
    · exact h.2 r h1
    · rw [h1, List.length_set, List.getD_eq_getElem _ _ hp]
      exact h.2 _ (List.getElem_mem hp)
  · rw [List.set_eq_of_length_le (Nat.le_of_not_lt hp)] at hr
    exact h.2 r hr

theorem edgesFor_spec (d : DeadlockDetector) (i j : Nat) (g : List (List Bool))
    (hg : GraphWF g d.numProcesses) (hi : i < d.numProcesses) :
    ∀ m, m ≤ d.numProcesses →
      GraphWF ((List.range m).foldl
        (fun g k => if k ≠ i ∧ mget d.allocation k j > 0 then bset g i k else g) g)
        d.numProcesses ∧
      ∀ a b, bget ((List.range m).foldl
          (fun g k => if k ≠ i ∧ mget d.allocation k j > 0 then bset g i k else g) g) a b = true ↔
        (bget g a b = true ∨ (a = i ∧ b < m ∧ b ≠ i ∧ mget d.allocation b j > 0)) := by
  intro m
  induction m with
  | zero =>
    intro _
    refine ⟨hg, fun a b => ?_⟩
    simp
  | succ m ih =>
    intro hm
    obtain ⟨ih1, ih2⟩ := ih (by omega)
    rw [List.range_succ, List.foldl_append]
    simp only [List.foldl_cons, List.foldl_nil]
    by_cases hc : m ≠ i ∧ mget d.allocation m j > 0
    · rw [if_pos hc]
      refine ⟨graphWF_bset _ _ _ _ ih1, fun a b => ?_⟩
      rw [bget_bset, ih1.1, graphWF_row _ _ i ih1 hi]
      by_cases hh : i = a ∧ m = b ∧ i < d.numProcesses ∧ m < d.numProcesses
      · rw [if_pos hh]
        obtain ⟨h1, h2, _, _⟩ := hh
        subst h1; subst h2
        constructor
        · intro _; exact Or.inr ⟨rfl, by omega, hc.1, hc.2⟩
        · intro _; rfl
      · rw [if_neg hh, ih2 a b]
        constructor
        · rintro (h | ⟨h1, h2, h3, h4⟩)
          · exact Or.inl h
          · exact Or.inr ⟨h1, by omega, h3, h4⟩
        · rintro (h | ⟨h1, h2, h3, h4⟩)
          · exact Or.inl h
          · by_cases hbm : b = m
            · exfalso
              exact hh ⟨h1.symm, hbm.symm, hi, by omega⟩
            · exact Or.inr ⟨h1, by omega, h3, h4⟩
    · rw [if_neg hc]
      refine ⟨ih1, fun a b => ?_⟩
      rw [ih2 a b]
      constructor
      · rintro (h | ⟨h1, h2, h3, h4⟩)
        · exact Or.inl h
        · exact Or.inr ⟨h1, by omega, h3, h4⟩
      · rintro (h | ⟨h1, h2, h3, h4⟩)
        · exact Or.inl h
        · by_cases hbm : b = m
          · exfalso
            rw [hbm] at h3 h4
            exact hc ⟨h3, h4⟩
          · exact Or.inr ⟨h1, by omega, h3, h4⟩

theorem edgesFor_result (d : DeadlockDetector) (i j : Nat) (g : List (List Bool))
    (hg : GraphWF g d.numProcesses) (hi : i < d.numProcesses) :
    GraphWF (edgesFor d i j g) d.numProcesses ∧
      ∀ a b, bget (edgesFor d i j g) a b = true ↔
        (bget g a b = true ∨
          (a = i ∧ b < d.numProcesses ∧ b ≠ i ∧ mget d.allocation b j > 0)) :=
  edgesFor_spec d i j g hg hi d.numProcesses (le_refl _)

theorem edgesOf_spec (d : DeadlockDetector) (i : Nat) (g : List (List Bool))
    (hg : GraphWF g d.numProcesses) (hi : i < d.numProcesses) :
    ∀ r,
      GraphWF ((List.range r).foldl
        (fun g j => if mget d.need i j > vget d.available j then edgesFor d i j g else g) g)
        d.numProcesses ∧
      ∀ a b, bget ((List.range r).foldl
          (fun g j => if mget d.need i j > vget d.available j then edgesFor d i j g else g) g)
            a b = true ↔
        (bget g a b = true ∨ (a = i ∧ b < d.numProcesses ∧ b ≠ i ∧
          ∃ j, j < r ∧ mget d.need i j > vget d.available j ∧ mget d.allocation b j > 0)) := by
  intro r
  induction r with
  | zero =>
    refine ⟨hg, fun a b => ?_⟩
    simp
  | succ r ih =>
    obtain ⟨ih1, ih2⟩ := ih
    rw [List.range_succ, List.foldl_append]
    simp only [List.foldl_cons, List.foldl_nil]
    by_cases hc : mget d.need i r > vget d.available r
    · rw [if_pos hc]
      obtain ⟨e1, e2⟩ := edgesFor_result d i r _ ih1 hi
      refine ⟨e1, fun a b => ?_⟩
      rw [e2 a b, ih2 a b]
      constructor
      · rintro ((h | ⟨h1, h2, h3, j, h4, h5, h6⟩) | ⟨h1, h2, h3, h4⟩)
        · exact Or.inl h
        · exact Or.inr ⟨h1, h2, h3, j, by omega, h5, h6⟩
        · exact Or.inr ⟨h1, h2, h3, r, by omega, hc, h4⟩
      · rintro (h | ⟨h1, h2, h3, j, h4, h5, h6⟩)
        · exact Or.inl (Or.inl h)
        · by_cases hjr : j = r
          · subst hjr
            exact Or.inr ⟨h1, h2, h3, h6⟩
          · exact Or.inl (Or.inr ⟨h1, h2, h3, j, by omega, h5, h6⟩)
    · rw [if_neg hc]
      refine ⟨ih1, fun a b => ?_⟩
      rw [ih2 a b]
      constructor
      · rintro (h | ⟨h1, h2, h3, j, h4, h5, h6⟩)
        · exact Or.inl h
        · exact Or.inr ⟨h1, h2, h3, j, by omega, h5, h6⟩
      · rintro (h | ⟨h1, h2, h3, j, h4, h5, h6⟩)
        · exact Or.inl h
        · by_cases hjr : j = r
          · subst hjr
            exact absurd h5 hc
          · exact Or.inr ⟨h1, h2, h3, j, by omega, h5, h6⟩

theorem edgesOf_result (d : DeadlockDetector) (i : Nat) (g : List (List Bool))
    (hg : GraphWF g d.numProcesses) (hi : i < d.numProcesses) :
    GraphWF (edgesOf d i g) d.numProcesses ∧
      ∀ a b, bget (edgesOf d i g) a b = true ↔
        (bget g a b = true ∨ (a = i ∧ b < d.numProcesses ∧ b ≠ i ∧
          ∃ j, j < d.numResources ∧ mget d.need i j > vget d.available j ∧
            mget d.allocation b j > 0)) :=
  edgesOf_spec d i g hg hi d.numResources

theorem isBlocked_iff (d : DeadlockDetector) (i : Nat) :
    isBlocked d i = true ↔
      ∃ j, j < d.numResources ∧ mget d.need i j > vget d.available j := by
  unfold isBlocked
  rw [List.any_eq_true]
  constructor
  · rintro ⟨j, hj, h⟩
    exact ⟨j, List.mem_range.mp hj, of_decide_eq_true h⟩
  · rintro ⟨j, hj, h⟩
    exact ⟨j, List.mem_range.mpr hj, decide_eq_true h⟩

theorem bget_replicate_false (n a b : Nat) :
    bget (List.replicate n (List.replicate n false)) a b = false := by
  unfold bget
  by_cases ha : a < n
  · have h1 : (List.replicate n (List.replicate n false)).getD a [] = List.replicate n false := by
      simp [List.getD_eq_getElem?_getD, List.getElem?_replicate, ha]
    rw [h1, getD_replicate_false]
  · have h1 : (List.replicate n (List.replicate n false)).getD a [] = ([] : List Bool) := by
      simp [List.getD_eq_getElem?_getD, List.getElem?_replicate, ha]
    rw [h1]
    rfl

theorem buildStep_free (d : DeadlockDetector) (st : List (List Bool) × List Bool) (i : Nat)
    (h : isBlocked d i = false) : buildStep d st i = (st.1, st.2.set i false) := by
  unfold buildStep
  rw [h]
  rfl

theorem buildStep_blocked (d : DeadlockDetector) (st : List (List Bool) × List Bool) (i : Nat)
    (h : isBlocked d i = true) : buildStep d st i = (edgesOf d i st.1, st.2.set i true) := by
  unfold buildStep
  rw [h]
  rfl

theorem buildGraph_spec (d : DeadlockDetector) :
    ∀ m, m ≤ d.numProcesses →
      GraphWF ((List.range m).foldl (buildStep d)
        (List.replicate d.numProcesses (List.replicate d.numProcesses false),
          List.replicate d.numProcesses false)).1 d.numProcesses ∧
      ((List.range m).foldl (buildStep d)
        (List.replicate d.numProcesses (List.replicate d.numProcesses false),
          List.replicate d.numProcesses false)).2.length = d.numProcesses ∧
      (∀ a b, bget ((List.range m).foldl (buildStep d)
        (List.replicate d.numProcesses (List.replicate d.numProcesses false),
          List.replicate d.numProcesses false)).1 a b = true ↔
        (a < m ∧ b < d.numProcesses ∧ WaitsFor d a b)) ∧
      (∀ a, ((List.range m).foldl (buildStep d)
        (List.replicate d.numProcesses (List.replicate d.numProcesses false),
          List.replicate d.numProcesses false)).2.getD a false = true ↔
        (a < m ∧ isBlocked d a = true)) := by
  intro m
  induction m with
  | zero =>
    intro _
    simp only [List.range_zero, List.foldl_nil]
    refine ⟨⟨List.length_replicate _ _, ?_⟩, List.length_replicate _ _, ?_, ?_⟩
    · intro r hr
      rw [List.eq_of_mem_replicate hr, List.length_replicate]
    · intro a b
      rw [bget_replicate_false]
      constructor
      · intro h; exact Bool.noConfusion h
      · intro h; exact absurd h.1 (Nat.not_lt_zero a)
    · intro a
      rw [getD_replicate_false]
      constructor
      · intro h; exact Bool.noConfusion h
      · intro h; exact absurd h.1 (Nat.not_lt_zero a)
  | succ m ih =>
    intro hm
    obtain ⟨ih1, ih2, ih3, ih4⟩ := ih (by omega)
    rw [List.range_succ, List.foldl_append]
    simp only [List.foldl_cons, List.foldl_nil]
    have hblk : ∀ (t : List Bool), t.length = d.numProcesses →
        (∀ a, t.getD a false = true ↔ (a < m ∧ isBlocked d a = true)) →
        ∀ a, (t.set m (isBlocked d m)).getD a false = true ↔
          (a < m + 1 ∧ isBlocked d a = true) := by
      intro t ht hall a
      rw [getD_set_bool, ht]
      by_cases ha : m = a ∧ m < d.numProcesses
      · rw [if_pos ha, ← ha.1]
        constructor
        · intro h; exact ⟨by omega, h⟩
        · intro h; exact h.2
      · rw [if_neg ha, hall a]
        constructor
        · intro h; exact ⟨by omega, h.2⟩
        · intro h
          refine ⟨?_, h.2⟩
          by_contra hc
          exact ha ⟨by omega, by omega⟩
    cases hb : isBlocked d m with
    | false =>
      rw [buildStep_free d _ m hb]
      refine ⟨ih1, by rw [List.length_set]; exact ih2, ?_, ?_⟩
      · intro a b
        rw [ih3 a b]
        constructor
        · intro h; exact ⟨by omega, h.2⟩
        · intro h
          refine ⟨?_, h.2⟩
          by_contra hc
          have ham : a = m := by omega
          obtain ⟨_, j, hj, hn, _⟩ := h.2.2
          have := (isBlocked_iff d a).mpr ⟨j, hj, hn⟩
          rw [ham, hb] at this
          exact Bool.noConfusion this
      · have := hblk _ ih2 ih4
        rw [hb] at this
        exact this
    | true =>
      rw [buildStep_blocked d _ m hb]
      obtain ⟨e1, e2⟩ := edgesOf_result d m _ ih1 (by omega)
      refine ⟨e1, by rw [List.length_set]; exact ih2, ?_, ?_⟩
      · intro a b
        rw [e2 a b, ih3 a b]
        constructor
        · rintro (h | ⟨h1, h2, h3, h4⟩)
          · exact ⟨by omega, h.2⟩
          · rw [h1]
            exact ⟨by omega, h2, h3, h4⟩
        · rintro ⟨h1, h2, h3⟩
          by_cases ham : a = m
          · right
            rw [ham] at h3
            exact ⟨ham, h2, h3.1, h3.2⟩
          · left
            exact ⟨by omega, h2, h3⟩
      · have := hblk _ ih2 ih4
        rw [hb] at this
        exact this

/-- The edges of the graph that `waitForGraphDetection` builds. -/
theorem buildGraph_edge (d : DeadlockDetector) (a b : Nat) :
    Edge (buildGraph d).1 d.numProcesses a b ↔
      (a < d.numProcesses ∧ b < d.numProcesses ∧ WaitsFor d a b) := by
  unfold Edge buildGraph
  rw [(buildGraph_spec d d.numProcesses (le_refl _)).2.2.1 a b]
  constructor
  · rintro ⟨h1, h2, h3⟩; exact ⟨h1, h2, h3.2.2⟩
  · rintro ⟨h1, h2, h3⟩; exact ⟨h1, h2, h1, h2, h3⟩

/-- Where the evaluator stands when it returns unsafe: a scan state that satisfies the
invariant, has placed fewer processes than are active, holds the returned sequence, and in
which no unfinished process can finish. -/
theorem computeLoop_stuck_state (d : DeadlockDetector) (mask : Option (List Bool)) :
    ∀ (fuel : Nat) (sc : Scan) (seq : List Nat), ScanInv d mask sc →
      computeLoop d (activeCount d mask) fuel sc = some (false, seq) →
      ∃ sc1, ScanInv d mask sc1 ∧ sc1.count < activeCount d mask ∧ sc1.safeSequence = seq ∧
        ∀ i, i < d.numProcesses → sc1.finish.getD i false = false →
          canFinish d sc1.work i = false := by
  intro fuel
  induction fuel with
  | zero =>
    intro sc seq _ hres
    by_cases hc : sc.count < activeCount d mask
    · rw [computeLoop_zero d _ sc hc] at hres
      exact Option.noConfusion hres
    · rw [computeLoop_exit d _ 0 sc hc] at hres
      injection hres with h1
      injection h1 with h2 _
      exact Bool.noConfusion h2
  | succ n ih =>
    intro sc seq hinv hres
    by_cases hc : sc.count < activeCount d mask
    · cases hf : (computePass d sc).found
      · rw [computeLoop_stuck d _ n sc hc hf] at hres
        obtain ⟨heq, hstuck⟩ := computePass_stuck d sc hf
        refine ⟨sc, hinv, hc, ?_, hstuck⟩
        injection hres with h1
        injection h1 with _ h2
        rw [← h2, heq]
      · rw [computeLoop_next d _ n sc hc hf] at hres
        exact ih (computePass d sc) seq (computePass_inv d mask sc hinv) hres
    · rw [computeLoop_exit d _ _ sc hc] at hres
      injection hres with h1
      injection h1 with h2 _
      exact Bool.noConfusion h2

theorem compute_stuck_state (d : DeadlockDetector) (mask : Option (List Bool))
    (hlen : d.available.length = d.numResources) (hb : InRange d) (seq : List Nat)
    (h : bankersAlgorithmCompute d mask = some (false, seq)) :
    ∃ sc1, ScanInv d mask sc1 ∧ sc1.count < activeCount d mask ∧ sc1.safeSequence = seq ∧
      ∀ i, i < d.numProcesses → sc1.finish.getD i false = false →
        canFinish d sc1.work i = false :=
  computeLoop_stuck_state d mask _ _ seq (scanInv_init d mask hlen hb) h

theorem canFinish_false (d : DeadlockDetector) (work : List Int) (i : Nat)
    (h : canFinish d work i = false) :
    ∃ j, j < d.numResources ∧ mget d.need i j > vget work j := by
  by_contra hno
  push_neg at hno
  have : canFinish d work i = true := by
    rw [canFinish_eq_fits, fits_iff]
    exact hno
  rw [h] at this
  exact Bool.noConfusion this

/-- In a finite non-empty set of nodes each of which has a successor in the set there is a
cycle. -/
theorem exists_cycle_of_successors (r : Nat → Nat → Prop) (S : Finset Nat)
    (hne : S.Nonempty) (h : ∀ i, i ∈ S → ∃ k, k ∈ S ∧ r i k) :
    ∃ v, Relation.TransGen r v v := by
  obtain ⟨s0, hs0⟩ := hne
  choose f hf using fun (x : {x // x ∈ S}) => h x.1 x.2
  let F : {x // x ∈ S} → {x // x ∈ S} := fun x => ⟨f x, (hf x).1⟩
  have hstep : ∀ x : {x // x ∈ S}, r x.1 (F x).1 := fun x => (hf x).2
  let G : ℕ → {x // x ∈ S} := fun n => F^[n] ⟨s0, hs0⟩
  have hpath : ∀ n m, Relation.TransGen r (G n).1 (G (n + m + 1)).1 := by
    intro n m
    induction m with
    | zero =>
      apply Relation.TransGen.single
      have : G (n + 0 + 1) = F (G n) := Function.iterate_succ_apply' F n _
      rw [this]
      exact hstep (G n)
    | succ m ih =>
      have : G (n + (m + 1) + 1) = F (G (n + m + 1)) :=
        Function.iterate_succ_apply' F (n + m + 1) _
      rw [this]
      exact Relation.TransGen.tail ih (hstep _)
  obtain ⟨x, y, hxy, hG⟩ := Finite.exists_ne_map_eq_of_infinite G
  rcases Nat.lt_or_gt_of_ne hxy with hlt | hlt
  · obtain ⟨m, hm⟩ : ∃ m, y = x + m + 1 := ⟨y - x - 1, by omega⟩
    refine ⟨(G x).1, ?_⟩
    have := hpath x m
    rw [← hm, ← hG] at this
    exact this
  · obtain ⟨m, hm⟩ : ∃ m, x = y + m + 1 := ⟨x - y - 1, by omega⟩
    refine ⟨(G y).1, ?_⟩
    have := hpath y m
    rw [← hm, hG] at this
    exact this

/-- Under the hypotheses that exclude a declared maximum above the system total, an unsafe
verdict of the evaluator without mask comes with a cycle in the wait-for graph. -/
theorem unsafe_has_cycle (d : DeadlockDetector) (hwf : WF d)
    (hnn : ∀ i, i < d.numProcesses → ∀ j, j < d.numResources → 0 ≤ mget d.allocation i j)
    (hav : ∀ j, j < d.numResources → 0 ≤ vget d.available j)
    (hneed : ∀ i, i < d.numProcesses → ∀ j, j < d.numResources →
      mget d.need i j = max 0 (mget d.maximum i j - mget d.allocation i j))
    (hmax : ∀ i, i < d.numProcesses → ∀ j, j < d.numResources →
      mget d.maximum i j ≤ totalUnits d j)
    (htot : ∀ j, j < d.numResources → totalUnits d j ≤ INT_MAX)
    (seq : List Nat) (h : bankersAlgorithmCompute d none = some (false, seq)) :
    HasCycle (buildGraph d).1 d.numProcesses := by
  obtain ⟨sc, hinv, hcount, _, hstuck⟩ :=
    compute_stuck_state d none hwf.1 ⟨hav, hnn, htot⟩ seq h
  have hS : ∀ i, i ∈ (Finset.range d.numProcesses).filter
      (fun k => ¬ sc.finish.getD k false = true) ↔
      (i < d.numProcesses ∧ sc.finish.getD i false = false) := by
    intro i
    rw [Finset.mem_filter, Finset.mem_range]
    constructor
    · rintro ⟨h1, h2⟩
      refine ⟨h1, ?_⟩
      cases hf : sc.finish.getD i false
      · rfl
      · exact absurd hf h2
    · rintro ⟨h1, h2⟩
      exact ⟨h1, by rw [h2]; exact fun e => Bool.noConfusion e⟩
  have hseqset : sc.safeSequence.toFinset
      = (Finset.range d.numProcesses).filter (fun k => sc.finish.getD k false = true) := by
    ext k
    rw [List.mem_toFinset, hinv.mem_iff k, Finset.mem_filter, Finset.mem_range]
    constructor
    · rintro ⟨h1, h2, _⟩; exact ⟨h1, h2⟩
    · rintro ⟨h1, h2⟩; exact ⟨h1, h2, rfl⟩
  apply exists_cycle_of_successors (Edge (buildGraph d).1 d.numProcesses)
    ((Finset.range d.numProcesses).filter (fun k => ¬ sc.finish.getD k false = true))
  · obtain ⟨k, hk, _, hkf⟩ := scanInv_pending d none sc hinv hcount
    exact ⟨k, (hS k).mpr ⟨hk, hkf⟩⟩
  · intro i hi
    obtain ⟨hiP, hif⟩ := (hS i).mp hi
    obtain ⟨j, hj, hgt⟩ := canFinish_false d sc.work i (hstuck i hiP hif)
    have hwork : vget sc.work j
        = vget d.available j + (sc.safeSequence.map fun k => mget d.allocation k j).sum := by
      rw [hinv.work_eq j hj, workAfter_eq_sum]
    have hseqnn : 0 ≤ (sc.safeSequence.map fun k => mget d.allocation k j).sum := by
      apply List.sum_nonneg
      intro x hx
      obtain ⟨k, hk, hkx⟩ := List.mem_map.mp hx
      rw [← hkx]
      exact hnn k ((hinv.mem_iff k).mp hk).1 j hj
    have hsplit : (Finset.range d.numProcesses).sum (fun k => mget d.allocation k j)
        = (sc.safeSequence.map fun k => mget d.allocation k j).sum
          + ((Finset.range d.numProcesses).filter
              (fun k => ¬ sc.finish.getD k false = true)).sum
              (fun k => mget d.allocation k j) := by
      rw [← List.sum_toFinset _ hinv.nodup, hseqset]
      exact (Finset.sum_filter_add_sum_filter_not _ _ _).symm
    have htot := hmax i hiP j hj
    unfold totalUnits at htot
    rw [sum_range_eq_finset, hsplit] at htot
    have hneedij := hneed i hiP j hj
    have havj := hav j hj
    have hpos : mget d.need i j = mget d.maximum i j - mget d.allocation i j := by
      rw [hneedij]
      apply max_eq_right
      by_contra hc
      rw [max_eq_left (by omega)] at hneedij
      omega
    have herase := Finset.add_sum_erase _ (fun k => mget d.allocation k j) hi
    have hrest : 0 < (((Finset.range d.numProcesses).filter
        (fun k => ¬ sc.finish.getD k false = true)).erase i).sum
        (fun k => mget d.allocation k j) := by
      simp only at herase
      omega
    obtain ⟨k, hk, hkpos⟩ : ∃ k, k ∈ ((Finset.range d.numProcesses).filter
        (fun k => ¬ sc.finish.getD k false = true)).erase i ∧ 0 < mget d.allocation k j := by
      by_contra hno
      have hall : ∀ k, k ∈ ((Finset.range d.numProcesses).filter
          (fun k => ¬ sc.finish.getD k false = true)).erase i →
          mget d.allocation k j ≤ 0 := by
        intro k hk
        by_contra hc
        exact hno ⟨k, hk, by omega⟩
      have := Finset.sum_nonpos hall
      omega
    rw [Finset.mem_erase] at hk
    refine ⟨k, hk.2, ?_⟩
    rw [buildGraph_edge]
    exact ⟨hiP, ((hS k).mp hk.2).1, hk.1, j, hj, by omega, hkpos⟩

/-- The ways `waitForGraphDetection` returns. -/
theorem waitForGraphDetection_cases (d : DeadlockDetector) :
    (cycleSearch (buildGraph d).1 d.numProcesses = some true ∧
      waitForGraphDetection d = some (WaitForOutcome.cycle, false)) ∨
    (cycleSearch (buildGraph d).1 d.numProcesses = some false ∧
      (∃ seq, bankersAlgorithmCompute d none = some (true, seq)) ∧
      waitForGraphDetection d = some (WaitForOutcome.safe, true)) ∨
    (cycleSearch (buildGraph d).1 d.numProcesses = some false ∧
      (∃ seq, bankersAlgorithmCompute d none = some (false, seq)) ∧
      waitForGraphDetection d = some (WaitForOutcome.unsafeNoCycle, false)) := by
  obtain ⟨b, hb, _⟩ := cycleSearch_spec (buildGraph d).1 d.numProcesses
  obtain ⟨⟨s, seq⟩, hc⟩ := bankersAlgorithmCompute_total d none
  unfold waitForGraphDetection
  rw [hb, hc]
  cases b with
  | true => left; exact ⟨rfl, rfl⟩
  | false =>
    right
    cases s with
    | true => left; exact ⟨rfl, ⟨seq, rfl⟩, rfl⟩
    | false => right; exact ⟨rfl, ⟨seq, rfl⟩, rfl⟩

/-! ## The reference procedure -/

theorem computeLoop_fuel (d : DeadlockDetector) (active : Int) :
    ∀ (f1 f2 : Nat) (sc : Scan), active - sc.count ≤ (f1 : Int) →
      active - sc.count ≤ (f2 : Int) →
      computeLoop d active f1 sc = computeLoop d active f2 sc := by
  intro f1
  induction f1 with
  | zero =>
    intro f2 sc h1 _
    have hc : ¬ sc.count < active := by push_cast at h1; omega
    rw [computeLoop_exit d active 0 sc hc, computeLoop_exit d active f2 sc hc]
  | succ n ih =>
    intro f2 sc h1 h2
    by_cases hc : sc.count < active
    · cases f2 with
      | zero => push_cast at h2; omega
      | succ m =>
        cases hf : (computePass d sc).found
        · rw [computeLoop_stuck d active n sc hc hf, computeLoop_stuck d active m sc hc hf]
        · rw [computeLoop_next d active n sc hc hf, computeLoop_next d active m sc hc hf]
          have := (computePass_progress d sc).2 hf
          apply ih
          · push_cast at h1; omega
          · push_cast at h2; omega
    · rw [computeLoop_exit d active _ sc hc, computeLoop_exit d active f2 sc hc]

theorem fits_congr (d : DeadlockDetector) (w1 w2 : Nat → Int) (i : Nat)
    (h : ∀ j, j < d.numResources → w1 j = w2 j) : fits d w1 i = fits d w2 i := by
  cases h1 : fits d w1 i <;> cases h2 : fits d w2 i
  · rfl
  · have := fits_mono d w2 w1 i (fun j hj => le_of_eq (h j hj).symm) h2
    rw [h1] at this; exact this
  · have := fits_mono d w1 w2 i (fun j hj => le_of_eq (h j hj)) h1
    rw [h2] at this; exact this.symm
  · rfl

theorem contains_iff (l : List Nat) (i : Nat) : l.contains i = true ↔ i ∈ l := by
  simp

/-- On a scan state that satisfies the invariant, the reference procedure may select process
`i` exactly when the code selects it. -/
theorem selectable_eq (d : DeadlockDetector) (mask : Option (List Bool)) (sc : Scan)
    (hinv : ScanInv d mask sc) (i : Nat) (hi : i < d.numProcesses) :
    selectable d mask (workAfter d (vget d.available) sc.safeSequence) sc.safeSequence i
      = (!(sc.finish.getD i false) && canFinish d sc.work i) := by
  unfold selectable
  rw [canFinish_eq_fits, fits_congr d (vget sc.work) _ i (fun j hj => hinv.work_eq j hj)]
  congr 1
  cases hf : sc.finish.getD i false
  · have hnm : masked mask i = false := by
      cases hm : masked mask i
      · rfl
      · have := hinv.masked_fin i hi hm
        rw [hf] at this; exact Bool.noConfusion this
    have hnin : sc.safeSequence.contains i = false := by
      cases hc : sc.safeSequence.contains i
      · rfl
      · have := ((hinv.mem_iff i).mp ((contains_iff _ _).mp hc)).2.1
        rw [hf] at this; exact Bool.noConfusion this
    rw [hnm, hnin]
    rfl
  · cases hm : masked mask i
    · have : sc.safeSequence.contains i = true :=
        (contains_iff _ _).mpr ((hinv.mem_iff i).mpr ⟨hi, hf, hm⟩)
      rw [this]
      rfl
    · rfl

theorem computeStep_fire (d : DeadlockDetector) (sc : Scan) (i : Nat)
    (h : (!(sc.finish.getD i false) && canFinish d sc.work i) = true) :
    computeStep d sc i = fire d sc i := by
  rw [Bool.and_eq_true] at h
  unfold computeStep fire
  rw [if_pos h.1, if_pos h.2]

theorem computeStep_skip (d : DeadlockDetector) (sc : Scan) (i : Nat)
    (h : (!(sc.finish.getD i false) && canFinish d sc.work i) = false) :
    computeStep d sc i = sc := by
  unfold computeStep
  cases hf : sc.finish.getD i false
  · rw [hf] at h
    simp only [Bool.not_false, Bool.true_and] at h
    simp [h]
  · simp

theorem firstFrom_spec (p : Nat → Bool) :
    ∀ (k c : Nat),
      (firstFrom p c k = none → ∀ i, c ≤ i → i < c + k → p i = false) ∧
      (∀ i, firstFrom p c k = some i → c ≤ i ∧ i < c + k ∧ p i = true) := by
  intro k
  induction k with
  | zero =>
    intro c
    refine ⟨fun _ i h1 h2 => by omega, fun i h => ?_⟩
    rw [firstFrom] at h
    exact Option.noConfusion h
  | succ k ih =>
    intro c
    rw [firstFrom]
    cases hp : p c with
    | true =>
      simp only [if_true]
      refine ⟨fun h => Option.noConfusion h, fun i h => ?_⟩
      injection h with h
      rw [← h]
      exact ⟨le_refl _, by omega, hp⟩
    | false =>
      simp only [Bool.false_eq_true, if_false]
      obtain ⟨ih1, ih2⟩ := ih (c + 1)
      constructor
      · intro h i h1 h2
        by_cases hic : i = c
        · rw [hic]; exact hp
        · exact ih1 h i (by omega) (by omega)
      · intro i h
        obtain ⟨a, b, e⟩ := ih2 i h
        exact ⟨by omega, by omega, e⟩

theorem firstFrom_congr (p q : Nat → Bool) :
    ∀ (k c : Nat), (∀ i, c ≤ i → i < c + k → p i = q i) →
      firstFrom p c k = firstFrom q c k := by
  intro k
  induction k with
  | zero => intro c _; rw [firstFrom, firstFrom]
  | succ k ih =>
    intro c h
    rw [firstFrom, firstFrom, h c (le_refl _) (by omega),
      ih (c + 1) (fun i h1 h2 => h i (by omega) (by omega))]

theorem foldl_computeStep_first (d : DeadlockDetector) (sc : Scan) :
    ∀ (k c : Nat),
      (firstFrom (fun i => !(sc.finish.getD i false) && canFinish d sc.work i) c k = none →
        (List.range' c k).foldl (computeStep d) sc = sc) ∧
      (∀ i, firstFrom (fun i => !(sc.finish.getD i false) && canFinish d sc.work i) c k
          = some i →
        (List.range' c k).foldl (computeStep d) sc
          = (List.range' (i + 1) (c + k - (i + 1))).foldl (computeStep d) (fire d sc i)) := by
  intro k
  induction k with
  | zero =>
    intro c
    refine ⟨fun _ => rfl, fun i h => ?_⟩
    rw [firstFrom] at h
    exact Option.noConfusion h
  | succ k ih =>
    intro c
    rw [firstFrom, List.range'_succ]
    simp only [List.foldl_cons]
    cases hp : (!(sc.finish.getD c false) && canFinish d sc.work c) with
    | true =>
      simp only [if_true]
      refine ⟨fun h => Option.noConfusion h, fun i h => ?_⟩
      injection h with h
      rw [← h, computeStep_fire d sc c hp]
      have : c + (k + 1) - (c + 1) = k := by omega
      rw [this]
    | false =>
      simp only [Bool.false_eq_true, if_false]
      rw [computeStep_skip d sc c hp]
      obtain ⟨ih1, ih2⟩ := ih (c + 1)
      refine ⟨ih1, fun i h => ?_⟩
      rw [ih2 i h]
      have : c + 1 + k - (i + 1) = c + (k + 1) - (i + 1) := by omega
      rw [this]

theorem restOfPass_first (d : DeadlockDetector) (mask : Option (List Bool)) (sc : Scan)
    (hinv : ScanInv d mask sc) (c : Nat) (hc : c ≤ d.numProcesses) :
    (firstFrom (selectable d mask (workAfter d (vget d.available) sc.safeSequence)
        sc.safeSequence) c (d.numProcesses - c) = none → restOfPass d sc c = sc) ∧
    (∀ i, firstFrom (selectable d mask (workAfter d (vget d.available) sc.safeSequence)
        sc.safeSequence) c (d.numProcesses - c) = some i →
      c ≤ i ∧ i < d.numProcesses ∧
        (!(sc.finish.getD i false) && canFinish d sc.work i) = true ∧
        restOfPass d sc c = restOfPass d (fire d sc i) (i + 1)) := by
  have hcongr := firstFrom_congr
    (selectable d mask (workAfter d (vget d.available) sc.safeSequence) sc.safeSequence)
    (fun i => !(sc.finish.getD i false) && canFinish d sc.work i) (d.numProcesses - c) c
    (fun i _ h2 => selectable_eq d mask sc hinv i (by omega))
  rw [hcongr]
  obtain ⟨f1, f2⟩ := foldl_computeStep_first d sc (d.numProcesses - c) c
  obtain ⟨s1, s2⟩ := firstFrom_spec
    (fun i => !(sc.finish.getD i false) && canFinish d sc.work i) (d.numProcesses - c) c
  refine ⟨f1, fun i h => ?_⟩
  obtain ⟨a, b, e⟩ := s2 i h
  refine ⟨a, by omega, e, ?_⟩
  unfold restOfPass
  rw [f2 i h]
  have : c + (d.numProcesses - c) - (i + 1) = d.numProcesses - (i + 1) := by omega
  rw [this]

theorem allPlaced_iff (d : DeadlockDetector) (mask : Option (List Bool)) (sc : Scan)
    (hinv : ScanInv d mask sc) :
    allPlaced d mask sc.safeSequence = true ↔ ¬ sc.count < activeCount d mask := by
  unfold allPlaced
  rw [List.all_eq_true]
  constructor
  · intro h hc
    obtain ⟨k, hk, hkm, hkf⟩ := scanInv_pending d mask sc hinv hc
    have := h k (List.mem_range.mpr hk)
    rw [hkm, Bool.false_or, contains_iff, hinv.mem_iff k] at this
    rw [hkf] at this
    exact Bool.noConfusion this.2.1
  · intro hc i hi
    have hi2 := List.mem_range.mp hi
    cases hm : masked mask i
    · rw [Bool.false_or, contains_iff]
      exact (scanInv_covers d mask sc hinv hc i).mpr ⟨hi2, hm⟩
    · rfl

theorem fire_inv (d : DeadlockDetector) (mask : Option (List Bool)) (sc : Scan) (i : Nat)
    (hi : i < d.numProcesses) (hinv : ScanInv d mask sc)
    (h : (!(sc.finish.getD i false) && canFinish d sc.work i) = true) :
    ScanInv d mask (fire d sc i) := by
  rw [← computeStep_fire d sc i h]
  exact computeStep_inv d mask sc i hi hinv

theorem restOfPass_zero (d : DeadlockDetector) (sc : Scan) :
    restOfPass d { sc with found := false } 0 = computePass d sc := by
  unfold restOfPass computePass
  rw [List.range_eq_range', Nat.sub_zero]

/-- The reference procedure that goes on from the index after a selection returns what the
code returns from the same point of a pass. -/
theorem referenceRun_eq_resumeAt (d : DeadlockDetector) (mask : Option (List Bool)) :
    ∀ (fuel : Nat) (sc : Scan) (c : Nat), c ≤ d.numProcesses → ScanInv d mask sc →
      (sc.found = true ∨ sc.count < activeCount d mask) →
      2 * (activeCount d mask - sc.count) + (if sc.found = true then 1 else 0) + 1
        ≤ (fuel : Int) →
      referenceRun false d mask fuel
        { work := workAfter d (vget d.available) sc.safeSequence
          sequence := sc.safeSequence, cursor := c, progress := sc.found }
        = resumeAt d (activeCount d mask) sc c := by
  intro fuel
  induction fuel with
  | zero =>
    intro sc c _ hinv _ hfuel
    have := scanInv_count_le d mask sc hinv
    split at hfuel <;> (push_cast at hfuel; omega)
  | succ fuel ih =>
    intro sc c hc hinv hfc hfuel
    have hcl := scanInv_count_le d mask sc hinv
    have h0 : (0 : Int) ≤ sc.count := by rw [hinv.count_eq]; omega
    obtain ⟨r1, r2⟩ := restOfPass_first d mask sc hinv c hc
    rw [referenceRun]
    cases hff : firstFrom (selectable d mask (workAfter d (vget d.available) sc.safeSequence)
        sc.safeSequence) c (d.numProcesses - c) with
    | none =>
      simp only
      unfold resumeAt
      rw [r1 hff]
      by_cases hcount : sc.count < activeCount d mask
      · have hap : allPlaced d mask sc.safeSequence = false := by
          cases h : allPlaced d mask sc.safeSequence
          · rfl
          · exact absurd hcount ((allPlaced_iff d mask sc hinv).mp h)
        rw [hap]
        simp only [Bool.false_eq_true, if_false]
        cases hfound : sc.found with
        | false => simp
        | true =>
          simp only [Bool.not_true, Bool.false_eq_true, if_false]
          have hP : d.numProcesses = (d.numProcesses - 1) + 1 := by
            have := activeCount_le d mask
            omega
          have hih := ih { sc with found := false } 0 (Nat.zero_le _)
            (scanInv_reset d mask sc hinv) (Or.inr hcount)
            (by
              rw [hfound] at hfuel
              simp only [if_true] at hfuel
              simp only [Bool.false_eq_true, if_false]
              push_cast at hfuel
              omega)
          simp only at hih
          rw [hih]
          unfold resumeAt
          rw [restOfPass_zero]
          cases hpf : (computePass d sc).found with
          | false =>
            rw [hP, computeLoop_stuck d _ _ sc hcount hpf]
            simp
          | true =>
            simp only [Bool.not_true, Bool.false_eq_true, if_false]
            have hprog := (computePass_progress d sc).2 hpf
            have hle := activeCount_le d mask
            rw [computeLoop_fuel d _ d.numProcesses (d.numProcesses - 1 + 1) sc
              (by omega) (by push_cast; omega),
              computeLoop_next d _ _ sc hcount hpf]
            apply computeLoop_fuel
            · omega
            · omega
      · have hap := (allPlaced_iff d mask sc hinv).mpr hcount
        rw [hap]
        simp only [if_true]
        have hfound : sc.found = true := by
          rcases hfc with h | h
          · exact h
          · exact absurd h hcount
        rw [hfound]
        simp only [Bool.not_true, Bool.false_eq_true, if_false]
        rw [computeLoop_exit d _ _ sc hcount]
    | some i =>
      simp only [Bool.false_eq_true, if_false]
      obtain ⟨h1, h2, h3, h4⟩ := r2 i hff
      unfold resumeAt
      rw [h4]
      have hinv2 := fire_inv d mask sc i h2 hinv h3
      have hih := ih (fire d sc i) (i + 1) (by omega) hinv2 (Or.inl rfl)
        (by
          have : (fire d sc i).count = sc.count + 1 := rfl
          rw [this]
          have : (fire d sc i).found = true := rfl
          rw [this]
          simp only [if_true]
          split at hfuel <;> (push_cast at hfuel; omega))
      have hw : workAfter d (vget d.available) (fire d sc i).safeSequence
          = gain d (workAfter d (vget d.available) sc.safeSequence) i :=
        workAfter_append_single d sc.safeSequence i (vget d.available)
      rw [hw] at hih
      have hfs : (fire d sc i).safeSequence = sc.safeSequence ++ [i] := rfl
      have hff2 : (fire d sc i).found = true := rfl
      rw [hfs, hff2] at hih
      rw [hih]
      unfold resumeAt
      rfl

theorem resumeAt_start (d : DeadlockDetector) (mask : Option (List Bool)) (sc : Scan)
    (hinv : ScanInv d mask sc) (hcount : sc.count < activeCount d mask) :
    resumeAt d (activeCount d mask) { sc with found := false } 0
      = computeLoop d (activeCount d mask) d.numProcesses sc := by
  have h0 : (0 : Int) ≤ sc.count := by rw [hinv.count_eq]; omega
  have hle := activeCount_le d mask
  have hP : d.numProcesses = (d.numProcesses - 1) + 1 := by omega
  unfold resumeAt
  rw [restOfPass_zero]
  cases hpf : (computePass d sc).found with
  | false =>
    rw [hP, computeLoop_stuck d _ _ sc hcount hpf]
    simp
  | true =>
    simp only [Bool.not_true, Bool.false_eq_true, if_false]
    have hprog := (computePass_progress d sc).2 hpf
    rw [computeLoop_fuel d _ d.numProcesses (d.numProcesses - 1 + 1) sc
      (by omega) (by push_cast; omega),
      computeLoop_next d _ _ sc hcount hpf]
    apply computeLoop_fuel
    · omega
    · omega

/-- The reference procedure that goes on from the index after a selection returns what
`bankersAlgorithmCompute` returns. -/
theorem referenceEvaluate_eq_compute (d : DeadlockDetector) (mask : Option (List Bool))
    (hlen : d.available.length = d.numResources) (hb : InRange d) :
    referenceEvaluate false d mask = bankersAlgorithmCompute d mask := by
  have hinv := scanInv_init d mask hlen hb
  unfold referenceEvaluate bankersAlgorithmCompute
  by_cases hcount : (0 : Int) < activeCount d mask
  · have hle := activeCount_le d mask
    have hmain := referenceRun_eq_resumeAt d mask (2 * d.numProcesses + 1) _ 0
      (Nat.zero_le _) hinv (Or.inr hcount)
      (by
        simp only [Bool.false_eq_true, if_false]
        push_cast
        omega)
    simp only [workAfter] at hmain
    rw [hmain]
    exact resumeAt_start d mask _ hinv hcount
  · rw [computeLoop_exit d _ _ _ hcount, referenceRun]
    obtain ⟨_, r2⟩ := restOfPass_first d mask _ hinv 0 (Nat.zero_le _)
    simp only [workAfter] at r2
    cases hff : firstFrom (selectable d mask (vget d.available) []) 0 (d.numProcesses - 0) with
    | some i =>
      exfalso
      obtain ⟨_, h2, h3, _⟩ := r2 i hff
      rw [Bool.and_eq_true] at h3
      have hnm : masked mask i = true := by
        cases hm : masked mask i
        · have := (scanInv_covers d mask _ hinv hcount i).mpr ⟨h2, hm⟩
          exact absurd this (List.not_mem_nil i)
        · rfl
      have := hinv.masked_fin i h2 hnm
      rw [this] at h3
      exact Bool.noConfusion h3.1
    | none =>
      simp only
      rw [(allPlaced_iff d mask _ hinv).mpr hcount]
      rfl

/-! ## Single victims and single processes -/

theorem mget_map_range (f : Nat → Nat → Int) (n r i j : Nat) (hi : i < n) (hj : j < r) :
    mget ((List.range n).map fun a => (List.range r).map fun b => f a b) i j = f i j := by
  unfold mget
  simp [List.getD_eq_getElem?_getD, hi, hj]

theorem mget_calculateNeed (d : DeadlockDetector) (i j : Nat) (hi : i < d.numProcesses)
    (hj : j < d.numResources) : mget (calculateNeed d).need i j = needEntry d i j := by
  unfold calculateNeed
  exact mget_map_range (needEntry d) _ _ i j hi hj

/-- With one process whose computed Need is within Available, the evaluator places it. -/
theorem compute_single (d : DeadlockDetector) (hP : d.numProcesses = 1)
    (hfit : canFinish d d.available 0 = true) :
    bankersAlgorithmCompute d none = some (true, [0]) := by
  unfold bankersAlgorithmCompute
  have hact : activeCount d none = 1 := by simp [activeCount, hP]
  rw [hact, hP]
  have hpass : computePass d
      { work := d.available, finish := initFinish d none, safeSequence := [],
        found := false, count := 0 }
      = fire d { work := d.available, finish := initFinish d none, safeSequence := [],
                 found := false, count := 0 } 0 := by
    unfold computePass
    rw [hP]
    simp only [List.range_succ, List.range_zero, List.nil_append, List.foldl_cons,
      List.foldl_nil]
    apply computeStep_fire
    simp only
    rw [hfit]
    have : (initFinish d none).getD 0 false = false := by
      simp [initFinish, hP]
    rw [this]
    rfl
  rw [computeLoop_next d 1 0 _ (by simp) (by rw [hpass]; rfl), hpass,
    computeLoop_exit d 1 0 _ (by simp [fire])]
  rfl

theorem foldl_wrap_zero (f : Nat → Int) (n : Nat) (h : ∀ j, j < n → f j = 0) :
    (List.range n).foldl (fun t j => wrapInt (t + f j)) 0 = 0 := by
  induction n with
  | zero => simp
  | succ n ih =>
    rw [List.range_succ, List.foldl_append]
    simp only [List.foldl_cons, List.foldl_nil]
    rw [ih (fun j hj => h j (by omega)), h n (by omega)]
    rfl

theorem totalAlloc_pos_exists (d : DeadlockDetector) (i : Nat)
    (hnn : ∀ j, j < d.numResources → 0 ≤ mget d.allocation i j) (h : 0 < totalAlloc d i) :
    ∃ j, j < d.numResources ∧ 0 < mget d.allocation i j := by
  by_contra hne
  have hall : ∀ j, j < d.numResources → mget d.allocation i j = 0 := by
    intro j hj
    have := hnn j hj
    by_contra hc
    exact hne ⟨j, hj, by omega⟩
  have h3 : (List.range d.numResources).foldl
      (fun t j => wrapInt (t + mget d.allocation i j)) 0 = 0 :=
    foldl_wrap_zero (fun j => mget d.allocation i j) d.numResources hall
  unfold totalAlloc at h
  omega

theorem preempt_snd_aux (d : DeadlockDetector) (v : Nat) (h : WF d) (hv : v < d.numProcesses)
    (t0 : List Bool) (n : Nat) (hn : n ≤ d.numResources) :
    ((List.range n).foldl (preemptStep v) (d, t0)).2
      = if ∃ j, j < n ∧ 0 < mget d.allocation v j then t0.set v true else t0 := by
  induction n with
  | zero => simp
  | succ n ih =>
    have ih1 := ih (by omega)
    rw [List.range_succ, List.foldl_append]
    simp only [List.foldl_cons, List.foldl_nil]
    have hval : mget ((List.range n).foldl (preemptStep v) (d, t0)).1.allocation v n
        = mget d.allocation v n := by
      rw [preempt_fst_aux]
      rw [(tripleLoop_values v _ d h hv n (by omega)).2.1 v n]
      rw [if_neg (by omega)]
    generalize (List.range n).foldl (preemptStep v) (d, t0) = st at ih1 hval
    unfold preemptStep
    rw [hval]
    by_cases hpos : mget d.allocation v n > 0
    · rw [if_pos hpos]
      simp only
      have hex1 : ∃ j, j < n + 1 ∧ 0 < mget d.allocation v j := ⟨n, by omega, hpos⟩
      rw [if_pos hex1, ih1]
      split
      · rw [List.set_set]
      · rfl
    · rw [if_neg hpos, ih1]
      by_cases hex : ∃ j, j < n ∧ 0 < mget d.allocation v j
      · have hex1 : ∃ j, j < n + 1 ∧ 0 < mget d.allocation v j := by
          obtain ⟨j, hj, hj2⟩ := hex
          exact ⟨j, by omega, hj2⟩
        rw [if_pos hex, if_pos hex1]
      · have hex1 : ¬ ∃ j, j < n + 1 ∧ 0 < mget d.allocation v j := by
          rintro ⟨j, hj, hj2⟩
          by_cases hjn : j = n
          · subst hjn; exact hpos hj2
          · exact hex ⟨j, by omega, hj2⟩
        rw [if_neg hex, if_neg hex1]

/-- The vector `preempted` after the preemption loop marks the victim and nobody else, as soon
as the victim holds a unit of some resource. -/
theorem preempt_snd (d : DeadlockDetector) (v : Nat) (h : WF d) (hv : v < d.numProcesses)
    (hnn : ∀ j, j < d.numResources → 0 ≤ mget d.allocation v j)
    (hpos : 0 < totalAlloc d v) :
    (preempt d v).2 = (List.replicate d.numProcesses false).set v true := by
  unfold preempt
  rw [preempt_snd_aux d v h hv _ d.numResources (le_refl _)]
  obtain ⟨j, hj, hj2⟩ := totalAlloc_pos_exists d v hnn hpos
  rw [if_pos ⟨j, hj, hj2⟩]

theorem getD_set_true (P v k : Nat) (hv : v < P) :
    ((List.replicate P false).set v true).getD k false = true ↔ k = v := by
  rw [getD_set_bool, List.length_replicate]
  by_cases hk : k = v
  · rw [if_pos ⟨hk.symm, by omega⟩]; simp [hk]
  · rw [if_neg (fun hh => hk hh.1.symm), getD_replicate_false]
    simp [hk]

/-! ## Need as a view, the evaluators as calls, and manual loading -/

theorem calculateNeed_wf (d : DeadlockDetector) :
    (calculateNeed d).need.length = d.numProcesses ∧
      ∀ r, r ∈ (calculateNeed d).need → r.length = d.numResources := by
  unfold calculateNeed
  constructor
  · simp
  · intro r hr
    simp only [List.mem_map, List.mem_range] at hr
    obtain ⟨i, _, rfl⟩ := hr
    simp

theorem detectionCall_eq (d : DeadlockDetector) (out : List Nat) (mask : Option (List Bool)) :
    detectionCall d out mask
      = (bankersAlgorithmDetection d mask).map fun r => (r.1, r.2, d) := by
  unfold detectionCall bankersAlgorithmDetection clear
  cases detectLoop d (activeCount d mask) d.numProcesses
      { work := d.available, finish := initFinish d mask, safeSequence := [],
        found := false, count := 0 } with
  | none => rfl
  | some r => rfl

theorem computeCall_eq (d : DeadlockDetector) (out : List Nat) (mask : Option (List Bool)) :
    computeCall d out mask
      = (bankersAlgorithmCompute d mask).map fun r => (r.1, r.2, d) := by
  unfold computeCall bankersAlgorithmCompute clear
  cases computeLoop d (activeCount d mask) d.numProcesses
      { work := d.available, finish := initFinish d mask, safeSequence := [],
        found := false, count := 0 } with
  | none => rfl
  | some r => rfl

theorem replayOK_congr (d d2 : DeadlockDetector) (hR : d2.numResources = d.numResources)
    (ha : d2.allocation = d.allocation) (hn : d2.need = d.need) (l : List Nat) :
    ∀ w : Nat → Int, replayOK d2 w l = replayOK d w l := by
  induction l with
  | nil => intro w; rfl
  | cons i t ih =>
    intro w
    unfold replayOK
    have h1 : fits d2 w i = fits d w i := by unfold fits; rw [hR, hn]
    have h2 : gain d2 w i = gain d w i := by unfold gain; rw [ha]
    rw [h1, h2, ih]

/-- What the graph construction leaves in `waitForGraph` and in `blocked`. -/
theorem buildGraph_result (d : DeadlockDetector) :
    (∀ a b, bget (buildGraph d).1 a b = true ↔
      (a < d.numProcesses ∧ b < d.numProcesses ∧ WaitsFor d a b)) ∧
    (∀ a, (buildGraph d).2.getD a false = true ↔ (a < d.numProcesses ∧ isBlocked d a = true)) := by
  obtain ⟨_, _, h3, h4⟩ := buildGraph_spec d d.numProcesses (le_refl _)
  exact ⟨h3, h4⟩

/-- The scan loop returns within as many passes as there are non-masked processes. -/
theorem computeLoop_within (d : DeadlockDetector) (mask : Option (List Bool)) :
    ∃ r, computeLoop d (activeCount d mask) (nonMasked d mask).card
        { work := d.available, finish := initFinish d mask, safeSequence := [],
          found := false, count := 0 } = some r ∧
      bankersAlgorithmCompute d mask = some r := by
  have hact := activeCount_eq d mask
  have hle := activeCount_le d mask
  obtain ⟨r, hr⟩ := computeLoop_total d (activeCount d mask) (nonMasked d mask).card
    { work := d.available, finish := initFinish d mask, safeSequence := [],
      found := false, count := 0 } (by simp only; omega)
  refine ⟨r, hr, ?_⟩
  unfold bankersAlgorithmCompute
  rw [← hr]
  apply computeLoop_fuel
  · simp only; omega
  · simp only; omega

theorem nonMasked_card_zero (d : DeadlockDetector) (mask : Option (List Bool))
    (h : d.numProcesses = 0 ∨ ∀ i, i < d.numProcesses → masked mask i = true) :
    (nonMasked d mask).card = 0 := by
  rw [Finset.card_eq_zero, Finset.eq_empty_iff_forall_not_mem]
  intro k hk
  obtain ⟨h1, h2⟩ := (mem_nonMasked d mask k).mp hk
  rcases h with h | h
  · omega
  · rw [h k h1] at h2
    exact Bool.noConfusion h2

theorem nonMasked_card_le (d : DeadlockDetector) (mask : Option (List Bool)) :
    (nonMasked d mask).card ≤ d.numProcesses := by
  unfold nonMasked
  calc ((Finset.range d.numProcesses).filter fun i => masked mask i = false).card
      ≤ (Finset.range d.numProcesses).card := Finset.card_filter_le _ _
    _ = d.numProcesses := Finset.card_range _

/-- A property of the state and the vector `terminated` that every termination keeps is kept
by the escalation loop. -/
theorem escalate_inv_mask (Q : DeadlockDetector → List Bool → Prop)
    (hQ : ∀ d t m, Q d t → m < d.numProcesses → Q (terminate d m) (t.set m true)) :
    ∀ (fuel : Nat) (d : DeadlockDetector) (t : List Bool) (victims : List Nat) (n : Nat)
      (s : List Nat) (res : TerminationResult),
      escalate fuel d t victims n s = some res → Q d t → Q res.state res.terminated := by
  intro fuel
  induction fuel with
  | zero =>
    intro d t victims n s res h _
    rw [escalate_zero] at h
    exact Option.noConfusion h
  | succ fuel ih =>
    intro d t victims n s res h hq
    cases hsel : (selectMinProcess d t).1 with
    | none =>
      rw [escalate_none fuel d t victims n s hsel] at h
      cases h
      exact hq
    | some m =>
      have hm := (selectMinProcess_some d t m hsel).1
      obtain ⟨⟨b, seq⟩, hc⟩ := bankersAlgorithmCompute_total (terminate d m) (some (t.set m true))
      cases b with
      | true =>
        rw [escalate_safe fuel d t victims n s m seq hsel hc] at h
        cases h
        exact hQ d t m hq hm
      | false =>
        rw [escalate_continue fuel d t victims n s m seq hsel hc] at h
        exact ih _ _ _ _ _ res h (hQ d t m hq hm)

/-- The same for `processTermination` when the deadlock flag is set. -/
theorem processTermination_inv_mask (Q : DeadlockDetector → List Bool → Prop)
    (hQ : ∀ d t m, Q d t → m < d.numProcesses → Q (terminate d m) (t.set m true))
    (d : DeadlockDetector) (res : TerminationResult)
    (h : processTermination d true = some res)
    (hq : Q d (List.replicate d.numProcesses false)) : Q res.state res.terminated := by
  rcases processTermination_cases d with ⟨_, h1⟩ | ⟨c, seq, hsel, _, h1⟩ | ⟨c, seq, hsel, _, h1⟩
  · rw [h1] at h
    cases h
    exact hq
  · rw [h1] at h
    cases h
    exact hQ d _ c hq (selectCulprit_some d c hsel).1
  · rw [h1] at h
    exact escalate_inv_mask Q hQ _ _ _ _ _ _ res h (hQ d _ c hq (selectCulprit_some d c hsel).1)

/-- Terminating process `m` keeps the view in every row that the vector `terminated` does
not flag afterwards. -/
theorem terminate_needView (d0 d : DeadlockDetector) (t : List Bool) (m : Nat)
    (h : WF d ∧ d.numProcesses = d0.numProcesses ∧ t.length = d0.numProcesses ∧
      ∀ i, i < d0.numProcesses → t.getD i false = false → NeedView d i)
    (hm : m < d.numProcesses) :
    WF (terminate d m) ∧ (terminate d m).numProcesses = d0.numProcesses ∧
      (t.set m true).length = d0.numProcesses ∧
      ∀ i, i < d0.numProcesses → (t.set m true).getD i false = false →
        NeedView (terminate d m) i := by
  obtain ⟨hwf, hP, hlen, hview⟩ := h
  obtain ⟨f1, f2, f3, _, _⟩ := terminate_frame d m
  obtain ⟨_, vb, vc⟩ := terminate_values d m hwf hm
  refine ⟨terminate_wf d m hwf, by rw [f1, hP], by rw [List.length_set, hlen], ?_⟩
  intro i hi hflag
  rw [getD_set_bool] at hflag
  have hne : ¬ (m = i ∧ m < t.length) := by
    intro hh
    rw [if_pos hh] at hflag
    exact Bool.noConfusion hflag
  rw [if_neg hne] at hflag
  have him : i ≠ m := by
    intro hh
    apply hne
    constructor
    · exact hh.symm
    · omega
  intro j hj
  rw [f2] at hj
  rw [vc i j, vb i j, f3, if_neg (fun hh => him hh.1), if_neg (fun hh => him hh.1)]
  exact hview i hi hflag j hj

/-- Granting a request keeps the view in every row. -/
theorem applyRequest_needView (d : DeadlockDetector) (p : Nat) (requestVec : List Int)
    (hwf : WF d) (hp : p < d.numProcesses)
    (hinv : ∀ i, i < d.numProcesses → ∀ j, j < d.numResources →
      0 ≤ mget d.allocation i j ∧ mget d.allocation i j ≤ mget d.maximum i j)
    (hview : ∀ i, i < d.numProcesses → NeedView d i)
    (hadm : ∀ j, j < d.numResources → vget requestVec j ≤ mget d.need p j)
    (i : Nat) (hi : i < d.numProcesses) : NeedView (applyRequest d p requestVec) i := by
  obtain ⟨_, vb, vc⟩ := tripleLoop_values p (fun j a b c => some (a - vget requestVec j,
    b + vget requestVec j, c - vget requestVec j)) d hwf hp d.numResources (le_refl _)
  obtain ⟨_, f2, f3, _, _⟩ := tripleLoop_frame p (fun j a b c => some (a - vget requestVec j,
    b + vget requestVec j, c - vget requestVec j)) d d.numResources
  rw [← applyRequest_eq] at vb vc f2 f3
  intro j hj
  rw [f2] at hj
  rw [vb i j, vc i j, f3]
  have hv := hview i hi j hj
  by_cases hh : i = p ∧ j < d.numResources
  · rw [if_pos hh, if_pos hh]
    have e1 : (tripleNew p (fun j a b c => some (a - vget requestVec j,
        b + vget requestVec j, c - vget requestVec j)) d j).2.1
        = mget d.allocation p j + vget requestVec j := rfl
    have e2 : (tripleNew p (fun j a b c => some (a - vget requestVec j,
        b + vget requestVec j, c - vget requestVec j)) d j).2.2
        = mget d.need p j - vget requestVec j := rfl
    rw [e1, e2]
    obtain ⟨rfl, _⟩ := hh
    have h1 := hinv i hi j hj
    have h2 := hadm j hj
    omega
  · rw [if_neg hh, if_neg hh]
    exact hv

theorem vget_map_range (f : Nat → Int) (n j : Nat) (hj : j < n) :
    vget ((List.range n).map f) j = f j := by
  unfold vget
  simp [List.getD_eq_getElem?_getD, hj]

theorem clampNeg_of_nonneg (x : Int) (h : 0 ≤ x) : clampNeg x = x := by
  unfold clampNeg
  rw [if_neg (by omega)]

/-- The graph `waitForGraphDetection` builds has a cycle exactly when the wait-for relation
of the state has one. -/
theorem hasCycle_iff_waitCycle (d : DeadlockDetector) :
    HasCycle (buildGraph d).1 d.numProcesses ↔ WaitCycle d := by
  have h : Edge (buildGraph d).1 d.numProcesses
      = fun a b => a < d.numProcesses ∧ b < d.numProcesses ∧ WaitsFor d a b := by
    funext a b
    exact propext (buildGraph_edge d a b)
  unfold HasCycle WaitCycle
  rw [h]

/-- The three ways `waitForGraphDetection` ends, in terms of the wait-for relation. -/
theorem waitForGraphDetection_verdict (d : DeadlockDetector) :
    (WaitCycle d ∧ waitForGraphDetection d = some (WaitForOutcome.cycle, false)) ∨
    (¬ WaitCycle d ∧ (∃ seq, bankersAlgorithmCompute d none = some (true, seq)) ∧
      waitForGraphDetection d = some (WaitForOutcome.safe, true)) ∨
    (¬ WaitCycle d ∧ (∃ seq, bankersAlgorithmCompute d none = some (false, seq)) ∧
      waitForGraphDetection d = some (WaitForOutcome.unsafeNoCycle, false)) := by
  obtain ⟨b, hb, hspec⟩ := cycleSearch_spec (buildGraph d).1 d.numProcesses
  rw [hasCycle_iff_waitCycle] at hspec
  have hno : cycleSearch (buildGraph d).1 d.numProcesses = some false → ¬ WaitCycle d := by
    intro h hc
    rw [hb] at h
    injection h with h
    rw [hspec.mpr hc] at h
    exact Bool.noConfusion h
  rcases waitForGraphDetection_cases d with ⟨h1, h2⟩ | ⟨h1, h2, h3⟩ | ⟨h1, h2, h3⟩
  · left
    refine ⟨?_, h2⟩
    rw [hb] at h1
    injection h1 with h1
    exact hspec.mp h1
  · right; left
    exact ⟨hno h1, h2, h3⟩
  · right; right
    exact ⟨hno h1, h2, h3⟩

theorem extract_ok (typed old : Int) (h1 : INT_MIN ≤ typed) (h2 : typed ≤ INT_MAX) :
    extract false typed old = (typed, false) := by
  unfold extract
  rw [if_neg (by simp), if_neg (by omega), if_neg (by omega)]

theorem read_ok (typed old : Int) (h1 : 0 ≤ typed) (h2 : typed ≤ INT_MAX) :
    clampNeg (extract false typed old).1 = typed ∧ (extract false typed old).2 = false := by
  rw [extract_ok typed old (by unfold INT_MIN; omega) h2]
  exact ⟨clampNeg_of_nonneg typed h1, rfl⟩

theorem vget_replicate_zero (n k : Nat) : vget (List.replicate n 0) k = 0 := by
  unfold vget
  by_cases h : k < n
  · simp [List.getD_eq_getElem?_getD, List.getElem?_replicate, h]
  · simp [List.getD_eq_getElem?_getD, List.getElem?_replicate, h]

theorem mget_replicate_zero (P R a b : Nat) :
    mget (List.replicate P (List.replicate R 0)) a b = 0 := by
  unfold mget
  by_cases h : a < P
  · have h1 : (List.replicate P (List.replicate R (0 : Int))).getD a [] = List.replicate R 0 := by
      simp [List.getD_eq_getElem?_getD, List.getElem?_replicate, h]
    rw [h1]
    exact vget_replicate_zero R b
  · have h1 : (List.replicate P (List.replicate R (0 : Int))).getD a [] = [] := by
      simp [List.getD_eq_getElem?_getD, List.getElem?_replicate, h]
    rw [h1]
    rfl

/-- The loop that reads the totals, on literals between zero and `INT_MAX`. -/
theorem readTotals_spec (inp : UserInput)
    (ht : ∀ j, j < inp.numResources.toNat →
      0 ≤ vget inp.totalResources j ∧ vget inp.totalResources j ≤ INT_MAX) :
    ∀ n, n ≤ inp.numResources.toNat →
      ((List.range n).foldl (readTotalStep inp)
          (List.replicate inp.numResources.toNat 0, false)).2 = false ∧
      ((List.range n).foldl (readTotalStep inp)
          (List.replicate inp.numResources.toNat 0, false)).1.length
        = inp.numResources.toNat ∧
      ∀ k, vget ((List.range n).foldl (readTotalStep inp)
          (List.replicate inp.numResources.toNat 0, false)).1 k
        = if k < n then vget inp.totalResources k else 0 := by
  intro n
  induction n with
  | zero =>
    intro _
    refine ⟨rfl, by simp, ?_⟩
    intro k
    simp only [List.range_zero, List.foldl_nil, Nat.not_lt_zero, if_false]
    exact vget_replicate_zero _ k
  | succ n ih =>
    intro hn
    obtain ⟨i1, i2, i3⟩ := ih (by omega)
    rw [List.range_succ, List.foldl_append]
    simp only [List.foldl_cons, List.foldl_nil]
    generalize (List.range n).foldl (readTotalStep inp)
      (List.replicate inp.numResources.toNat 0, false) = st at i1 i2 i3
    unfold readTotalStep
    rw [i1]
    obtain ⟨r1, r2⟩ := read_ok (vget inp.totalResources n) (vget st.1 n)
      (ht n (by omega)).1 (ht n (by omega)).2
    simp only
    rw [r1, r2]
    refine ⟨rfl, by rw [List.length_set]; exact i2, ?_⟩
    intro k
    rw [vget_set, i2]
    by_cases hk : n = k
    · subst hk
      rw [if_pos ⟨rfl, by omega⟩, if_pos (by omega)]
    · rw [if_neg (fun hh => hk hh.1), i3 k]
      by_cases hk2 : k < n
      · rw [if_pos hk2, if_pos (by omega)]
      · rw [if_neg hk2, if_neg (by omega)]

/-- The inner loop that reads row `i` of a matrix, on literals between zero and `INT_MAX`. -/
theorem readRow_spec (typed : List (List Int)) (R i : Nat)
    (hm : ∀ b, b < R → 0 ≤ mget typed i b ∧ mget typed i b ≤ INT_MAX) :
    ∀ n, n ≤ R → ∀ st : List (List Int) × Bool, st.2 = false → i < st.1.length →
      (∀ r ∈ st.1, r.length = R) →
      ((List.range n).foldl (readEntry typed i) st).2 = false ∧
      ((List.range n).foldl (readEntry typed i) st).1.length = st.1.length ∧
      (∀ r ∈ ((List.range n).foldl (readEntry typed i) st).1, r.length = R) ∧
      ∀ a b, mget ((List.range n).foldl (readEntry typed i) st).1 a b
        = if a = i ∧ b < n then mget typed i b else mget st.1 a b := by
  intro n
  induction n with
  | zero =>
    intro _ st h1 _ h3
    refine ⟨h1, rfl, h3, ?_⟩
    intro a b
    simp
  | succ n ih =>
    intro hn st h1 h2 h3
    obtain ⟨i1, i2, i3, i4⟩ := ih (by omega) st h1 h2 h3
    rw [List.range_succ, List.foldl_append]
    simp only [List.foldl_cons, List.foldl_nil]
    generalize (List.range n).foldl (readEntry typed i) st = s1 at i1 i2 i3 i4
    unfold readEntry
    rw [i1]
    obtain ⟨r1, r2⟩ := read_ok (mget typed i n) (mget s1.1 i n)
      (hm n (by omega)).1 (hm n (by omega)).2
    simp only
    rw [r1, r2]
    refine ⟨rfl, by rw [length_mset]; exact i2, row_length_mset _ _ _ _ R i3, ?_⟩
    intro a b
    rw [mget_mset, i4 a b]
    have hrow : (s1.1.getD i []).length = R := wf_row s1.1 R i3 i (by omega)
    by_cases hab : i = a ∧ n = b
    · obtain ⟨rfl, rfl⟩ := hab
      rw [if_pos ⟨rfl, rfl, by omega, by omega⟩, if_pos ⟨rfl, by omega⟩]
    · rw [if_neg (fun hh => hab ⟨hh.1, hh.2.1⟩)]
      by_cases h5 : a = i ∧ b < n
      · rw [if_pos h5, if_pos ⟨h5.1, by omega⟩]
      · rw [if_neg h5, if_neg]
        rintro ⟨e1, e2⟩
        by_cases e3 : b = n
        · exact hab ⟨e1.symm, e3.symm⟩
        · exact h5 ⟨e1, by omega⟩

/-- The loops that read a matrix, on literals between zero and `INT_MAX`. -/
theorem readMatrix_spec (typed : List (List Int)) (P R : Nat)
    (hm : ∀ a, a < P → ∀ b, b < R → 0 ≤ mget typed a b ∧ mget typed a b ≤ INT_MAX) :
    ∀ m, m ≤ P →
      ((List.range m).foldl (fun st i => (List.range R).foldl (readEntry typed i) st)
          (List.replicate P (List.replicate R 0), false)).2 = false ∧
      ((List.range m).foldl (fun st i => (List.range R).foldl (readEntry typed i) st)
          (List.replicate P (List.replicate R 0), false)).1.length = P ∧
      (∀ r ∈ ((List.range m).foldl (fun st i => (List.range R).foldl (readEntry typed i) st)
          (List.replicate P (List.replicate R 0), false)).1, r.length = R) ∧
      ∀ a b, mget ((List.range m).foldl
          (fun st i => (List.range R).foldl (readEntry typed i) st)
          (List.replicate P (List.replicate R 0), false)).1 a b
        = if a < m ∧ b < R then mget typed a b else 0 := by
  intro m
  induction m with
  | zero =>
    intro _
    refine ⟨rfl, by simp, ?_, ?_⟩
    · intro r hr
      simp only [List.range_zero, List.foldl_nil] at hr
      rw [(List.mem_replicate.mp hr).2]
      simp
    · intro a b
      simp only [List.range_zero, List.foldl_nil, Nat.not_lt_zero, false_and, if_false]
      exact mget_replicate_zero P R a b
  | succ m ih =>
    intro hm2
    obtain ⟨i1, i2, i3, i4⟩ := ih (by omega)
    rw [List.range_succ, List.foldl_append]
    simp only [List.foldl_cons, List.foldl_nil]
    generalize (List.range m).foldl (fun st i => (List.range R).foldl (readEntry typed i) st)
      (List.replicate P (List.replicate R 0), false) = s1 at i1 i2 i3 i4
    obtain ⟨j1, j2, j3, j4⟩ := readRow_spec typed R m (hm m (by omega)) R (le_refl _) s1 i1
      (by omega) i3
    refine ⟨j1, by rw [j2]; exact i2, j3, ?_⟩
    intro a b
    rw [j4 a b, i4 a b]
    by_cases h5 : a = m ∧ b < R
    · rw [if_pos h5, if_pos ⟨by omega, h5.2⟩, h5.1]
    · rw [if_neg h5]
      by_cases h6 : a < m ∧ b < R
      · rw [if_pos h6, if_pos ⟨by omega, h6.2⟩]
      · rw [if_neg h6, if_neg]
        rintro ⟨e1, e2⟩
        by_cases e3 : a = m
        · exact h5 ⟨e3, e2⟩
        · exact h6 ⟨by omega, e2⟩

theorem foldl_readAllocEntry_none (inp : UserInput) (maximum : List (List Int)) (i : Nat)
    (l : List Nat) : l.foldl (readAllocEntry inp maximum i) none = none := by
  induction l with
  | nil => rfl
  | cons j t ih => exact ih

/-- The inner loop that reads row `i` of Allocation runs to its end exactly when no entry of
the row exceeds Maximum, and then leaves what the plain reading loop leaves. -/
theorem readAllocRow_spec (inp : UserInput) (maximum : List (List Int)) (R i : Nat)
    (hm : ∀ b, b < R → 0 ≤ mget inp.allocation i b ∧ mget inp.allocation i b ≤ INT_MAX) :
    ∀ n, n ≤ R → ∀ st : List (List Int) × Bool, st.2 = false → i < st.1.length →
      (∀ r ∈ st.1, r.length = R) →
      (List.range n).foldl (readAllocEntry inp maximum i) (some st)
        = if ∀ b, b < n → mget inp.allocation i b ≤ mget maximum i b
          then some ((List.range n).foldl (readEntry inp.allocation i) st) else none := by
  intro n
  induction n with
  | zero =>
    intro _ st _ _ _
    rw [if_pos (fun b hb => absurd hb (Nat.not_lt_zero b))]
    rfl
  | succ n ih =>
    intro hn st h1 h2 h3
    have hval := (readRow_spec inp.allocation R i hm (n + 1) hn st h1 h2 h3).2.2.2 i n
    rw [if_pos ⟨rfl, by omega⟩] at hval
    rw [List.range_succ] at hval ⊢
    simp only [List.foldl_append, List.foldl_cons, List.foldl_nil] at hval ⊢
    rw [ih (by omega) st h1 h2 h3]
    by_cases hc : ∀ b, b < n → mget inp.allocation i b ≤ mget maximum i b
    · rw [if_pos hc]
      unfold readAllocEntry
      simp only
      rw [hval]
      by_cases hn2 : mget inp.allocation i n > mget maximum i n
      · have hall : ¬ ∀ b, b < n + 1 → mget inp.allocation i b ≤ mget maximum i b := by
          intro hall
          have := hall n (by omega)
          omega
        rw [if_pos hn2, if_neg hall]
      · have hall : ∀ b, b < n + 1 → mget inp.allocation i b ≤ mget maximum i b := by
          intro b hb
          by_cases hbn : b = n
          · rw [hbn]; omega
          · exact hc b (by omega)
        rw [if_neg hn2, if_pos hall]
    · have hall : ¬ ∀ b, b < n + 1 → mget inp.allocation i b ≤ mget maximum i b :=
        fun hall => hc (fun b hb => hall b (by omega))
      rw [if_neg hc, if_neg hall]
      rfl

/-- The loops that read Allocation run to their end exactly when no entry exceeds Maximum, and
then leave what the plain reading loops leave. -/
theorem readAllocation_spec (inp : UserInput) (maximum : List (List Int)) (P R : Nat)
    (hm : ∀ a, a < P → ∀ b, b < R →
      0 ≤ mget inp.allocation a b ∧ mget inp.allocation a b ≤ INT_MAX) :
    ∀ m, m ≤ P →
      (List.range m).foldl
          (fun st i => (List.range R).foldl (readAllocEntry inp maximum i) st)
          (some (List.replicate P (List.replicate R 0), false))
        = if ∀ a, a < m → ∀ b, b < R → mget inp.allocation a b ≤ mget maximum a b
          then some ((List.range m).foldl
            (fun st i => (List.range R).foldl (readEntry inp.allocation i) st)
            (List.replicate P (List.replicate R 0), false))
          else none := by
  intro m
  induction m with
  | zero =>
    intro _
    rw [if_pos (fun a ha => absurd ha (Nat.not_lt_zero a))]
    rfl
  | succ m ih =>
    intro hm2
    obtain ⟨i1, i2, i3, _⟩ := readMatrix_spec inp.allocation P R hm m (by omega)
    rw [List.range_succ]
    simp only [List.foldl_append, List.foldl_cons, List.foldl_nil]
    rw [ih (by omega)]
    by_cases hc : ∀ a, a < m → ∀ b, b < R → mget inp.allocation a b ≤ mget maximum a b
    · rw [if_pos hc]
      rw [readAllocRow_spec inp maximum R m (hm m (by omega)) R (le_refl _) _ i1 (by omega) i3]
      by_cases hrow : ∀ b, b < R → mget inp.allocation m b ≤ mget maximum m b
      · have hall : ∀ a, a < m + 1 → ∀ b, b < R →
            mget inp.allocation a b ≤ mget maximum a b := by
          intro a ha b hb
          by_cases ham : a = m
          · rw [ham]; exact hrow b hb
          · exact hc a (by omega) b hb
        rw [if_pos hrow, if_pos hall]
      · have hall : ¬ ∀ a, a < m + 1 → ∀ b, b < R →
            mget inp.allocation a b ≤ mget maximum a b :=
          fun hall => hrow (fun b hb => hall m (by omega) b hb)
        rw [if_neg hrow, if_neg hall]
    · have hall : ¬ ∀ a, a < m + 1 → ∀ b, b < R →
          mget inp.allocation a b ≤ mget maximum a b :=
        fun hall => hc (fun a ha b hb => hall a (by omega) b hb)
      rw [if_neg hc, foldl_readAllocEntry_none, if_neg hall]

/-- The `int` sum of a column of non-negative entries whose exact sum is at most `INT_MAX` is
the exact sum. -/
theorem foldl_wrap_eq_sum (f : Nat → Int) (n : Nat) (hf : ∀ k, k < n → 0 ≤ f k)
    (hs : ((List.range n).map f).sum ≤ INT_MAX) :
    (List.range n).foldl (fun t i => wrapInt (t + f i)) 0 = ((List.range n).map f).sum := by
  induction n with
  | zero => rfl
  | succ n ih =>
    rw [List.range_succ, List.map_append, List.sum_append] at hs ⊢
    simp only [List.map_cons, List.map_nil, List.sum_cons, List.sum_nil, add_zero] at hs ⊢
    rw [List.foldl_append]
    simp only [List.foldl_cons, List.foldl_nil]
    have h1 := hf n (by omega)
    have h2 : 0 ≤ ((List.range n).map f).sum := by
      apply List.sum_nonneg
      intro x hx
      rw [List.mem_map] at hx
      obtain ⟨k, hk, rfl⟩ := hx
      exact hf k (by have := List.mem_range.mp hk; omega)
    rw [ih (fun k hk => hf k (by omega)) (by omega)]
    apply wrapInt_eq
    · unfold INT_MIN; omega
    · exact hs

/-- What `inputFromUser` does on literals between zero and `INT_MAX`, the two counts being
positive. -/
theorem inputFromUser_eq (inp : UserInput)
    (hP : 0 < inp.numProcesses ∧ inp.numProcesses ≤ INT_MAX)
    (hR : 0 < inp.numResources ∧ inp.numResources ≤ INT_MAX)
    (ht : ∀ j, j < inp.numResources.toNat →
      0 ≤ vget inp.totalResources j ∧ vget inp.totalResources j ≤ INT_MAX)
    (hmax : ∀ i, i < inp.numProcesses.toNat → ∀ j, j < inp.numResources.toNat →
      0 ≤ mget inp.maximum i j ∧ mget inp.maximum i j ≤ INT_MAX)
    (hal : ∀ i, i < inp.numProcesses.toNat → ∀ j, j < inp.numResources.toNat →
      0 ≤ mget inp.allocation i j ∧ mget inp.allocation i j ≤ INT_MAX) :
    inputFromUser inp
      = if ∀ i, i < inp.numProcesses.toNat → ∀ j, j < inp.numResources.toNat →
            mget inp.allocation i j ≤ mget inp.maximum i j then
          if (List.range inp.numResources.toNat).any fun j =>
              decide (vget (readAvailable inp (readTotals inp false).1
                (readMatrix inp.allocation inp.numProcesses.toNat inp.numResources.toNat
                  false).1) j < 0) then none
          else
            some (calculateNeed
              { numProcesses := inp.numProcesses.toNat
                numResources := inp.numResources.toNat
                available := readAvailable inp (readTotals inp false).1
                  (readMatrix inp.allocation inp.numProcesses.toNat inp.numResources.toNat
                    false).1
                maximum := (readMatrix inp.maximum inp.numProcesses.toNat
                  inp.numResources.toNat false).1
                allocation := (readMatrix inp.allocation inp.numProcesses.toNat
                  inp.numResources.toNat false).1
                need := [] })
        else none := by
  have e1 : (extract false inp.numProcesses 0).2 = false := by
    rw [extract_ok _ _ (by unfold INT_MIN; omega) hP.2]
  have e2 : (extract false inp.numResources 0).2 = false := by
    rw [extract_ok _ _ (by unfold INT_MIN; omega) hR.2]
  have hT : (readTotals inp false).2 = false :=
    (readTotals_spec inp ht inp.numResources.toNat (le_refl _)).1
  obtain ⟨m1, _, _, m4⟩ := readMatrix_spec inp.maximum inp.numProcesses.toNat
    inp.numResources.toNat hmax inp.numProcesses.toNat (le_refl _)
  have hM2 : (readMatrix inp.maximum inp.numProcesses.toNat inp.numResources.toNat false).2
      = false := m1
  have hA := readAllocation_spec inp
    (readMatrix inp.maximum inp.numProcesses.toNat inp.numResources.toNat false).1
    inp.numProcesses.toNat inp.numResources.toNat hal inp.numProcesses.toNat (le_refl _)
  have hcond : (∀ a, a < inp.numProcesses.toNat → ∀ b, b < inp.numResources.toNat →
      mget inp.allocation a b
        ≤ mget (readMatrix inp.maximum inp.numProcesses.toNat inp.numResources.toNat
            false).1 a b) ↔
      ∀ i, i < inp.numProcesses.toNat → ∀ j, j < inp.numResources.toNat →
        mget inp.allocation i j ≤ mget inp.maximum i j := by
    constructor
    · intro h i hi j hj
      have := h i hi j hj
      unfold readMatrix at this
      rw [m4 i j, if_pos ⟨hi, hj⟩] at this
      exact this
    · intro h i hi j hj
      unfold readMatrix
      rw [m4 i j, if_pos ⟨hi, hj⟩]
      exact h i hi j hj
  unfold inputFromUser
  rw [e1, e2]
  simp only [Bool.false_eq_true, if_false]
  rw [if_neg (by omega)]
  unfold readMaximum readAllocation
  rw [hT, hM2]
  by_cases hc : ∀ i, i < inp.numProcesses.toNat → ∀ j, j < inp.numResources.toNat →
      mget inp.allocation i j ≤ mget inp.maximum i j
  · rw [if_pos hc, hA, if_pos (hcond.mpr hc)]
    rfl
  · rw [if_neg hc, hA, if_neg (fun h => hc (hcond.mp h))]

/-- What the reading loops leave on literals between zero and `INT_MAX` whose Allocation
columns sum to at most `INT_MAX`. -/
theorem read_values (inp : UserInput)
    (ht : ∀ j, j < inp.numResources.toNat →
      0 ≤ vget inp.totalResources j ∧ vget inp.totalResources j ≤ INT_MAX)
    (hmax : ∀ i, i < inp.numProcesses.toNat → ∀ j, j < inp.numResources.toNat →
      0 ≤ mget inp.maximum i j ∧ mget inp.maximum i j ≤ INT_MAX)
    (hal : ∀ i, i < inp.numProcesses.toNat → ∀ j, j < inp.numResources.toNat →
      0 ≤ mget inp.allocation i j ∧ mget inp.allocation i j ≤ INT_MAX)
    (hs : ∀ j, j < inp.numResources.toNat →
      ((List.range inp.numProcesses.toNat).map fun k => mget inp.allocation k j).sum
        ≤ INT_MAX)
    (i j : Nat) (hi : i < inp.numProcesses.toNat) (hj : j < inp.numResources.toNat) :
    mget (readMatrix inp.maximum inp.numProcesses.toNat inp.numResources.toNat false).1 i j
        = mget inp.maximum i j ∧
      mget (readMatrix inp.allocation inp.numProcesses.toNat inp.numResources.toNat false).1 i j
        = mget inp.allocation i j ∧
      vget (readAvailable inp (readTotals inp false).1
          (readMatrix inp.allocation inp.numProcesses.toNat inp.numResources.toNat false).1) j
        = vget inp.totalResources j
          - ((List.range inp.numProcesses.toNat).map fun k => mget inp.allocation k j).sum := by
  have hT := (readTotals_spec inp ht inp.numResources.toNat (le_refl _)).2.2 j
  rw [if_pos hj] at hT
  have hM := (readMatrix_spec inp.maximum inp.numProcesses.toNat inp.numResources.toNat hmax
    inp.numProcesses.toNat (le_refl _)).2.2.2
  have hA := (readMatrix_spec inp.allocation inp.numProcesses.toNat inp.numResources.toNat hal
    inp.numProcesses.toNat (le_refl _)).2.2.2
  have hAk : ∀ k, k < inp.numProcesses.toNat →
      mget (readMatrix inp.allocation inp.numProcesses.toNat inp.numResources.toNat false).1 k j
        = mget inp.allocation k j := by
    intro k hk
    unfold readMatrix
    rw [hA k j, if_pos ⟨hk, hj⟩]
  refine ⟨?_, hAk i hi, ?_⟩
  · unfold readMatrix
    rw [hM i j, if_pos ⟨hi, hj⟩]
  · have hsum : ((List.range inp.numProcesses.toNat).map fun k =>
        mget (readMatrix inp.allocation inp.numProcesses.toNat inp.numResources.toNat
          false).1 k j).sum
        = ((List.range inp.numProcesses.toNat).map fun k => mget inp.allocation k j).sum :=
      sum_range_congr (fun k => mget inp.allocation k j) _ _ hAk
    have hnn : 0 ≤ ((List.range inp.numProcesses.toNat).map
        fun k => mget inp.allocation k j).sum := by
      apply List.sum_nonneg
      intro x hx
      rw [List.mem_map] at hx
      obtain ⟨k, hk, rfl⟩ := hx
      exact (hal k (List.mem_range.mp hk) j hj).1
    have hta : totalAllocated
        (readMatrix inp.allocation inp.numProcesses.toNat inp.numResources.toNat false).1
        inp.numProcesses.toNat j
        = ((List.range inp.numProcesses.toNat).map fun k => mget inp.allocation k j).sum := by
      unfold totalAllocated
      rw [foldl_wrap_eq_sum (fun k => mget (readMatrix inp.allocation inp.numProcesses.toNat
        inp.numResources.toNat false).1 k j) inp.numProcesses.toNat
        (fun k hk => by beta_reduce; rw [hAk k hk]; exact (hal k hk j hj).1)
        (by rw [hsum]; exact hs j hj), hsum]
    unfold readAvailable
    rw [vget_map_range _ _ j hj, hta]
    unfold readTotals
    rw [hT]
    have h1 := ht j hj
    have h2 := hs j hj
    apply wrapInt_eq
    · unfold INT_MIN; unfold INT_MAX at h1 h2; omega
    · unfold INT_MAX at h1 h2 ⊢; omega

/-- The object `inputFromUser` leaves when it accepts has consistent dimensions. -/
theorem inputFromUser_wf (inp : UserInput)
    (hmax : ∀ i, i < inp.numProcesses.toNat → ∀ j, j < inp.numResources.toNat →
      0 ≤ mget inp.maximum i j ∧ mget inp.maximum i j ≤ INT_MAX)
    (hal : ∀ i, i < inp.numProcesses.toNat → ∀ j, j < inp.numResources.toNat →
      0 ≤ mget inp.allocation i j ∧ mget inp.allocation i j ≤ INT_MAX) :
    WF (calculateNeed
      { numProcesses := inp.numProcesses.toNat
        numResources := inp.numResources.toNat
        available := readAvailable inp (readTotals inp false).1
          (readMatrix inp.allocation inp.numProcesses.toNat inp.numResources.toNat false).1
        maximum := (readMatrix inp.maximum inp.numProcesses.toNat
          inp.numResources.toNat false).1
        allocation := (readMatrix inp.allocation inp.numProcesses.toNat
          inp.numResources.toNat false).1
        need := [] }) := by
  obtain ⟨_, m2, m3, _⟩ := readMatrix_spec inp.maximum inp.numProcesses.toNat
    inp.numResources.toNat hmax inp.numProcesses.toNat (le_refl _)
  obtain ⟨_, a2, a3, _⟩ := readMatrix_spec inp.allocation inp.numProcesses.toNat
    inp.numResources.toNat hal inp.numProcesses.toNat (le_refl _)
  obtain ⟨n1, n2⟩ := calculateNeed_wf
    { numProcesses := inp.numProcesses.toNat
      numResources := inp.numResources.toNat
      available := readAvailable inp (readTotals inp false).1
        (readMatrix inp.allocation inp.numProcesses.toNat inp.numResources.toNat false).1
      maximum := (readMatrix inp.maximum inp.numProcesses.toNat
        inp.numResources.toNat false).1
      allocation := (readMatrix inp.allocation inp.numProcesses.toNat
        inp.numResources.toNat false).1
      need := [] }
  refine ⟨?_, m2, a2, n1, m3, a3, n2⟩
  show (readAvailable inp _ _).length = inp.numResources.toNat
  unfold readAvailable
  simp

/-! ## Claims -/

/-- C1 (counterexample): `wrapState` has consistent dimensions and non-negative Allocation,
and the ordering `[1, 0]` of its two processes replays from `work = Available`; yet
`bankersAlgorithmCompute` reports unsafe with the partial sequence `[0]`: after process 0
the sum `2147483647 + 1` leaves the range of `int` and `work[0]` becomes negative. -/
theorem C1_safe_ordering_missed :
    WF wrapState ∧
      (∀ i, i < wrapState.numProcesses → ∀ j, j < wrapState.numResources →
        0 ≤ mget wrapState.allocation i j) ∧
      [1, 0].Nodup ∧ (∀ k, k < wrapState.numProcesses → k ∈ [1, 0]) ∧
      (∀ k, k ∈ [1, 0] → k < wrapState.numProcesses) ∧
      replayOK wrapState (vget wrapState.available) [1, 0] = true ∧
      bankersAlgorithmCompute wrapState none = some (false, [0]) := by
  decide

/-- C1 (amended): for a state with consistent dimensions, non-negative Available and
Allocation and `Available[j] + Σ_i Allocation[i][j] ≤ INT_MAX` for every resource `j`, and any
optional termination mask, `bankersAlgorithmCompute` returns safe if and only if some ordering
of all non-masked processes replays from `work = Available`, each process's Need row being
componentwise at most `work` at its turn and its Allocation row being added to `work` after
it. -/
theorem C1_safe_iff_safe_ordering (d : DeadlockDetector) (mask : Option (List Bool))
    (hwf : WF d) (hr : InRange d) :
    (∃ seq, bankersAlgorithmCompute d mask = some (true, seq)) ↔
      ∃ l : List Nat, l.Nodup ∧
        (∀ k, k ∈ l ↔ k < d.numProcesses ∧ masked mask k = false) ∧
        replayOK d (vget d.available) l = true := by
  constructor
  · rintro ⟨seq, h⟩
    exact ⟨seq, compute_safe_sound d mask hwf.1 hr seq h⟩
  · rintro ⟨l, hl, hmem, hrep⟩
    exact compute_safe_complete d mask hwf.1 hr l hl hmem hrep

theorem C1_safe_iff_safe_ordering_witness :
    (∃ seq, bankersAlgorithmCompute classic (some [false, false, true, false, false])
        = some (true, seq)) ↔
      ∃ l : List Nat, l.Nodup ∧
        (∀ k, k ∈ l ↔ k < classic.numProcesses ∧
          masked (some [false, false, true, false, false]) k = false) ∧
        replayOK classic (vget classic.available) l = true :=
  C1_safe_iff_safe_ordering classic (some [false, false, true, false, false])
    (by decide) (by decide)

/-- C3: if `requestResources` returns denied, for whichever reason, then Available,
Allocation, Need and Maximum after the call are what they were before it. -/
theorem C3_denied_leaves_state (d : DeadlockDetector) (processId : Int)
    (requestVec : List Int) (reason : RequestOutcome) (d2 : DeadlockDetector)
    (h : requestResources d processId requestVec = some (reason, d2))
    (hden : reason ≠ RequestOutcome.granted) :
    d2.available = d.available ∧ d2.allocation = d.allocation ∧ d2.need = d.need ∧
      d2.maximum = d.maximum := by
  have := requestResources_denied d processId requestVec reason d2 h hden
  subst this
  exact ⟨rfl, rfl, rfl, rfl⟩

theorem C3_denied_leaves_state_witness :
    requestResources classic 4 [3, 3, 0] = some (RequestOutcome.unsafeState, classic) ∧
      (classic.available = classic.available ∧ classic.allocation = classic.allocation ∧
        classic.need = classic.need ∧ classic.maximum = classic.maximum) :=
  ⟨by decide,
    C3_denied_leaves_state classic 4 [3, 3, 0] RequestOutcome.unsafeState classic
      (by decide) (by decide)⟩

/-- C6 (failing input): process 0 of `signState` is in range and its requests `[-1]` and
`[-2]` have length R and a negative amount, yet `requestResources` grants both and changes
Available, Allocation and Need; the request `[-2]` leaves `Allocation[0][0] = -1`. -/
theorem C6_negative_request_granted :
    WF signState ∧ (0 : Int) < (signState.numProcesses : Int) ∧
      [(-1 : Int)].length = signState.numResources ∧ vget [-1] 0 < 0 ∧
      requestResources signState 0 [-1]
        = some (RequestOutcome.granted,
            { numProcesses := 1, numResources := 1, available := [2], maximum := [[2]]
              allocation := [[0]], need := [[2]] }) ∧
      requestResources signState 0 [-2]
        = some (RequestOutcome.granted,
            { numProcesses := 1, numResources := 1, available := [3], maximum := [[2]]
              allocation := [[-1]], need := [[3]] }) := by
  decide

/-- C7 (counterexample): in `orderState` the request `[1, 1]` of process 0 exceeds Need at
resource 1, yet the reason of the denial is ResourceUnavailable, because resource 0, which is
within Need, exceeds Available and is visited first. -/
theorem C7_unavailable_reported_first :
    (0 : Int) < (orderState.numProcesses : Int) ∧
      [(1 : Int), 1].length = orderState.numResources ∧
      vget [1, 1] 1 > mget orderState.need 0 1 ∧
      requestResources orderState 0 [1, 1] = some (RequestOutcome.unavailable, orderState) := by
  decide

/-- C7 (amended): for an in-range process and a request of length R, the admission loop
visits the resources in ascending order and tests Need before Available at each of them.  The
reason is ExceedsMaximumNeed exactly when the first resource failing a test exceeds Need, and
ResourceUnavailable exactly when the first resource failing a test is within Need and exceeds
Available. -/
theorem C7_reason_of_first_failure (d : DeadlockDetector) (processId : Int)
    (requestVec : List Int)
    (hin : 0 ≤ processId ∧ processId < (d.numProcesses : Int))
    (hlen : requestVec.length = d.numResources) :
    ((∃ d2, requestResources d processId requestVec = some (RequestOutcome.exceedsNeed, d2)) ↔
      ∃ j, j < d.numResources ∧ vget requestVec j > mget d.need processId.toNat j ∧
        ∀ k, k < j → admits d processId.toNat requestVec k) ∧
    ((∃ d2, requestResources d processId requestVec = some (RequestOutcome.unavailable, d2)) ↔
      ∃ j, j < d.numResources ∧ vget requestVec j ≤ mget d.need processId.toNat j ∧
        vget requestVec j > vget d.available j ∧
        ∀ k, k < j → admits d processId.toNat requestVec k) := by
  have hadm := admission_range d processId.toNat requestVec d.numResources
  rw [← hadm.1, ← hadm.2]
  rcases requestResources_cases d processId requestVec with
    h | h | ⟨h1, h2, r, hr, h⟩ | h | h
  · exact absurd h.1 (by omega)
  · exact absurd hlen h.2.1
  · rw [h, hr]
    constructor
    · constructor
      · rintro ⟨d2, he⟩; injection he with he; injection he with he _; rw [he]
      · intro he; injection he with he; rw [he]; exact ⟨_, rfl⟩
    · constructor
      · rintro ⟨d2, he⟩; injection he with he; injection he with he _; rw [he]
      · intro he; injection he with he; rw [he]; exact ⟨_, rfl⟩
  · obtain ⟨_, _, h3, _, h⟩ := h
    rw [h, h3]
    constructor
    · constructor
      · rintro ⟨d2, he⟩; injection he with he; injection he with he _
        exact RequestOutcome.noConfusion he
      · intro he; exact Option.noConfusion he
    · constructor
      · rintro ⟨d2, he⟩; injection he with he; injection he with he _
        exact RequestOutcome.noConfusion he
      · intro he; exact Option.noConfusion he
  · obtain ⟨_, _, h3, _, h⟩ := h
    rw [h, h3]
    constructor
    · constructor
      · rintro ⟨d2, he⟩; injection he with he; injection he with he _
        exact RequestOutcome.noConfusion he
      · intro he; exact Option.noConfusion he
    · constructor
      · rintro ⟨d2, he⟩; injection he with he; injection he with he _
        exact RequestOutcome.noConfusion he
      · intro he; exact Option.noConfusion he

theorem C7_reason_of_first_failure_witness :
    ((∃ d2, requestResources orderState 0 [1, 1] = some (RequestOutcome.exceedsNeed, d2)) ↔
      ∃ j, j < orderState.numResources ∧ vget [1, 1] j > mget orderState.need (0 : Int).toNat j ∧
        ∀ k, k < j → admits orderState (0 : Int).toNat [1, 1] k) ∧
    ((∃ d2, requestResources orderState 0 [1, 1] = some (RequestOutcome.unavailable, d2)) ↔
      ∃ j, j < orderState.numResources ∧ vget [1, 1] j ≤ mget orderState.need (0 : Int).toNat j ∧
        vget [1, 1] j > vget orderState.available j ∧
        ∀ k, k < j → admits orderState (0 : Int).toNat [1, 1] k) :=
  C7_reason_of_first_failure orderState 0 [1, 1] (by decide) (by decide)

/-- C8 (counterexample): `wrapTwo` has consistent dimensions and satisfies
`0 ≤ Allocation ≤ Maximum`, `Available ≥ 0` and `Need = Maximum - Allocation`; after
`processTermination` Available is `[-2147483647]` and after `resourcePreemption` it is
`[-2147483648]`, so `Available ≥ 0` is lost: the sum `2147483647 + 1` leaves the range of
`int`. -/
theorem C8_available_turns_negative :
    WF wrapTwo ∧ AllocInv wrapTwo ∧ NeedExact wrapTwo ∧
      (processTermination wrapTwo true).map (fun r => r.state.available)
        = some [-2147483647] ∧
      (processTermination wrapTwo true).map (fun r => decide (AllocInv r.state))
        = some false ∧
      (resourcePreemption wrapTwo true).map (fun r => r.state.available)
        = some [-2147483648] ∧
      (resourcePreemption wrapTwo true).map (fun r => decide (AllocInv r.state))
        = some false := by
  decide

/-- C8 (amended): if a state with consistent dimensions satisfies `0 ≤ Allocation ≤ Maximum`,
`Available ≥ 0`, `Need = Maximum - Allocation` and
`Available[j] + Σ_i Allocation[i][j] ≤ INT_MAX` for every resource `j`, then after
`requestResources` with a non-negative request vector (granted or denied), after
`processTermination` and after `resourcePreemption` the state still satisfies
`0 ≤ Allocation ≤ Maximum` and `Available ≥ 0`; each of the three calls returns. -/
theorem C8_invariants_preserved (d : DeadlockDetector) (hwf : WF d) (hinv : AllocInv d)
    (hneed : NeedExact d)
    (htot : ∀ j, j < d.numResources → totalUnits d j ≤ INT_MAX) :
    (∀ (processId : Int) (requestVec : List Int),
      (∀ j, j < d.numResources → 0 ≤ vget requestVec j) →
      ∃ r d2, requestResources d processId requestVec = some (r, d2) ∧ AllocInv d2) ∧
    (∀ flag : Bool, ∃ res, processTermination d flag = some res ∧ AllocInv res.state) ∧
    (∀ flag : Bool, ∃ res, resourcePreemption d flag = some res ∧ AllocInv res.state) := by
  have hr : InRange d := ⟨hinv.2, fun i hi j hj => (hinv.1 i hi j hj).1, htot⟩
  refine ⟨?_, ?_, ?_⟩
  · intro processId requestVec hnn
    rcases requestResources_cases d processId requestVec with
      h | h | ⟨_, _, _, _, h⟩ | h | h
    · exact ⟨_, _, h.2, hinv⟩
    · exact ⟨_, _, h.2.2, hinv⟩
    · exact ⟨_, _, h, hinv⟩
    · refine ⟨_, _, h.2.2.2.2, ?_⟩
      apply applyRequest_allocInv d _ requestVec hwf (toNat_lt_of_inRange _ _ h.1) hinv hneed hnn
      intro j hj
      exact (admission_none d _ _ _).mp h.2.2.1 j (List.mem_range.mpr hj)
    · exact ⟨_, _, h.2.2.2.2, hinv⟩
  · intro flag
    obtain ⟨res, hres⟩ := processTermination_total d flag
    exact ⟨res, hres, (processTermination_inv (fun d2 => WF d2 ∧ AllocInv d2 ∧ InRange d2)
      (fun d2 m hq hm => terminate_allocInv d2 m hm hq) d flag res hres
      ⟨hwf, hinv, hr⟩).2.1⟩
  · intro flag
    obtain ⟨res, hres⟩ := resourcePreemption_total d flag
    exact ⟨res, hres, (resourcePreemption_inv (fun d2 => WF d2 ∧ AllocInv d2 ∧ InRange d2)
      (fun d2 m hq hm => preempt_allocInv d2 m hm hq) d flag res hres
      ⟨hwf, hinv, hr⟩).2.1⟩

theorem C8_invariants_preserved_witness :
    (∀ (processId : Int) (requestVec : List Int),
      (∀ j, j < classic.numResources → 0 ≤ vget requestVec j) →
      ∃ r d2, requestResources classic processId requestVec = some (r, d2) ∧ AllocInv d2) ∧
    (∀ flag : Bool, ∃ res, processTermination classic flag = some res ∧ AllocInv res.state) ∧
    (∀ flag : Bool, ∃ res, resourcePreemption classic flag = some res ∧ AllocInv res.state) :=
  C8_invariants_preserved classic (by decide) (by decide) (by decide) (by decide)

/-- C9 (failing input): in `sentinelState` both processes have a positive total allocation,
yet `processTermination` with the flag set terminates process 0 only and ends with "Recovery
failed": the total of process 1 equals `INT_MAX`, the start value of the running minimum, and
is never below it. -/
theorem C9_recovery_failed_reached :
    WF sentinelState ∧ 0 < totalAlloc sentinelState 0 ∧ 0 < totalAlloc sentinelState 1 ∧
      processTermination sentinelState true
        = some { outcome := TerminationOutcome.failed
                 state := { numProcesses := 2, numResources := 2, available := [1, 0]
                            maximum := [[1, 0], [2147483647, 5]]
                            allocation := [[0, 0], [2147483647, 0]]
                            need := [[0, 0], [0, 5]] }
                 terminated := [true, false], victims := [0], terminationCount := 1
                 safeSeq := [] } := by
  decide

/-- C10 (failing input): on `fourProcesses` the first victim is process 0; the state stays
unsafe, and the escalation loop then picks process 1, whose total allocation is zero, ahead of
processes 2 and 3, which hold two and three units; the processes announced as terminated are
0, 1 and 2. -/
theorem C10_escalation_terminates_idle_process :
    WF fourProcesses ∧
      (selectCulprit fourProcesses).1 = some 0 ∧
      bankersAlgorithmCompute (terminate fourProcesses 0) (some [true, false, false, false])
        = some (false, []) ∧
      totalAlloc (terminate fourProcesses 0) 1 = 0 ∧
      totalAlloc (terminate fourProcesses 0) 2 = 2 ∧
      (selectMinProcess (terminate fourProcesses 0) [true, false, false, false]).1 = some 1 ∧
      (processTermination fourProcesses true).map (fun r => (r.outcome, r.victims))
        = some (TerminationOutcome.recovered, [0, 1, 2]) := by
  decide

/-- C11: `waitForGraphDetection` returns; it reports "no deadlock" exactly when the wait-for
relation of the state (process `a` waits for another process `b` when some resource `j` has
`Need[a][j] > Available[j]` and `Allocation[b][j] > 0`) has no cycle and the evaluator without
mask reports safe on the same state; it reports deadlock exactly when that relation has a
cycle or, without a cycle, the evaluator reports unsafe; and it prints "Deadlock exists"
for a cycle exactly when the relation has one. -/
theorem C11_waitForGraph_verdict (d : DeadlockDetector) :
    ∃ o b, waitForGraphDetection d = some (o, b) ∧
      (b = true ↔
        (¬ WaitCycle d ∧ ∃ seq, bankersAlgorithmCompute d none = some (true, seq))) ∧
      (b = false ↔
        (WaitCycle d ∨
          (¬ WaitCycle d ∧ ∃ seq, bankersAlgorithmCompute d none = some (false, seq)))) ∧
      (o = WaitForOutcome.cycle ↔ WaitCycle d) := by
  rcases waitForGraphDetection_verdict d with
    ⟨h1, h2⟩ | ⟨h1, ⟨seq, h2⟩, h3⟩ | ⟨h1, ⟨seq, h2⟩, h3⟩
  · refine ⟨_, _, h2, ?_, ?_, ?_⟩
    · constructor
      · intro h; exact Bool.noConfusion h
      · rintro ⟨h, _⟩
        exact absurd h1 h
    · exact ⟨fun _ => Or.inl h1, fun _ => rfl⟩
    · exact ⟨fun _ => h1, fun _ => rfl⟩
  · refine ⟨_, _, h3, ?_, ?_, ?_⟩
    · exact ⟨fun _ => ⟨h1, seq, h2⟩, fun _ => rfl⟩
    · constructor
      · intro h; exact Bool.noConfusion h
      · rintro (h | ⟨_, seq2, h⟩)
        · exact absurd h h1
        · rw [h2] at h
          cases h
    · constructor
      · intro h; cases h
      · intro h; exact absurd h h1
  · refine ⟨_, _, h3, ?_, ?_, ?_⟩
    · constructor
      · intro h; exact Bool.noConfusion h
      · rintro ⟨_, seq2, h⟩
        rw [h2] at h
        cases h
    · exact ⟨fun _ => Or.inr ⟨h1, seq, h2⟩, fun _ => rfl⟩
    · constructor
      · intro h; cases h
      · intro h; exact absurd h h1

/-- C12: on every matrix of flags read as an `n`-node graph, the depth-first search with the
markers `visited` and `recStack`, started at every unvisited node in ascending order, returns,
and it reports a cycle if and only if the graph has a directed cycle, that is a non-empty path
from some node back to itself. -/
theorem C12_cycle_search_correct (g : List (List Bool)) (n : Nat) :
    (∃ b, cycleSearch g n = some b) ∧ (cycleSearch g n = some true ↔ HasCycle g n) := by
  obtain ⟨b, h1, h2⟩ := cycleSearch_spec g n
  refine ⟨⟨b, h1⟩, ?_⟩
  rw [h1, ← h2]
  constructor
  · intro h; injection h
  · intro h; rw [h]

/-- C13 (counterexample): `wrapState` has consistent dimensions, non-negative Available and
Allocation, Need computed by `calculateNeed`, and no declared maximum above
`Available[j] + Σ_k Allocation[k][j]`; the evaluator reports unsafe, because `work[0]` leaves
the range of `int` after process 0, while no process is blocked: the wait-for relation has no
cycle and `waitForGraphDetection` ends in the branch "unsafe state without WFG cycle". -/
theorem C13_unsafe_without_cycle :
    WF wrapState ∧
    (∀ j, j < wrapState.numResources → 0 ≤ vget wrapState.available j) ∧
    (∀ i, i < wrapState.numProcesses → ∀ j, j < wrapState.numResources →
      0 ≤ mget wrapState.allocation i j ∧
      mget wrapState.need i j
        = max 0 (mget wrapState.maximum i j - mget wrapState.allocation i j) ∧
      mget wrapState.maximum i j ≤ totalUnits wrapState j) ∧
    bankersAlgorithmCompute wrapState none = some (false, [0]) ∧
    (buildGraph wrapState).1 = [[false, false], [false, false]] ∧
    ¬ WaitCycle wrapState ∧
    waitForGraphDetection wrapState = some (WaitForOutcome.unsafeNoCycle, false) := by
  have h3 : waitForGraphDetection wrapState = some (WaitForOutcome.unsafeNoCycle, false) := by
    decide
  refine ⟨by decide, by decide, by decide, by decide, by decide, ?_, h3⟩
  rcases waitForGraphDetection_verdict wrapState with ⟨_, h⟩ | ⟨_, _, h⟩ | ⟨h, _, _⟩
  · rw [h3] at h; cases h
  · rw [h3] at h; cases h
  · exact h

/-- C13 (amended): for every state with consistent dimensions, `Allocation ≥ 0`,
`Available ≥ 0`, `Need[i][j] = max(0, Maximum[i][j] - Allocation[i][j])`,
`Maximum[i][j] ≤ Available[j] + Σ_k Allocation[k][j]` and
`Available[j] + Σ_k Allocation[k][j] ≤ INT_MAX`, if the evaluator without mask reports unsafe
then the wait-for relation has a cycle, the graph built by `waitForGraphDetection` has one,
and `waitForGraphDetection` reports it: the branch "unsafe state without WFG cycle" is not
reached. -/
theorem C13_unsafe_implies_cycle (d : DeadlockDetector) (hwf : WF d)
    (hnn : ∀ i, i < d.numProcesses → ∀ j, j < d.numResources → 0 ≤ mget d.allocation i j)
    (hav : ∀ j, j < d.numResources → 0 ≤ vget d.available j)
    (hneed : ∀ i, i < d.numProcesses → ∀ j, j < d.numResources →
      mget d.need i j = max 0 (mget d.maximum i j - mget d.allocation i j))
    (hmax : ∀ i, i < d.numProcesses → ∀ j, j < d.numResources →
      mget d.maximum i j ≤ totalUnits d j)
    (htot : ∀ j, j < d.numResources → totalUnits d j ≤ INT_MAX)
    (seq : List Nat) (h : bankersAlgorithmCompute d none = some (false, seq)) :
    WaitCycle d ∧ HasCycle (buildGraph d).1 d.numProcesses ∧
      waitForGraphDetection d = some (WaitForOutcome.cycle, false) := by
  have hcyc := unsafe_has_cycle d hwf hnn hav hneed hmax htot seq h
  have hw := (hasCycle_iff_waitCycle d).mp hcyc
  refine ⟨hw, hcyc, ?_⟩
  rcases waitForGraphDetection_verdict d with ⟨_, h3⟩ | ⟨h3, _⟩ | ⟨h3, _⟩
  · exact h3
  · exact absurd hw h3
  · exact absurd hw h3

theorem C13_unsafe_implies_cycle_witness :
    WaitCycle fourProcesses ∧
      HasCycle (buildGraph fourProcesses).1 fourProcesses.numProcesses ∧
      waitForGraphDetection fourProcesses = some (WaitForOutcome.cycle, false) :=
  C13_unsafe_implies_cycle fourProcesses (by decide) (by decide) (by decide) (by decide)
    (by decide) (by decide) [] (by decide)

/-- C14 (counterexample): on the classic instance the evaluator reports `[1, 3, 4, 0, 2]`
while the reference procedure that restarts the scan from index 0 after every selection
reports `[1, 3, 0, 2, 4]`; on `scanOrderState` they report `[1, 2, 0]` and `[1, 0, 2]`. -/
theorem C14_restart_reference_differs :
    bankersAlgorithmCompute classic none = some (true, [1, 3, 4, 0, 2]) ∧
      referenceEvaluate true classic none = some (true, [1, 3, 0, 2, 4]) ∧
      bankersAlgorithmCompute scanOrderState none = some (true, [1, 2, 0]) ∧
      referenceEvaluate true scanOrderState none = some (true, [1, 0, 2]) := by
  decide

/-- C14 (amended): for every state with consistent dimensions, non-negative Available and
Allocation and `Available[j] + Σ_i Allocation[i][j] ≤ INT_MAX` for every resource, and for
every mask, the verdict and the sequence of both copies of the evaluator are those of the
reference procedure that, starting from `work = Available`, repeatedly selects the
lowest-index unfinished non-masked process at or after the scan position whose Need is at
most `work`, releases its Allocation into `work`, and goes on from index `i + 1` after
selecting `i`, returning to index 0 only after the last index. -/
theorem C14_sequence_of_continuing_scan (d : DeadlockDetector) (mask : Option (List Bool))
    (hwf : WF d) (hr : InRange d) :
    bankersAlgorithmCompute d mask = referenceEvaluate false d mask ∧
      bankersAlgorithmDetection d mask = referenceEvaluate false d mask := by
  rw [detection_eq_compute, referenceEvaluate_eq_compute d mask hwf.1 hr]
  exact ⟨rfl, rfl⟩

theorem C14_sequence_of_continuing_scan_witness :
    bankersAlgorithmCompute classic none = referenceEvaluate false classic none ∧
      bankersAlgorithmDetection classic none = referenceEvaluate false classic none :=
  C14_sequence_of_continuing_scan classic none (by decide) (by decide)

/-- C15 (failing input): in `saturatedState` a single process holds `INT_MAX` units,
Allocation is non-negative and its total is positive, yet `resourcePreemption` with the
deadlock flag set finds no victim and changes nothing: the running minimum of the selection
loop starts at `INT_MAX` and the test is a strict `<`.  In `wrapTwo` process 0 is preempted,
the sum `2147483647 + 1` leaves the range of `int`, Available becomes `[-2147483648]` instead
of the old `Available + Allocation[0]`, and the outcome is "still unsafe". -/
theorem C15_no_victim_at_sentinel :
    WF saturatedState ∧
      (∀ i, i < saturatedState.numProcesses → ∀ j, j < saturatedState.numResources →
        0 ≤ mget saturatedState.allocation i j) ∧
      0 < totalAlloc saturatedState 0 ∧
      resourcePreemption saturatedState true
        = some { outcome := PreemptionOutcome.noVictim, state := saturatedState
                 victim := none, preempted := [], safeSeq := [] } ∧
      (resourcePreemption wrapTwo true).map
          (fun r => (r.outcome, r.victim, r.state.available))
        = some (PreemptionOutcome.stillUnsafe, some 0, [-2147483648]) := by
  decide

/-- C16 (failing input): on `partialHolder` (`Allocation = [[1, 0]]`, `Need = [[0, 3]]`)
`resourcePreemption` preempts process 0 and leaves `Need[0][1] = 3`, where process 0 held
nothing; `processTermination` on the same state leaves `Need[0] = [0, 0]`. -/
theorem C16_need_kept_where_nothing_held :
    partialHolder.allocation = [[1, 0]] ∧ partialHolder.need = [[0, 3]] ∧
      (resourcePreemption partialHolder true).map (fun r => (r.outcome, r.victim))
        = some (PreemptionOutcome.recovered, some 0) ∧
      (resourcePreemption partialHolder true).map (fun r => r.state.allocation)
        = some [[0, 0]] ∧
      (resourcePreemption partialHolder true).map (fun r => r.state.need)
        = some [[0, 3]] ∧
      (processTermination partialHolder true).map (fun r => (r.outcome, r.victims))
        = some (TerminationOutcome.recovered, [0]) ∧
      (processTermination partialHolder true).map (fun r => r.state.need)
        = some [[0, 0]] := by
  decide

/-- C17 (failing input): in `saturatedState` process 0 has a positive total allocation, yet
neither selection loop chooses a process: `processTermination` terminates nobody and
`resourcePreemption` has no victim.  In `wrapTotals` the row of process 0 sums to 2 and the
row of process 1 to `2 * INT_MAX + 3`; the `int` total of process 1 is 1 after two
wrap-arounds, and both loops choose process 1. -/
theorem C17_no_first_victim_at_sentinel :
    0 < totalAlloc saturatedState 0 ∧
      (selectCulprit saturatedState).1 = none ∧ (selectVictim saturatedState).1 = none ∧
      (processTermination saturatedState true).map (fun r => (r.outcome, r.victims))
        = some (TerminationOutcome.noCulprit, []) ∧
      (resourcePreemption saturatedState true).map (fun r => (r.outcome, r.victim))
        = some (PreemptionOutcome.noVictim, none) ∧
      totalAlloc wrapTotals 0 = 2 ∧ totalAlloc wrapTotals 1 = 1 ∧
      (wrapTotals.allocation.map List.sum) = [2, 4294967297] ∧
      (processTermination wrapTotals true).map (fun r => r.victims.head?)
        = some (some 1) ∧
      (resourcePreemption wrapTotals true).map (fun r => r.victim) = some (some 1) := by
  decide

/-- C18: on the classic instance (Available `[3,3,2]`, the Allocation and Maximum of the
scenario, Need computed by `calculateNeed`, no mask) the safety evaluator reports safe, the
first member of its sequence is process 1, and the sequence is `[1,3,4,0,2]`. -/
theorem C18_classic_sequence :
    classic.available = [3, 3, 2] ∧
      classic.allocation = [[0, 1, 0], [2, 0, 0], [3, 0, 2], [2, 1, 1], [0, 0, 2]] ∧
      classic.maximum = [[7, 5, 3], [3, 2, 2], [9, 0, 2], [2, 2, 2], [4, 3, 3]] ∧
      bankersAlgorithmDetection classic none = some (true, [1, 3, 4, 0, 2]) ∧
      bankersAlgorithmCompute classic none = some (true, [1, 3, 4, 0, 2]) ∧
      ([1, 3, 4, 0, 2] : List Nat).head? = some 1 := by
  decide

/-- C19 (counterexample): on the classic instance the state reached by the request `[1,0,2]`
of process 1 is safe, and `requestResources` does not return the denial "would cause unsafe
state". -/
theorem C19_request_not_denied :
    bankersAlgorithmDetection (applyRequest classic 1 [1, 0, 2]) none
        = some (true, [1, 3, 4, 0, 2]) ∧
      requestResources classic 1 [1, 0, 2] ≠ some (RequestOutcome.unsafeState, classic) := by
  decide

/-- C19 (amended): from the classic instance (Available `[3,3,2]`, `Allocation[1] = [2,0,0]`,
`Need[1] = [1,2,2]`) the request `[1,0,2]` of process 1 passes the need and availability
tests, the tentative Available is `[2,3,0]`, the tentative state is safe with the sequence
`[1,3,4,0,2]`, and `requestResources` returns granted and leaves Available `[2,3,0]`,
`Allocation[1] = [3,0,2]` and `Need[1] = [0,2,0]`, all other rows as they were. -/
theorem C19_request_granted :
    classic.available = [3, 3, 2] ∧ classic.allocation.getD 1 [] = [2, 0, 0] ∧
      classic.need.getD 1 [] = [1, 2, 2] ∧
      admission classic 1 [1, 0, 2] (List.range classic.numResources) = none ∧
      (tentativeState classic 1 [1, 0, 2]).available = [2, 3, 0] ∧
      bankersAlgorithmDetection (tentativeState classic 1 [1, 0, 2]) none
        = some (true, [1, 3, 4, 0, 2]) ∧
      requestResources classic 1 [1, 0, 2]
        = some (RequestOutcome.granted,
            { numProcesses := 5, numResources := 3, available := [2, 3, 0]
              maximum := [[7, 5, 3], [3, 2, 2], [9, 0, 2], [2, 2, 2], [4, 3, 3]]
              allocation := [[0, 1, 0], [3, 0, 2], [3, 0, 2], [2, 1, 1], [0, 0, 2]]
              need := [[7, 4, 3], [0, 2, 0], [6, 0, 0], [0, 1, 1], [4, 3, 1]] }) := by
  decide

/-- C20: for a single process with `0 ≤ Allocation[0][j] ≤ Maximum[0][j]` and
`Maximum[0][j] ≤ Available[j] + Allocation[0][j]` for every resource `j`, and Need computed by
`calculateNeed`, the evaluator without mask reports safe with the sequence `[0]`. -/
theorem C20_single_process_safe (d : DeadlockDetector) (hP : d.numProcesses = 1)
    (hinv : ∀ j, j < d.numResources →
      0 ≤ mget d.allocation 0 j ∧ mget d.allocation 0 j ≤ mget d.maximum 0 j)
    (hmax : ∀ j, j < d.numResources →
      mget d.maximum 0 j ≤ vget d.available j + mget d.allocation 0 j) :
    bankersAlgorithmCompute (calculateNeed d) none = some (true, [0]) ∧
      bankersAlgorithmDetection (calculateNeed d) none = some (true, [0]) := by
  have h : bankersAlgorithmCompute (calculateNeed d) none = some (true, [0]) := by
    apply compute_single (calculateNeed d) hP
    rw [canFinish_eq_fits, fits_iff]
    intro j hj
    have hj2 : j < d.numResources := hj
    rw [mget_calculateNeed d 0 j (by omega) hj2]
    have h1 := hinv j hj2
    have h2 := hmax j hj2
    have : (calculateNeed d).available = d.available := rfl
    rw [this]
    unfold needEntry
    simp only
    split <;> omega
  rw [detection_eq_compute]
  exact ⟨h, h⟩

theorem C20_single_process_safe_witness :
    bankersAlgorithmCompute (calculateNeed loneProcess) none = some (true, [0]) ∧
      bankersAlgorithmDetection (calculateNeed loneProcess) none = some (true, [0]) :=
  C20_single_process_safe loneProcess (by decide) (by decide) (by decide)

/-- C22 (counterexample): in `hugeTotalInput` the counts are positive and no entered value
is negative, and the entered Allocation 2 exceeds the entered Maximum 1; the entered total
3000000000 is above `INT_MAX`, its extraction fails, the later extractions read nothing, and
`inputFromUser` accepts with Maximum and Allocation zero and `Available = [2147483647]`.  In
`hugeSumInput` every entry is at most `INT_MAX` and Allocation is within Maximum, the column
of Allocation sums to 4294967296, above the entered total 5; the `int` sum is 0 and
`inputFromUser` accepts with `Available = [5]`. -/
theorem C22_unrepresentable_accepted :
    0 < hugeTotalInput.numProcesses ∧ 0 < hugeTotalInput.numResources ∧
      0 ≤ vget hugeTotalInput.totalResources 0 ∧ 0 ≤ mget hugeTotalInput.maximum 0 0 ∧
      0 ≤ mget hugeTotalInput.allocation 0 0 ∧
      ¬ mget hugeTotalInput.allocation 0 0 ≤ mget hugeTotalInput.maximum 0 0 ∧
      inputFromUser hugeTotalInput
        = some { numProcesses := 1, numResources := 1, available := [2147483647]
                 maximum := [[0]], allocation := [[0]], need := [[0]] } ∧
      (∀ i, i < 3 → mget hugeSumInput.allocation i 0 ≤ mget hugeSumInput.maximum i 0) ∧
      ((List.range 3).map fun k => mget hugeSumInput.allocation k 0).sum = 4294967296 ∧
      vget hugeSumInput.totalResources 0 = 5 ∧
      (inputFromUser hugeSumInput).map (fun d => d.available) = some [5] := by
  decide

/-- C22 (amended): for manual loading with `P > 0`, `R > 0` and every entered count, total,
Maximum and Allocation value between zero and `INT_MAX`, and the sum over `i` of
`Allocation[i][j]` at most `INT_MAX` for every `j`, `inputFromUser` accepts iff
`Allocation[i][j] ≤ Maximum[i][j]` for all `i`, `j` and the sum over `i` of
`Allocation[i][j]` is at most `total[j]` for all `j`; an accepted state has consistent
dimensions, holds the entered Maximum and Allocation, has
`Available[j] = total[j] - Σ_i Allocation[i][j] ≥ 0` and `Need = Maximum - Allocation`, and
satisfies invariants 1 to 3 with `Total` the entered totals. -/
theorem C22_manual_loading (inp : UserInput)
    (hP : 0 < inp.numProcesses ∧ inp.numProcesses ≤ INT_MAX)
    (hR : 0 < inp.numResources ∧ inp.numResources ≤ INT_MAX)
    (ht : ∀ j, j < inp.numResources.toNat →
      0 ≤ vget inp.totalResources j ∧ vget inp.totalResources j ≤ INT_MAX)
    (hmax : ∀ i, i < inp.numProcesses.toNat → ∀ j, j < inp.numResources.toNat →
      0 ≤ mget inp.maximum i j ∧ mget inp.maximum i j ≤ INT_MAX)
    (hal : ∀ i, i < inp.numProcesses.toNat → ∀ j, j < inp.numResources.toNat →
      0 ≤ mget inp.allocation i j ∧ mget inp.allocation i j ≤ INT_MAX)
    (hs : ∀ j, j < inp.numResources.toNat →
      ((List.range inp.numProcesses.toNat).map fun k => mget inp.allocation k j).sum
        ≤ INT_MAX) :
    ((∃ d, inputFromUser inp = some d) ↔
      ((∀ i, i < inp.numProcesses.toNat → ∀ j, j < inp.numResources.toNat →
          mget inp.allocation i j ≤ mget inp.maximum i j) ∧
        ∀ j, j < inp.numResources.toNat →
          ((List.range inp.numProcesses.toNat).map fun k => mget inp.allocation k j).sum
            ≤ vget inp.totalResources j)) ∧
    (∀ d, inputFromUser inp = some d →
      WF d ∧ (d.numProcesses : Int) = inp.numProcesses ∧
        (d.numResources : Int) = inp.numResources ∧
        (∀ i, i < d.numProcesses → ∀ j, j < d.numResources →
          mget d.maximum i j = mget inp.maximum i j ∧
          mget d.allocation i j = mget inp.allocation i j ∧
          mget d.need i j = mget d.maximum i j - mget d.allocation i j) ∧
        (∀ j, j < d.numResources →
          vget d.available j
            = vget inp.totalResources j
              - ((List.range d.numProcesses).map fun k => mget inp.allocation k j).sum ∧
          totalUnits d j = vget inp.totalResources j) ∧
        AllocInv d ∧ NeedExact d) := by
  have hval := read_values inp ht hmax hal hs
  have heq := inputFromUser_eq inp hP hR ht hmax hal
  have hany : ((List.range inp.numResources.toNat).any fun j =>
      decide (vget (readAvailable inp (readTotals inp false).1
        (readMatrix inp.allocation inp.numProcesses.toNat inp.numResources.toNat
          false).1) j < 0)) = true ↔
      ¬ ∀ j, j < inp.numResources.toNat →
        ((List.range inp.numProcesses.toNat).map fun k => mget inp.allocation k j).sum
          ≤ vget inp.totalResources j := by
    simp only [List.any_eq_true, List.mem_range, decide_eq_true_eq]
    constructor
    · rintro ⟨j, hj, hlt⟩ hall
      rw [(hval 0 j (by omega) hj).2.2] at hlt
      have := hall j hj
      omega
    · intro hnot
      by_contra hne
      apply hnot
      intro j hj
      by_contra hc
      apply hne
      refine ⟨j, hj, ?_⟩
      rw [(hval 0 j (by omega) hj).2.2]
      omega
  constructor
  · constructor
    · rintro ⟨d, hd⟩
      rw [heq] at hd
      by_cases hA : ∀ i, i < inp.numProcesses.toNat → ∀ j, j < inp.numResources.toNat →
          mget inp.allocation i j ≤ mget inp.maximum i j
      · rw [if_pos hA] at hd
        refine ⟨hA, ?_⟩
        by_contra hB
        rw [if_pos (hany.mpr hB)] at hd
        exact Option.noConfusion hd
      · rw [if_neg hA] at hd
        exact Option.noConfusion hd
    · rintro ⟨hA, hB⟩
      rw [heq, if_pos hA, if_neg (fun h => (hany.mp h) hB)]
      exact ⟨_, rfl⟩
  · intro d hd
    rw [heq] at hd
    by_cases hA : ∀ i, i < inp.numProcesses.toNat → ∀ j, j < inp.numResources.toNat →
        mget inp.allocation i j ≤ mget inp.maximum i j
    · rw [if_pos hA] at hd
      by_cases hB : ∀ j, j < inp.numResources.toNat →
          ((List.range inp.numProcesses.toNat).map fun k => mget inp.allocation k j).sum
            ≤ vget inp.totalResources j
      · rw [if_neg (fun h => (hany.mp h) hB)] at hd
        injection hd with hd
        subst hd
        have hneed : ∀ i, i < inp.numProcesses.toNat → ∀ j, j < inp.numResources.toNat →
            mget (calculateNeed
              { numProcesses := inp.numProcesses.toNat
                numResources := inp.numResources.toNat
                available := readAvailable inp (readTotals inp false).1
                  (readMatrix inp.allocation inp.numProcesses.toNat inp.numResources.toNat
                    false).1
                maximum := (readMatrix inp.maximum inp.numProcesses.toNat
                  inp.numResources.toNat false).1
                allocation := (readMatrix inp.allocation inp.numProcesses.toNat
                  inp.numResources.toNat false).1
                need := [] }).need i j
              = mget inp.maximum i j - mget inp.allocation i j := by
          intro i hi j hj
          rw [mget_calculateNeed _ i j hi hj]
          have := hA i hi j hj
          unfold needEntry
          simp only
          rw [(hval i j hi hj).1, (hval i j hi hj).2.1]
          split <;> omega
        have hunits : ∀ j, j < inp.numResources.toNat →
            totalUnits (calculateNeed
              { numProcesses := inp.numProcesses.toNat
                numResources := inp.numResources.toNat
                available := readAvailable inp (readTotals inp false).1
                  (readMatrix inp.allocation inp.numProcesses.toNat inp.numResources.toNat
                    false).1
                maximum := (readMatrix inp.maximum inp.numProcesses.toNat
                  inp.numResources.toNat false).1
                allocation := (readMatrix inp.allocation inp.numProcesses.toNat
                  inp.numResources.toNat false).1
                need := [] }) j = vget inp.totalResources j := by
          intro j hj
          unfold totalUnits
          show vget (readAvailable inp (readTotals inp false).1
              (readMatrix inp.allocation inp.numProcesses.toNat inp.numResources.toNat
                false).1) j
            + ((List.range inp.numProcesses.toNat).map fun i =>
                mget (readMatrix inp.allocation inp.numProcesses.toNat
                  inp.numResources.toNat false).1 i j).sum = vget inp.totalResources j
          rw [(hval 0 j (by omega) hj).2.2,
            sum_range_congr (fun k => mget inp.allocation k j) _ _
              (fun k hk => (hval k j hk hj).2.1)]
          omega
        refine ⟨inputFromUser_wf inp hmax hal, ?_, ?_, ?_, ?_, ?_, ?_⟩
        · show ((inp.numProcesses.toNat : Nat) : Int) = inp.numProcesses
          omega
        · show ((inp.numResources.toNat : Nat) : Int) = inp.numResources
          omega
        · intro i hi j hj
          refine ⟨(hval i j hi hj).1, (hval i j hi hj).2.1, ?_⟩
          rw [hneed i hi j hj]
          show _ = mget (readMatrix inp.maximum inp.numProcesses.toNat
              inp.numResources.toNat false).1 i j
            - mget (readMatrix inp.allocation inp.numProcesses.toNat
              inp.numResources.toNat false).1 i j
          rw [(hval i j hi hj).1, (hval i j hi hj).2.1]
        · intro j hj
          exact ⟨(hval 0 j (by omega) hj).2.2, hunits j hj⟩
        · constructor
          · intro i hi j hj
            show 0 ≤ mget (readMatrix inp.allocation inp.numProcesses.toNat
                inp.numResources.toNat false).1 i j ∧
              mget (readMatrix inp.allocation inp.numProcesses.toNat
                inp.numResources.toNat false).1 i j
              ≤ mget (readMatrix inp.maximum inp.numProcesses.toNat
                inp.numResources.toNat false).1 i j
            rw [(hval i j hi hj).1, (hval i j hi hj).2.1]
            exact ⟨(hal i hi j hj).1, hA i hi j hj⟩
          · intro j hj
            show 0 ≤ vget (readAvailable inp (readTotals inp false).1
              (readMatrix inp.allocation inp.numProcesses.toNat inp.numResources.toNat
                false).1) j
            rw [(hval 0 j (by omega) hj).2.2]
            have := hB j hj
            omega
        · intro i hi j hj
          rw [hneed i hi j hj]
          show _ = mget (readMatrix inp.maximum inp.numProcesses.toNat
              inp.numResources.toNat false).1 i j
            - mget (readMatrix inp.allocation inp.numProcesses.toNat
              inp.numResources.toNat false).1 i j
          rw [(hval i j hi hj).1, (hval i j hi hj).2.1]
      · rw [if_pos (hany.mpr hB)] at hd
        exact Option.noConfusion hd
    · rw [if_neg hA] at hd
      exact Option.noConfusion hd

theorem C22_manual_loading_witness :
    ((∃ d, inputFromUser sampleInput = some d) ↔
      ((∀ i, i < sampleInput.numProcesses.toNat → ∀ j, j < sampleInput.numResources.toNat →
          mget sampleInput.allocation i j ≤ mget sampleInput.maximum i j) ∧
        ∀ j, j < sampleInput.numResources.toNat →
          ((List.range sampleInput.numProcesses.toNat).map
              fun k => mget sampleInput.allocation k j).sum
            ≤ vget sampleInput.totalResources j)) ∧
    (∀ d, inputFromUser sampleInput = some d →
      WF d ∧ (d.numProcesses : Int) = sampleInput.numProcesses ∧
        (d.numResources : Int) = sampleInput.numResources ∧
        (∀ i, i < d.numProcesses → ∀ j, j < d.numResources →
          mget d.maximum i j = mget sampleInput.maximum i j ∧
          mget d.allocation i j = mget sampleInput.allocation i j ∧
          mget d.need i j = mget d.maximum i j - mget d.allocation i j) ∧
        (∀ j, j < d.numResources →
          vget d.available j
            = vget sampleInput.totalResources j
              - ((List.range d.numProcesses).map
                  fun k => mget sampleInput.allocation k j).sum ∧
          totalUnits d j = vget sampleInput.totalResources j) ∧
        AllocInv d ∧ NeedExact d) :=
  C22_manual_loading sampleInput (by decide) (by decide) (by decide) (by decide) (by decide)
    (by decide)

/-- C23: the state with `P = 3`, `R = 1`, `Available = [1]`, `Allocation = [[1],[1],[1]]`,
`Maximum = [[3],[3],[1]]` and Need from `calculateNeed` has consistent dimensions, satisfies
`0 ≤ Allocation ≤ Maximum`, `Available ≥ 0` and `Need = Maximum - Allocation`, has every
Maximum within the total of four units, and on it `waitForGraphDetection` finds a cycle and
reports deadlock while the evaluator reports safe with the sequence `[2, 0, 1]`. -/
theorem C23_cycle_on_safe_state :
    coarseState.available = [1] ∧ coarseState.allocation = [[1], [1], [1]] ∧
      coarseState.maximum = [[3], [3], [1]] ∧ coarseState.need = [[2], [2], [0]] ∧
      WF coarseState ∧ AllocInv coarseState ∧ NeedExact coarseState ∧
      totalUnits coarseState 0 = 4 ∧
      (∀ i, i < coarseState.numProcesses → ∀ j, j < coarseState.numResources →
        mget coarseState.maximum i j ≤ totalUnits coarseState j) ∧
      cycleSearch (buildGraph coarseState).1 coarseState.numProcesses = some true ∧
      waitForGraphDetection coarseState = some (WaitForOutcome.cycle, false) ∧
      bankersAlgorithmCompute coarseState none = some (true, [2, 0, 1]) ∧
      bankersAlgorithmDetection coarseState none = some (true, [2, 0, 1]) := by
  decide

/-- C24: in the graph built by `waitForGraphDetection`, process `i` is marked blocked iff some
resource `j` has `Need[i][j] > Available[j]`, and there is an edge from `i` to `k` iff
`k ≠ i` and some resource `j` has `Need[i][j] > Available[j]` and `Allocation[k][j] > 0`;
no process has an edge to itself, and a process that is not marked blocked has no outgoing
edge. -/
theorem C24_graph_construction (d : DeadlockDetector) (i k : Nat)
    (hi : i < d.numProcesses) (hk : k < d.numProcesses) :
    ((buildGraph d).2.getD i false = true ↔
      ∃ j, j < d.numResources ∧ mget d.need i j > vget d.available j) ∧
    (bget (buildGraph d).1 i k = true ↔
      (k ≠ i ∧ ∃ j, j < d.numResources ∧ mget d.need i j > vget d.available j ∧
        mget d.allocation k j > 0)) ∧
    bget (buildGraph d).1 i i = false ∧
    ((buildGraph d).2.getD i false = false → bget (buildGraph d).1 i k = false) := by
  obtain ⟨hg, hb⟩ := buildGraph_result d
  have hblocked : (buildGraph d).2.getD i false = true ↔
      ∃ j, j < d.numResources ∧ mget d.need i j > vget d.available j := by
    rw [hb i, ← isBlocked_iff]
    exact ⟨fun h => h.2, fun h => ⟨hi, h⟩⟩
  have hedge : bget (buildGraph d).1 i k = true ↔
      (k ≠ i ∧ ∃ j, j < d.numResources ∧ mget d.need i j > vget d.available j ∧
        mget d.allocation k j > 0) := by
    rw [hg i k]
    exact ⟨fun h => h.2.2, fun h => ⟨hi, hk, h⟩⟩
  refine ⟨hblocked, hedge, ?_, ?_⟩
  · cases hs : bget (buildGraph d).1 i i with
    | false => rfl
    | true => exact absurd rfl ((hg i i).mp hs).2.2.1
  · intro hnb
    cases hs : bget (buildGraph d).1 i k with
    | false => rfl
    | true =>
      obtain ⟨_, j, hj, hgt, _⟩ := hedge.mp hs
      rw [hblocked.mpr ⟨j, hj, hgt⟩] at hnb
      exact Bool.noConfusion hnb

theorem C24_graph_construction_witness :
    ((buildGraph coarseState).2.getD 0 false = true ↔
      ∃ j, j < coarseState.numResources ∧
        mget coarseState.need 0 j > vget coarseState.available j) ∧
    (bget (buildGraph coarseState).1 0 2 = true ↔
      (2 ≠ 0 ∧ ∃ j, j < coarseState.numResources ∧
        mget coarseState.need 0 j > vget coarseState.available j ∧
        mget coarseState.allocation 2 j > 0)) ∧
    bget (buildGraph coarseState).1 0 0 = false ∧
    ((buildGraph coarseState).2.getD 0 false = false →
      bget (buildGraph coarseState).1 0 2 = false) :=
  C24_graph_construction coarseState 0 2 (by decide) (by decide)

/-- C25 (counterexample): on `wrapState` the evaluator reports unsafe with the partial
sequence `[0]`; process 1 is stuck, yet its Need of five units is at most
`Available[0] + Allocation[0][0] = 2147483648`: the program holds `-2147483648` in `work[0]`
after the sum has left the range of `int`. -/
theorem C25_stuck_within_work :
    WF wrapState ∧ bankersAlgorithmDetection wrapState none = some (false, [0]) ∧
      masked none 1 = false ∧ 1 ∉ [0] ∧
      (∀ j, j < wrapState.numResources →
        mget wrapState.need 1 j
          ≤ vget wrapState.available j
            + ([0].map fun k => mget wrapState.allocation k j).sum) ∧
      vget wrapState.available 0 + ([0].map fun k => mget wrapState.allocation k 0).sum
        = 2147483648 := by
  decide

/-- C25 (amended): whenever the evaluator reports unsafe on a state with consistent
dimensions, non-negative Available and Allocation and
`Available[j] + Σ_i Allocation[i][j] ≤ INT_MAX` for every resource, some non-masked process
is absent from the partial sequence, the partial sequence has no repetition, holds
non-masked processes only and replays from `work = Available`, and every non-masked process
`i` absent from it has a resource `j` with `Need[i][j] > work[j]`, where `work[j]` is
`Available[j]` plus `Allocation[k][j]` summed over the partial sequence. -/
theorem C25_stuck_processes (d : DeadlockDetector) (mask : Option (List Bool)) (hwf : WF d)
    (hr : InRange d)
    (seq : List Nat) (h : bankersAlgorithmDetection d mask = some (false, seq)) :
    bankersAlgorithmCompute d mask = some (false, seq) ∧
    (∃ i, i < d.numProcesses ∧ masked mask i = false ∧ i ∉ seq) ∧
    seq.Nodup ∧ (∀ k, k ∈ seq → k < d.numProcesses ∧ masked mask k = false) ∧
    replayOK d (vget d.available) seq = true ∧
    ∀ i, i < d.numProcesses → masked mask i = false → i ∉ seq →
      ∃ j, j < d.numResources ∧
        mget d.need i j
          > vget d.available j + (seq.map fun k => mget d.allocation k j).sum := by
  rw [detection_eq_compute] at h
  obtain ⟨sc1, hinv, hcount, hseq, hstuck⟩ := compute_stuck_state d mask hwf.1 hr seq h
  subst hseq
  refine ⟨h, ?_, hinv.nodup, ?_, hinv.replay, ?_⟩
  · obtain ⟨k, hk, hm, hf⟩ := scanInv_pending d mask sc1 hinv hcount
    refine ⟨k, hk, hm, ?_⟩
    intro hmem
    rw [((hinv.mem_iff k).mp hmem).2.1] at hf
    exact Bool.noConfusion hf
  · intro k hk
    obtain ⟨a, _, c⟩ := (hinv.mem_iff k).mp hk
    exact ⟨a, c⟩
  · intro i hi hm hnot
    have hf : sc1.finish.getD i false = false := by
      cases hfi : sc1.finish.getD i false with
      | false => rfl
      | true => exact absurd ((hinv.mem_iff i).mpr ⟨hi, hfi, hm⟩) hnot
    obtain ⟨j, hj, hgt⟩ := canFinish_false d sc1.work i (hstuck i hi hf)
    refine ⟨j, hj, ?_⟩
    rw [hinv.work_eq j hj, workAfter_eq_sum] at hgt
    exact hgt

theorem C25_stuck_processes_witness :
    bankersAlgorithmCompute stuckAfterOne none = some (false, [0]) ∧
    (∃ i, i < stuckAfterOne.numProcesses ∧ masked none i = false ∧ i ∉ [0]) ∧
    [0].Nodup ∧
    (∀ k, k ∈ [0] → k < stuckAfterOne.numProcesses ∧ masked none k = false) ∧
    replayOK stuckAfterOne (vget stuckAfterOne.available) [0] = true ∧
    ∀ i, i < stuckAfterOne.numProcesses → masked none i = false → i ∉ [0] →
      ∃ j, j < stuckAfterOne.numResources ∧
        mget stuckAfterOne.need i j
          > vget stuckAfterOne.available j
            + ([0].map fun k => mget stuckAfterOne.allocation k j).sum :=
  C25_stuck_processes stuckAfterOne none (by decide) (by decide) [0] (by decide)

/-- C27: on every state and mask the evaluator returns, and its loop needs no more passes
than there are non-masked processes, which are at most `numProcesses`: run with that many
passes allowed, the loop returns what the function returns.  When there is no process or
every process is masked, the loop returns without a pass, and the result is safe with the
empty sequence. -/
theorem C27_evaluator_terminates (d : DeadlockDetector) (mask : Option (List Bool)) :
    (nonMasked d mask).card ≤ d.numProcesses ∧
    (∃ r, computeLoop d (activeCount d mask) (nonMasked d mask).card
          { work := d.available, finish := initFinish d mask, safeSequence := [],
            found := false, count := 0 } = some r ∧
        bankersAlgorithmCompute d mask = some r ∧
        bankersAlgorithmDetection d mask = some r) ∧
    ((d.numProcesses = 0 ∨ ∀ i, i < d.numProcesses → masked mask i = true) →
      computeLoop d (activeCount d mask) 0
          { work := d.available, finish := initFinish d mask, safeSequence := [],
            found := false, count := 0 } = some (true, []) ∧
        bankersAlgorithmCompute d mask = some (true, []) ∧
        bankersAlgorithmDetection d mask = some (true, [])) := by
  refine ⟨nonMasked_card_le d mask, ?_, ?_⟩
  · obtain ⟨r, h1, h2⟩ := computeLoop_within d mask
    exact ⟨r, h1, h2, by rw [detection_eq_compute]; exact h2⟩
  · intro h
    have hz := nonMasked_card_zero d mask h
    have hc := compute_all_masked d mask hz
    refine ⟨?_, hc, by rw [detection_eq_compute]; exact hc⟩
    have hact := activeCount_eq d mask
    rw [computeLoop_exit]
    simp only
    rw [hact, hz]
    simp

/-- C28: for every state, every mask and every initial content of the two output vectors,
`bankersAlgorithmDetection` and `bankersAlgorithmCompute` return, with the same flag and the
same sequence, and the object after either call is the object before it. -/
theorem C28_evaluators_agree (d : DeadlockDetector) (mask : Option (List Bool))
    (out1 out2 : List Nat) :
    bankersAlgorithmDetection d mask = bankersAlgorithmCompute d mask ∧
      detectionCall d out1 mask = computeCall d out2 mask ∧
      ∃ b seq, detectionCall d out1 mask = some (b, seq, d) ∧
        computeCall d out2 mask = some (b, seq, d) := by
  obtain ⟨⟨b, seq⟩, hr⟩ := bankersAlgorithmCompute_total d mask
  have h1 := detectionCall_eq d out1 mask
  have h2 := computeCall_eq d out2 mask
  rw [detection_eq_compute, hr] at h1
  rw [hr] at h2
  refine ⟨detection_eq_compute d mask, by rw [h1, h2], b, seq, h1, h2⟩

/-- C29 (counterexample): `smallState` and `wrapState` have the same non-negative Allocation
and the same Need, and Available is `[5]` in the first and `[2147483647]` in the second; the
evaluator reports safe on the first and unsafe on the second, where `work[0]` leaves the range
of `int` after process 0. -/
theorem C29_more_available_unsafe :
    WF smallState ∧ WF wrapState ∧
      wrapState.allocation = smallState.allocation ∧ wrapState.need = smallState.need ∧
      (∀ i, i < smallState.numProcesses → ∀ j, j < smallState.numResources →
        0 ≤ mget smallState.allocation i j) ∧
      (∀ j, j < smallState.numResources →
        vget smallState.available j ≤ vget wrapState.available j) ∧
      bankersAlgorithmCompute smallState none = some (true, [0, 1]) ∧
      bankersAlgorithmCompute wrapState none = some (false, [0]) := by
  decide

/-- C29 (amended): for two states with consistent dimensions, the same sizes, the same
non-negative Allocation and the same Need, and for every mask, if
`0 ≤ Available[j] ≤ Available2[j]` and `Available2[j] + Σ_i Allocation[i][j] ≤ INT_MAX` for
every resource `j` and the evaluator reports safe with `Available`, then it reports safe
with `Available2`. -/
theorem C29_safe_monotone (d d2 : DeadlockDetector) (mask : Option (List Bool))
    (hwf : WF d) (hwf2 : WF d2)
    (hP : d2.numProcesses = d.numProcesses) (hR : d2.numResources = d.numResources)
    (ha : d2.allocation = d.allocation) (hn : d2.need = d.need)
    (hnn : ∀ i, i < d.numProcesses → ∀ j, j < d.numResources → 0 ≤ mget d.allocation i j)
    (hav0 : ∀ j, j < d.numResources → 0 ≤ vget d.available j)
    (hav : ∀ j, j < d.numResources → vget d.available j ≤ vget d2.available j)
    (htot : ∀ j, j < d.numResources → totalUnits d2 j ≤ INT_MAX)
    (seq : List Nat) (h : bankersAlgorithmCompute d mask = some (true, seq)) :
    ∃ seq2, bankersAlgorithmCompute d2 mask = some (true, seq2) ∧
      bankersAlgorithmDetection d2 mask = some (true, seq2) := by
  have hr : InRange d := by
    refine ⟨hav0, hnn, ?_⟩
    intro j hj
    have h1 := htot j hj
    have h2 := hav j hj
    unfold totalUnits at h1 ⊢
    rw [hP, ha] at h1
    omega
  have hr2 : InRange d2 := by
    refine ⟨?_, ?_, ?_⟩
    · intro j hj
      rw [hR] at hj
      have h1 := hav0 j hj
      have h2 := hav j hj
      omega
    · rw [hP, hR, ha]; exact hnn
    · rw [hR]; exact htot
  obtain ⟨hnd, hmem, hrep⟩ := compute_safe_sound d mask hwf.1 hr seq h
  obtain ⟨seq2, h2⟩ := compute_safe_complete d2 mask hwf2.1 hr2 seq hnd
    (by rw [hP]; exact hmem)
    (by
      rw [replayOK_congr d d2 hR ha hn]
      exact replayOK_mono d seq _ _ hav hrep)
  exact ⟨seq2, h2, by rw [detection_eq_compute]; exact h2⟩

theorem C29_safe_monotone_witness :
    ∃ seq2, bankersAlgorithmCompute { classic with available := [4, 3, 5] } none
        = some (true, seq2) ∧
      bankersAlgorithmDetection { classic with available := [4, 3, 5] } none
        = some (true, seq2) :=
  C29_safe_monotone classic { classic with available := [4, 3, 5] } none (by decide)
    (by decide) rfl rfl rfl rfl (by decide) (by decide) (by decide) (by decide)
    [1, 3, 4, 0, 2] (by decide)

end Deadlock
